import Mathlib

/-!
# A verification development for `mm.c`

`mm.c` is a 64-bit boundary-tag allocator with three segregated, doubly linked
free lists (`malloc`, `free`, `realloc`, `calloc`, `mm_checkheap`).

The embedding is shallow.  The heap is a byte-addressed memory `Nat → Nat`;
a `word_t` access reads or writes eight consecutive bytes (little endian).
`size_t` and pointers are natural numbers below `2^64`; every addition,
subtraction and multiplication of the source is followed by `% 2^64`.
The global variables of `mm.c` and the state of the heap-growth primitive are
the fields of `State`.  Loops whose trip count is not bounded by the source
(`clear_free_list`, `mm_checkheap`) take a fuel argument and return `none`
when it runs out.
-/

namespace MM

/-! ## Machine words and memory -/

/-- Pointer or `size_t` addition, wrapping at `2^64`. -/
def padd (a b : Nat) : Nat := (a + b) % 2^64

/-- Pointer or `size_t` subtraction, wrapping at `2^64`. -/
def psub (a b : Nat) : Nat := (a + (2^64 - b % 2^64)) % 2^64

/-- Read of a `word_t` at byte address `a`. -/
def load64 (m : Nat → Nat) (a : Nat) : Nat :=
  m a % 256 + 256 * (m (a + 1) % 256 + 256 * (m (a + 2) % 256 + 256 * (m (a + 3) % 256
    + 256 * (m (a + 4) % 256 + 256 * (m (a + 5) % 256 + 256 * (m (a + 6) % 256
    + 256 * (m (a + 7) % 256)))))))

/-- Write of a `word_t` at byte address `a`. -/
def store64 (m : Nat → Nat) (a v : Nat) : Nat → Nat :=
  fun x => if a ≤ x ∧ x < a + 8 then (v / 256 ^ (x - a)) % 256 else m x

/-- The libc `memset`: `n` bytes from `p` are set to the byte `c`. -/
def memset_bytes (m : Nat → Nat) (p c n : Nat) : Nat → Nat :=
  fun x => if p ≤ x ∧ x < p + n then c % 256 else m x

/-- The libc `memcpy` of `n` bytes from `src` to `dst` (the ranges do not overlap). -/
def memcpy_bytes (m : Nat → Nat) (dst src n : Nat) : Nat → Nat :=
  fun x => if dst ≤ x ∧ x < dst + n then m (src + (x - dst)) else m x

/-! ## Constants of `mm.c` -/

def wsize : Nat := 8
def dsize : Nat := 16
def min_block_size : Nat := 32
def chunksize : Nat := 4096
def alloc_mask : Nat := 1
def size_mask : Nat := 2^64 - 16
def seg_num : Nat := 3
def first_list : Nat := 0
def second_list : Nat := 1
def third_list : Nat := 2
def cat1 : Nat := 32
def cat2 : Nat := 48
def cat3 : Nat := 64
def N : Nat := 20

/-- The null pointer. -/
def NULL : Nat := 0

/-- The failure value `(void *)-1` of the heap-growth primitive. -/
def SBRK_FAIL : Nat := 2^64 - 1

/-! ## State -/

/-- The global variables of `mm.c`, the byte memory, and the three pointers of the
heap-growth primitive. -/
structure State where
  mem : Nat → Nat
  mem_start_brk : Nat
  mem_brk : Nat
  mem_max_addr : Nat
  heap_start : Nat
  heap_prol : Nat
  heap_epil : Nat
  all_free_list_start : Nat → Nat
  all_free_list_end : Nat → Nat

/-- Word read in a state. -/
def State.rd (s : State) (a : Nat) : Nat := load64 s.mem a

/-- Word write in a state. -/
def State.wr (s : State) (a v : Nat) : State := { s with mem := store64 s.mem a v }

/-- Assignment to both `all_free_list_start[ind]` and `all_free_list_end[ind]`. -/
def State.setList (s : State) (ind st en : Nat) : State :=
  { s with
    all_free_list_start := fun i => if i = ind then st else s.all_free_list_start i
    all_free_list_end := fun i => if i = ind then en else s.all_free_list_end i }

/-- Assignment to `mem_brk`, the top of the heap of the growth primitive. -/
def State.setBrk (s : State) (b : Nat) : State := { s with mem_brk := b }

/-- Assignment to `heap_start`, `heap_prol` and `heap_epil`. -/
def State.setHeap (s : State) (hs hp he : Nat) : State :=
  { s with heap_start := hs, heap_prol := hp, heap_epil := he }

/-- Assignment to `heap_epil`. -/
def State.setEpil (s : State) (he : Nat) : State := { s with heap_epil := he }

/-- Replacement of the byte memory (by `memcpy` or `memset`). -/
def State.setMem (s : State) (m : Nat → Nat) : State := { s with mem := m }

/-- Modelled from the spec: the heap-growth primitive `mem_sbrk` of `memlib.c`, which is not
part of the source tree.  It extends the heap by `incr` bytes and returns the previous top, or
returns the failure value and changes nothing when the heap would exceed its maximum. -/
def mem_sbrk (s : State) (incr : Nat) : Nat × State :=
  if s.mem_brk + incr > s.mem_max_addr then (SBRK_FAIL, s)
  else (s.mem_brk, s.setBrk (s.mem_brk + incr))

/-- Modelled from the spec: the heap-extent query `mem_heapsize` of `memlib.c`, which is not
part of the source tree: the current total heap size in bytes. -/
def mem_heapsize (s : State) : Nat := s.mem_brk - s.mem_start_brk

/-! ## Pure helpers -/

def max (x y : Nat) : Nat := if x > y then x else y

def round_up (size n : Nat) : Nat := (n * (((size + (n - 1)) % 2^64) / n)) % 2^64

def pack (size : Nat) (alloc : Bool) : Nat := if alloc then size ||| alloc_mask else size

def extract_size (word : Nat) : Nat := word &&& size_mask

def extract_alloc (word : Nat) : Bool := (word &&& alloc_mask) != 0

/-! ## Block accessors -/

/-- Address of `block->free_prev`. -/
def prevField (block : Nat) : Nat := padd block 8

/-- Address of `block->free_next`. -/
def nextField (block : Nat) : Nat := padd block 16

def get_size (s : State) (block : Nat) : Nat := extract_size (s.rd block)

def get_payload_size (s : State) (block : Nat) : Nat := psub (get_size s block) dsize

def get_alloc (s : State) (block : Nat) : Bool := extract_alloc (s.rd block)

def write_header (s : State) (block size : Nat) (alloc : Bool) : State :=
  s.wr block (pack size alloc)

def write_footer (s : State) (block size : Nat) (alloc : Bool) : State :=
  s.wr (psub (padd (padd block 8) (get_size s block)) dsize) (pack size alloc)

def find_next (s : State) (block : Nat) : Nat := padd block (get_size s block)

def find_prev_footer (block : Nat) : Nat := psub block 8

def find_prev (s : State) (block : Nat) : Nat :=
  psub block (extract_size (s.rd (find_prev_footer block)))

def payload_to_header (bp : Nat) : Nat := psub bp 8

def header_to_payload (block : Nat) : Nat := padd block 8

/-! ## Free lists -/

def list_add (s : State) (block free_list_start free_list_end ind : Nat) : State :=
  if block = NULL ∨ get_alloc s block = true then s
  else if free_list_start = NULL then
    let s1 := s.wr (prevField block) NULL
    let s2 := s1.wr (nextField block) NULL
    s2.setList ind block block
  else
    let s1 := s.wr (nextField block) free_list_start
    let s2 := s1.wr (prevField block) NULL
    let s3 := s2.wr (prevField free_list_start) block
    s3.setList ind block free_list_end

def list_rem (s : State) (block free_list_start free_list_end ind : Nat) : State :=
  if block = NULL ∨ get_alloc s block = true ∨ free_list_start = NULL then s
  else
    let r : State × Nat × Nat :=
      if free_list_start = free_list_end then (s, NULL, NULL)
      else if block = free_list_start then
        let st := s.rd (nextField block)
        (s.wr (prevField st) NULL, st, free_list_end)
      else if block = free_list_end then
        let en := s.rd (prevField block)
        (s.wr (nextField en) NULL, free_list_start, en)
      else
        let s1 := s.wr (prevField (s.rd (nextField block))) (s.rd (prevField block))
        (s1.wr (nextField (s1.rd (prevField block))) (s1.rd (nextField block)),
          free_list_start, free_list_end)
    let s2 := r.1.wr (prevField block) NULL
    let s3 := s2.wr (nextField block) NULL
    s3.setList ind r.2.1 r.2.2

def add_to_free_list (s : State) (block : Nat) : State :=
  let block_size := get_size s block
  let s1 := if cat1 ≤ block_size ∧ block_size < cat2 then
      list_add s block (s.all_free_list_start first_list) (s.all_free_list_end first_list)
        first_list
    else s
  let s2 := if cat2 ≤ block_size ∧ block_size < cat3 then
      list_add s1 block (s1.all_free_list_start second_list) (s1.all_free_list_end second_list)
        second_list
    else s1
  if cat3 ≤ block_size then
    list_add s2 block (s2.all_free_list_start third_list) (s2.all_free_list_end third_list)
      third_list
  else s2

def rem_from_free_list (s : State) (block : Nat) : State :=
  let block_size := get_size s block
  let s1 := if cat1 ≤ block_size ∧ block_size < cat2 then
      list_rem s block (s.all_free_list_start first_list) (s.all_free_list_end first_list)
        first_list
    else s
  let s2 := if cat2 ≤ block_size ∧ block_size < cat3 then
      list_rem s1 block (s1.all_free_list_start second_list) (s1.all_free_list_end second_list)
        second_list
    else s1
  if cat3 ≤ block_size then
    list_rem s2 block (s2.all_free_list_start third_list) (s2.all_free_list_end third_list)
      third_list
  else s2

/-- The inner loop of `clear_free_list` for one tier, started at `free_block`. -/
def clear_loop : Nat → State → Nat → Option State
  | 0, s, free_block => if free_block = NULL then some s else none
  | fuel + 1, s, free_block =>
    if free_block = NULL then some s
    else
      let s1 := rem_from_free_list s free_block
      clear_loop fuel s1 (s1.rd (nextField free_block))

def clear_free_list (fuel : Nat) (s : State) : Option State :=
  if s.all_free_list_start first_list = NULL ∧ s.all_free_list_start second_list = NULL
      ∧ s.all_free_list_start third_list = NULL then some s
  else
    (clear_loop fuel s (s.all_free_list_start 0)).bind fun s0 =>
    (clear_loop fuel s0 (s0.all_free_list_start 1)).bind fun s1 =>
    clear_loop fuel s1 (s1.all_free_list_start 2)

/-! ## Coalescing, heap extension, placement, fit search -/

def coalesce (s : State) (block : Nat) : Nat × State :=
  if get_alloc s block = true then (block, s)
  else
    let block_prev_footer := find_prev_footer block
    let block_next_header := padd block (get_size s block)
    let alloc_prev := extract_alloc (s.rd block_prev_footer)
    let alloc_next := extract_alloc (s.rd block_next_header)
    let r0 : Nat × State := (NULL, s)
    let r1 : Nat × State :=
      if (!alloc_prev && !alloc_next) = true then
        let t := r0.2
        let block_prev := find_prev t block
        let block_next := find_next t block
        let size_total :=
          padd (padd (get_size t block) (get_size t block_prev)) (get_size t block_next)
        let t1 := rem_from_free_list t block_prev
        let t2 := rem_from_free_list t1 block_next
        let t3 := rem_from_free_list t2 block
        let t4 := write_header t3 block_prev size_total false
        let t5 := write_footer t4 block_next size_total false
        (block_prev, t5)
      else r0
    let r2 : Nat × State :=
      if (alloc_prev && !alloc_next) = true then
        let t := r1.2
        let block_next := find_next t block
        let size_total := padd (get_size t block) (get_size t block_next)
        let t1 := rem_from_free_list t block_next
        let t2 := rem_from_free_list t1 block
        let t3 := write_header t2 block size_total false
        let t4 := write_footer t3 block_next size_total false
        (block, t4)
      else r1
    let r3 : Nat × State :=
      if (!alloc_prev && alloc_next) = true then
        let t := r2.2
        let block_prev := find_prev t block
        let size_total := padd (get_size t block) (get_size t block_prev)
        let t1 := rem_from_free_list t block_prev
        let t2 := rem_from_free_list t1 block
        let t3 := write_header t2 block_prev size_total false
        let t4 := write_footer t3 block size_total false
        (block_prev, t4)
      else r2
    let r4 : Nat × State :=
      if (alloc_prev && alloc_next) = true then (block, rem_from_free_list r3.2 block)
      else r3
    (r4.1, add_to_free_list r4.2 r4.1)

def extend_heap (s : State) (size : Nat) : Nat × State :=
  let size := round_up size dsize
  let r := mem_sbrk s size
  if r.1 = SBRK_FAIL then (NULL, r.2)
  else
    let s1 := r.2.setEpil (padd r.2.heap_epil size)
    let block := payload_to_header r.1
    let s2 := write_header s1 block size false
    let s3 := write_footer s2 block size false
    let s4 := add_to_free_list s3 block
    let block_next := find_next s4 block
    let s5 := write_header s4 block_next 0 true
    coalesce s5 block

def place (s : State) (block asize : Nat) : State :=
  let csize := get_size s block
  if min_block_size ≤ psub csize asize then
    let s1 := rem_from_free_list s block
    let s2 := write_header s1 block asize true
    let s3 := write_footer s2 block asize true
    let block_next := find_next s3 block
    let s4 := write_header s3 block_next (psub csize asize) false
    let s5 := write_footer s4 block_next (psub csize asize) false
    add_to_free_list s5 block_next
  else
    let s1 := rem_from_free_list s block
    let s2 := write_header s1 block csize true
    write_footer s2 block csize true

/-- The scan loop of `find_fit`; `k` is the number of iterations the bound `i <= N` still
allows (`N + 1 - i`). -/
def find_fit_loop (s : State) (asize : Nat) : Nat → Nat → Nat → Nat → Nat
  | 0, _, _, min_block => min_block
  | k + 1, free_block, min_diff, min_block =>
    if free_block = NULL then min_block
    else
      let fits := asize ≤ get_size s free_block
        ∧ psub (get_size s free_block) asize < min_diff
      find_fit_loop s asize k (s.rd (nextField free_block))
        (if fits then psub (get_size s free_block) asize else min_diff)
        (if fits then free_block else min_block)

/-- The list that `find_fit` selects for `asize` (null when every candidate is empty). -/
def find_fit_start (s : State) (asize : Nat) : Nat :=
  let f0 : Nat := NULL
  let f1 := if cat1 ≤ asize ∧ asize < cat2 then
      (if s.all_free_list_start first_list = NULL then
        (if s.all_free_list_start second_list = NULL then s.all_free_list_start third_list
         else s.all_free_list_start second_list)
       else s.all_free_list_start first_list)
    else f0
  let f2 := if cat2 ≤ asize ∧ asize < cat3 then
      (if s.all_free_list_start second_list = NULL then s.all_free_list_start third_list
       else s.all_free_list_start second_list)
    else f1
  if cat3 ≤ asize then s.all_free_list_start third_list else f2

def find_fit (s : State) (asize : Nat) : Nat :=
  let free_list_start := find_fit_start s asize
  if free_list_start = NULL then NULL
  else find_fit_loop s asize (N + 1) free_list_start (mem_heapsize s) NULL

/-! ## Public operations -/

def mm_init (fuel : Nat) (s : State) : Option (Bool × State) :=
  let s0 := s.setHeap NULL NULL NULL
  (clear_free_list fuel s0).bind fun s1 =>
    let r := mem_sbrk s1 (2 * wsize)
    if r.1 = SBRK_FAIL then some (false, r.2)
    else
      let start := r.1
      let s2 := r.2.wr start (pack 0 true)
      let s3 := s2.wr (padd start 8) (pack 0 true)
      let s4 := s3.setHeap (padd start 8) start (padd start 8)
      let e := extend_heap s4 chunksize
      if e.1 = NULL then some (false, e.2) else some (true, e.2)

/-- The body of `malloc` after the lazy initialisation. -/
def malloc_body (s : State) (size : Nat) : Nat × State :=
  if size = 0 then (NULL, s)
  else
    let asize := round_up (padd size dsize) dsize
    let block := find_fit s asize
    if block = NULL then
      let extendsize := max asize chunksize
      let e := extend_heap s extendsize
      if e.1 = NULL then (NULL, e.2)
      else (header_to_payload e.1, place e.2 e.1 asize)
    else (header_to_payload block, place s block asize)

def malloc (fuel : Nat) (s : State) (size : Nat) : Option (Nat × State) :=
  if s.heap_start = NULL then
    (mm_init fuel s).bind fun r => some (malloc_body r.2 size)
  else some (malloc_body s size)

def free (s : State) (bp : Nat) : State :=
  if bp = NULL then s
  else
    let block := payload_to_header bp
    let size := get_size s block
    let s1 := write_header s block size false
    let s2 := write_footer s1 block size false
    let s3 := add_to_free_list s2 block
    (coalesce s3 block).2

def realloc (fuel : Nat) (s : State) (ptr size : Nat) : Option (Nat × State) :=
  let block := payload_to_header ptr
  if size = 0 then some (NULL, free s ptr)
  else if ptr = NULL then malloc fuel s size
  else
    (malloc fuel s size).bind fun r =>
      let newptr := r.1
      if newptr = NULL then some (NULL, r.2)
      else
        let copysize0 := get_payload_size r.2 block
        let copysize := if size < copysize0 then size else copysize0
        let s1 := r.2.setMem (memcpy_bytes r.2.mem newptr ptr copysize)
        some (newptr, free s1 ptr)

/-- The division `asize/elements` is undefined for `elements = 0`: the model returns `none`. -/
def calloc (fuel : Nat) (s : State) (elements size : Nat) : Option (Nat × State) :=
  let asize := (elements * size) % 2^64
  if elements = 0 then none
  else if asize / elements ≠ size then some (NULL, s)
  else
    (malloc fuel s asize).bind fun r =>
      let bp := r.1
      if bp = NULL then some (NULL, r.2)
      else some (bp, r.2.setMem (memset_bytes r.2.mem bp 0 asize))

/-- The free-list walk of `mm_checkheap` for one tier: `some true` when the walk reaches the
end of the list, `some false` when a check fails. -/
def check_list : Nat → State → Nat → Option Bool
  | 0, _, free_block => if free_block = NULL then some true else none
  | fuel + 1, s, free_block =>
    if free_block = NULL then some true
    else if get_alloc s free_block = true then some false
    else
      let cur_header := s.rd free_block
      let cur_footer := s.rd (psub (padd free_block (get_size s free_block)) 8)
      if cur_header ≠ cur_footer then some false
      else check_list fuel s (s.rd (nextField free_block))

/-- The loop over the tiers in `mm_checkheap`, from tier `i`. -/
def check_tiers (fuel : Nat) (s : State) : Nat → Nat → Option Bool
  | 0, _ => some true
  | k + 1, i =>
    match check_list fuel s (s.all_free_list_start i) with
    | none => none
    | some false => some false
    | some true => check_tiers fuel s k (i + 1)

/-- The heap walk of `mm_checkheap`, from `cur_block`. -/
def check_walk : Nat → State → Nat → Option Bool
  | 0, s, cur_block => if get_size s cur_block > 0 then none else some true
  | fuel + 1, s, cur_block =>
    if get_size s cur_block > 0 then
      if cur_block < s.heap_prol ∨ cur_block > s.heap_epil then some false
      else if (!get_alloc s cur_block && !get_alloc s (find_next s cur_block)) = true then
        some false
      else
        match check_tiers (fuel + 1) s seg_num 0 with
        | none => none
        | some false => some false
        | some true => check_walk fuel s (find_next s cur_block)
    else some true

def mm_checkheap (fuel : Nat) (s : State) : Option Bool := check_walk fuel s s.heap_start

/-! ## Concrete runs -/

/-- The state at process start: the globals of `mm.c` hold their static initialisers, the
heap-growth primitive owns the empty range at `base` and may grow up to `limit`. -/
def boot (m : Nat → Nat) (base limit : Nat) : State where
  mem := m
  mem_start_brk := base
  mem_brk := base
  mem_max_addr := limit
  heap_start := NULL
  heap_prol := NULL
  heap_epil := NULL
  all_free_list_start := fun _ => NULL
  all_free_list_end := fun _ => NULL

/-- A zero-filled machine whose heap starts at `0x10000` and may grow by one megabyte. -/
def boot0 : State := boot (fun _ => 0) 65536 (65536 + 1048576)

/-- The state after `mm_init()` at process start. -/
def fresh : Option State := (mm_init 0 boot0).map fun r => r.2

/-- Runs `mm_init(); x = malloc(2^64 - 1); y = malloc(8160); free(x)` and returns `x` with the
states before and after the `free`. -/
def run_tiny_block : Option (Nat × State × State) :=
  fresh.bind fun s0 =>
  (malloc 0 s0 (2^64 - 1)).bind fun x =>
  (malloc 0 x.2 8160).bind fun y =>
  some (x.1, y.2, free y.2 x.1)

/-- Runs `mm_init(); a = malloc(64); b = malloc(64); free(a); p = malloc(2^64 - 16); free(p);
malloc(100)` and returns the final state. -/
def run_double_insert : Option State :=
  fresh.bind fun s0 =>
  (malloc 0 s0 64).bind fun a =>
  (malloc 0 a.2 64).bind fun b =>
  (malloc 0 (free b.2 a.1) (2^64 - 16)).bind fun p =>
  (malloc 0 (free p.2 p.1) 100).bind fun q =>
  some q.2

/-- Runs `mm_init(); p = malloc(8192); q = realloc(p, 2^64 - 16)` and returns `q` and the final
state. -/
def run_realloc_overrun : Option (Nat × State) :=
  fresh.bind fun s0 =>
  (malloc 0 s0 8192).bind fun p =>
  realloc 0 p.2 p.1 (2^64 - 16)

/-- Runs `mm_init(); p = malloc(16)`, stores the word `0x1122334455667788` at `p`, then runs
`q = realloc(p, 2^64 - 16)`; returns `p`, the state before the `realloc`, and its result. -/
def run_realloc_lost : Option (Nat × State × Nat × State) :=
  fresh.bind fun s0 =>
  (malloc 0 s0 16).bind fun p =>
  let s1 : State := p.2.wr p.1 1234605616436508552
  (realloc 0 s1 p.1 (2^64 - 16)).bind fun q =>
  some (p.1, s1, q.1, q.2)

/-! ## The heap invariant -/

/-- A block of the heap as the invariant sees it: the address of its header, its size and
its allocation flag. -/
structure Blk where
  addr : Nat
  size : Nat
  alloc : Bool

/-- The blocks `bs` tile the address range from `a` to `e`, each with a size that is a
multiple of 16 and at least 32. -/
def Layout : Nat → List Blk → Nat → Prop
  | a, [], e => a = e
  | a, b :: bs, e => b.addr = a ∧ 32 ≤ b.size ∧ b.size % 16 = 0 ∧ Layout (a + b.size) bs e

/-- The index of the free list that holds blocks of the given size. -/
def tier (size : Nat) : Nat :=
  if size < cat2 then first_list else if size < cat3 then second_list else third_list

/-- The nodes `xs` form a segment of a doubly linked list in memory: the `free_prev` field of
the first node is `p`, every `free_next` field holds the following node, the last one holds
`nx`. -/
def Seg (m : Nat → Nat) : Nat → List Nat → Nat → Prop
  | _, [], _ => True
  | p, x :: xs, nx => load64 m (x + 8) = p ∧ load64 m (x + 16) = xs.headD nx ∧ Seg m x xs nx

/-- The blocks `bs` tile the heap between the prologue and the epilogue, the heap lies
within the range of the growth primitive, and every block carries its header and footer. -/
structure Heap (s : State) (bs : List Blk) : Prop where
  prol : s.heap_prol + 8 = s.heap_start
  brk0 : s.mem_start_brk ≤ s.heap_prol
  brk : s.heap_epil + 8 = s.mem_brk
  lim : s.mem_brk ≤ s.mem_max_addr
  lim64 : s.mem_max_addr < 2^64
  layout : Layout s.heap_start bs s.heap_epil
  prologue : s.rd s.heap_prol = pack 0 true
  tags : ∀ b ∈ bs, s.rd b.addr = pack b.size b.alloc
    ∧ s.rd (b.addr + b.size - 8) = pack b.size b.alloc

/-- The free lists `L 0`, `L 1`, `L 2` are null-terminated doubly linked lists without
repetition whose nodes are free blocks of the matching tier; `all_free_list_start` and
`all_free_list_end` hold their first and last nodes. -/
structure Lists (s : State) (bs : List Blk) (L : Nat → List Nat) : Prop where
  links : ∀ i, Seg s.mem NULL (L i) NULL
  heads : ∀ i, s.all_free_list_start i = (L i).headD NULL
  tails : ∀ i, s.all_free_list_end i = (L i).getLastD NULL
  nodup : ∀ i, (L i).Nodup
  nodes : ∀ i, ∀ x ∈ L i, ∃ b ∈ bs, b.addr = x ∧ b.alloc = false ∧ tier b.size = i

/-- The structural part of the invariant, which also holds between the steps of an
operation. -/
structure Core (s : State) (bs : List Blk) (L : Nat → List Nat) : Prop where
  heap : Heap s bs
  lists : Lists s bs L

/-- The operation from `s` to `t` leaves `heap_epil` and every byte from there on as they
are. -/
def Top (s t : State) : Prop :=
  t.heap_epil = s.heap_epil ∧ ∀ x, s.heap_epil ≤ x → t.mem x = s.mem x

/-- No two physically adjacent blocks are both free. -/
def NoAdj (bs : List Blk) : Prop :=
  List.Chain' (fun x y : Blk => x.alloc = true ∨ y.alloc = true) bs

/-- The invariant that holds after every completed operation. -/
structure Inv (s : State) (bs : List Blk) (L : Nat → List Nat) : Prop where
  core : Core s bs L
  epilogue : s.rd s.heap_epil = pack 0 true
  full : ∀ b ∈ bs, b.alloc = false → b.addr ∈ L (tier b.size)
  noadj : NoAdj bs

/-- The outcome `r` of coalescing the free block `b` of the heap `bs` in state `s`: the
invariant holds again, the returned block is free and covers `b`, and every allocated block
is still there. -/
def Merged (s : State) (bs : List Blk) (b : Blk) (r : Nat × State) : Prop :=
  ∃ bs' L' m, Inv r.2 bs' L' ∧ m ∈ bs' ∧ m.addr = r.1 ∧ m.alloc = false ∧ m.addr ≤ b.addr
    ∧ b.addr + b.size ≤ m.addr + m.size ∧ (∀ c ∈ bs, c.alloc = true → c ∈ bs') ∧ Top s r.2

/-- The state of `extend_heap` after the heap has grown by `size` bytes and the new range
has been formatted as one free block. -/
def grown (s : State) (size : Nat) : State :=
  (((s.setBrk (s.mem_brk + size)).setEpil (s.heap_epil + size)).wr s.heap_epil
    (pack size false)).wr (s.heap_epil + size - 8) (pack size false)

/-- The state in which `mm_init`, called at process start, calls `extend_heap`: the prologue
and the epilogue are in place and the heap holds no block. -/
def seeded (m : Nat → Nat) (base limit : Nat) : State :=
  ((((boot m base limit).setBrk (base + 16)).wr base (pack 0 true)).wr (base + 8)
    (pack 0 true)).setHeap (base + 8) base (base + 8)

/-- Every live pointer `(p, n)` is the payload of an allocated block with room for `n`
bytes before its last word, and no pointer is live twice. -/
def LiveOK (bs : List Blk) (live : List (Nat × Nat)) : Prop :=
  (∀ e ∈ live, ∃ b ∈ bs, b.alloc = true ∧ e.1 = b.addr + 8 ∧ e.2 + 16 ≤ b.size)
    ∧ (live.map Prod.fst).Nodup

/-- The block headers found by walking the heap from `cur_block` by block sizes until a
header of size 0 (the walk of `mm_checkheap`). -/
def heap_blocks : Nat → State → Nat → List Nat
  | 0, _, _ => []
  | fuel + 1, s, cur_block =>
    if get_size s cur_block > 0 then
      cur_block :: heap_blocks fuel s (find_next s cur_block)
    else []

/-- The states reachable from a successful `mm_init` at process start by `malloc` calls
whose request size `n` satisfies `n + 31 < 2^64` and by `free` calls on live pointers,
together with the list of live pointers and their request sizes. -/
inductive Reach : State → List (Nat × Nat) → Prop
  | init (fuel : Nat) (m : Nat → Nat) (base limit : Nat) (s : State) :
      limit < 2^64 → mm_init fuel (boot m base limit) = some (true, s) → Reach s []
  | malloc (fuel : Nat) (s s' : State) (live : List (Nat × Nat)) (n p : Nat) :
      Reach s live → n + 31 < 2^64 → MM.malloc fuel s n = some (p, s') → p ≠ NULL →
      Reach s' ((p, n) :: live)
  | malloc_null (fuel : Nat) (s s' : State) (live : List (Nat × Nat)) (n : Nat) :
      Reach s live → n + 31 < 2^64 → MM.malloc fuel s n = some (NULL, s') → Reach s' live
  | free (s : State) (live : List (Nat × Nat)) (p n : Nat) :
      Reach s live → (p, n) ∈ live → Reach (MM.free s p) (live.filter fun e => e.1 ≠ p)
  | free_null (s : State) (live : List (Nat × Nat)) :
      Reach s live → Reach (MM.free s NULL) live

/-! ## Concrete states -/

/-- The state after `mm_init` at process start on a zero-filled machine whose heap starts at
`0x10000` and may grow by one megabyte. -/
def init_state : State := (extend_heap (seeded (fun _ => 0) 65536 1114112) chunksize).2

/-- The outcome of `malloc(16)` right after `mm_init`. -/
def first_malloc : Nat × State := malloc_body init_state 16

/-- The outcome of `malloc(24)` after that. -/
def second_malloc : Nat × State := malloc_body first_malloc.2 24

/-- The state after `mm_init` at process start on a machine whose memory holds the byte 255
everywhere. -/
def dirty_state : State := (extend_heap (seeded (fun _ => 255) 65536 1114112) chunksize).2

/-- The outcome of `calloc(4, 8)` in `dirty_state`. -/
def calloc_result : Nat × State := (calloc 0 dirty_state 4 8).getD (NULL, dirty_state)

/-- The state after `mm_init` at process start on a machine whose heap cannot grow beyond
the first chunk. -/
def small_state : State := (extend_heap (seeded (fun _ => 0) 65536 (65536 + 16 + 4096)) chunksize).2

/-- The outcome of `malloc(16)` in `small_state`. -/
def small_malloc : Nat × State := malloc_body small_state 16

/-! ## Further concrete runs -/

/-- The nodes met from `free_block` on by following `free_next`, at most `fuel` of them. -/
def free_list_nodes : Nat → State → Nat → List Nat
  | 0, _, _ => []
  | fuel + 1, s, free_block =>
    if free_block = NULL then []
    else free_block :: free_list_nodes fuel s (s.rd (nextField free_block))

/-- Runs `run_double_insert`, then `B = malloc(200); C = malloc(200); free(B); free(C)`;
returns `B`, `C`, the state before the two `free` calls and the state after them. -/
def run_free_pair : Option (Nat × Nat × State × State) :=
  run_double_insert.bind fun s =>
  (malloc 0 s 200).bind fun b =>
  (malloc 0 b.2 200).bind fun c =>
  some (b.1, c.1, c.2, free (free c.2 b.1) c.1)

/-- Runs `mm_init(); a = malloc(64); b = malloc(64); free(a); mm_init()` and returns the
result of the second `mm_init` with the state before it and the state after it. -/
def run_reinit : Option (Bool × State × State) :=
  fresh.bind fun s0 =>
  (malloc 0 s0 64).bind fun a =>
  (malloc 0 a.2 64).bind fun b =>
  (mm_init 2 (free b.2 a.1)).bind fun r =>
  some (r.1, free b.2 a.1, r.2)

/-- The word at the 8-byte aligned address `a` in `scan_heap`: the prologue at `65536`, for
`k < 20` a free block of size 64 at `65544 + 96 * k` followed by an allocated block of size
32, a free block of size 2176 at `67464`, and the epilogue at `69640`.  The `free_next` links
lead from the block with `k = 19` down to the block with `k = 0` and from there to the block
at `67464`. -/
def scan_word (a : Nat) : Nat :=
  if a = 65536 ∨ a = 69640 then 1
  else if 65544 ≤ a ∧ a < 67464 then
    if (a - 65544) % 96 = 0 ∨ (a - 65544) % 96 = 56 then 64
    else if (a - 65544) % 96 = 8 then
      (if (a - 65544) / 96 = 19 then 0 else 65544 + 96 * ((a - 65544) / 96 + 1))
    else if (a - 65544) % 96 = 16 then
      (if (a - 65544) / 96 = 0 then 67464 else 65544 + 96 * ((a - 65544) / 96 - 1))
    else if (a - 65544) % 96 = 64 ∨ (a - 65544) % 96 = 88 then 33
    else 0
  else if a = 67464 ∨ a = 69632 then 2176
  else if a = 67472 then 65544
  else 0

/-- The heap that `mm_init()`, then twenty times `x = malloc(48); g = malloc(16)`, then
`free(x)` for the twenty pointers `x` in the order of their allocation leave on the machine
of `boot0`, written out word by word. -/
def scan_heap : State where
  mem := fun x => (scan_word (x / 8 * 8) / 256 ^ (x % 8)) % 256
  mem_start_brk := 65536
  mem_brk := 69648
  mem_max_addr := 1114112
  heap_start := 65544
  heap_prol := 65536
  heap_epil := 69640
  all_free_list_start := fun i => if i = 2 then 67368 else 0
  all_free_list_end := fun i => if i = 2 then 67464 else 0

/-- The outcome of `coalesce` on the block at `x` when it merges the blocks `mid` of the heap
`pre ++ mid ++ post` into one block at `lo` of size `tot`: the state `t` before the final
`add_to_free_list` has the merged block in no list, and its lists are the lists `L` without
the blocks `mid`. -/
def Joined (s : State) (L : Nat → List Nat) (x : Nat) (pre mid post : List Blk)
    (lo tot : Nat) : Prop :=
  ∃ L2 t, coalesce s x = (lo, add_to_free_list t lo)
    ∧ Core t (pre ++ [⟨lo, tot, false⟩] ++ post) L2
    ∧ (∀ i y, y ∈ L2 i ↔ (y ∈ L i ∧ ∀ r ∈ mid, y ≠ r.addr))
    ∧ Top s t

/-- The free block at the end of `pre`, as a list of at most one block. -/
def free_before (pre : List Blk) : List Blk :=
  match pre.getLast? with
  | some p => if p.alloc then [] else [p]
  | none => []

/-- The free block at the start of `post`, as a list of at most one block. -/
def free_after (post : List Blk) : List Blk :=
  match post.head? with
  | some n => if n.alloc then [] else [n]
  | none => []

/-- The blocks that `coalesce` merges when it is called on the block `b` of the heap
`pre ++ [b] ++ post`: `b` and its free physical neighbours. -/
def merged_blocks (pre : List Blk) (b : Blk) (post : List Blk) : List Blk :=
  free_before pre ++ [b] ++ free_after post

/-- The address of the first of the merged blocks. -/
def merged_addr (pre : List Blk) (b : Blk) : Nat := ((free_before pre ++ [b]).headD b).addr

/-- The sum of the sizes of the merged blocks. -/
def merged_size (pre : List Blk) (b : Blk) (post : List Blk) : Nat :=
  ((merged_blocks pre b post).map fun c => c.size).sum

/-- The blocks before the merged blocks. -/
def kept_before (pre : List Blk) : List Blk := pre.take (pre.length - (free_before pre).length)

/-- The blocks after the merged blocks. -/
def kept_after (post : List Blk) : List Blk := post.drop (free_after post).length

/-- The state of `free` on the block at `x` of size `sz` right before it calls `coalesce`:
header and footer are rewritten and the block is in the list of its tier. -/
def freed_block (s : State) (x sz : Nat) : State :=
  add_to_free_list ((s.wr x (pack sz false)).wr (x + sz - 8) (pack sz false)) x

/-- The blocks met by walking the heap from `cur_block` by block sizes up to the header of
size 0, each with its address, size and allocation flag; `none` when the fuel runs out. -/
def block_walk : Nat → State → Nat → Option (List (Nat × Nat × Bool))
  | 0, _, _ => none
  | fuel + 1, s, cur_block =>
    if get_size s cur_block = 0 then some []
    else (block_walk fuel s (find_next s cur_block)).map fun l =>
      (cur_block, get_size s cur_block, get_alloc s cur_block) :: l

/-- The block with the given address, size and allocation flag. -/
def Blk.ofTriple (t : Nat × Nat × Bool) : Blk := ⟨t.1, t.2.1, t.2.2⟩

/-- The state after `mm_init(); a = malloc(16); b = malloc(24); free(a)`. -/
def after_free : State := free second_malloc.2 first_malloc.1

/-- The state of `free(b)` in `after_free` right before it calls `coalesce`: the block of
`b` at `65576` is free and listed, and so are the block before it and the block after it. -/
def mid_free : State := freed_block after_free 65576 48

/-- The three pointers of the heap-growth primitive: the extent of the heap. -/
def State.brks (s : State) : Nat × Nat × Nat := (s.mem_start_brk, s.mem_brk, s.mem_max_addr)

/-- The state after `mm_init(); malloc(4064)`, in which the only block of the heap is
allocated. -/
def full_state : Nat × State := malloc_body init_state 4064

/-- Runs `run_reinit`, then `malloc(3920)` in the state after the second `mm_init`; returns
the result of that `mm_init`, the pointer returned by `malloc` and the state after it. -/
def run_reinit_malloc : Option (Bool × Nat × State) :=
  run_reinit.bind fun r =>
  (malloc 0 r.2.2 3920).bind fun m =>
  some (r.1, m.1, m.2)

/-! ## Words and memory -/

theorem padd_eq {a b : Nat} (h : a + b < 2^64) : padd a b = a + b := by
  unfold padd; exact Nat.mod_eq_of_lt h

theorem psub_eq {a b : Nat} (h : b ≤ a) (ha : a < 2^64) : psub a b = a - b := by
  unfold psub; omega

theorem load64_lt (m : Nat → Nat) (a : Nat) : load64 m a < 2^64 := by
  unfold load64; omega

theorem load64_congr {m m' : Nat → Nat} {a : Nat}
    (h : ∀ x, a ≤ x → x < a + 8 → m' x = m x) : load64 m' a = load64 m a := by
  unfold load64
  rw [h a (by omega) (by omega), h (a+1) (by omega) (by omega), h (a+2) (by omega) (by omega),
    h (a+3) (by omega) (by omega), h (a+4) (by omega) (by omega), h (a+5) (by omega) (by omega),
    h (a+6) (by omega) (by omega), h (a+7) (by omega) (by omega)]

theorem store64_out {m : Nat → Nat} {a v x : Nat} (h : x < a ∨ a + 8 ≤ x) :
    store64 m a v x = m x := by
  unfold store64
  rw [if_neg (by omega)]

theorem load64_store64_sep {m : Nat → Nat} {a b : Nat} (v : Nat)
    (h : a + 8 ≤ b ∨ b + 8 ≤ a) : load64 (store64 m a v) b = load64 m b :=
  load64_congr fun x h1 h2 => store64_out (by omega)

theorem load64_store64_same (m : Nat → Nat) (a v : Nat) :
    load64 (store64 m a v) a = v % 2^64 := by
  unfold load64 store64
  simp only [Nat.le_refl, Nat.le_add_right, Nat.lt_add_one, true_and, Nat.sub_self,
    Nat.add_sub_cancel_left, Nat.add_lt_add_iff_left, Nat.lt_add_left_iff_pos]
  norm_num
  omega

/-! ## Header words -/

theorem and_one_eq (w : Nat) : w &&& 1 = w % 2 := Nat.and_one_is_mod w

theorem extract_alloc_eq (w : Nat) : extract_alloc w = decide (w % 2 = 1) := by
  unfold extract_alloc alloc_mask
  rw [Nat.and_one_is_mod]
  rcases Nat.mod_two_eq_zero_or_one w with h | h <;> simp [h]

theorem testBit_size_mask (i : Nat) : size_mask.testBit i = (decide (4 ≤ i) && decide (i < 64)) := by
  by_cases h : i < 64
  · unfold size_mask
    interval_cases i <;> rfl
  · have : size_mask < 2 ^ i := by
      unfold size_mask
      calc 2^64 - 16 < 2^64 := by norm_num
        _ ≤ 2^i := Nat.pow_le_pow_right (by norm_num) (by omega)
    rw [Nat.testBit_lt_two_pow this]
    simp [h]

theorem extract_size_eq {w : Nat} (h : w < 2^64) : extract_size w = w - w % 16 := by
  unfold extract_size
  have e : w - w % 16 = (w >>> 4) <<< 4 := by
    rw [Nat.shiftRight_eq_div_pow, Nat.shiftLeft_eq]; omega
  rw [e]
  apply Nat.eq_of_testBit_eq
  intro i
  rw [Nat.testBit_and, testBit_size_mask, Nat.testBit_shiftLeft, Nat.testBit_shiftRight]
  by_cases h4 : 4 ≤ i
  · by_cases h64 : i < 64
    · simp [h4, h64, Nat.add_sub_cancel' h4]
    · have : w < 2 ^ i := lt_of_lt_of_le h (Nat.pow_le_pow_right (by norm_num) (by omega))
      simp [h4, h64, Nat.add_sub_cancel' h4, Nat.testBit_lt_two_pow this]
  · simp [h4]

theorem pack_eq {size : Nat} (al : Bool) (h : size % 2 = 0) :
    pack size al = size + (if al then 1 else 0) := by
  unfold pack alloc_mask
  cases al
  · simp
  · simp only [if_true]
    apply Nat.eq_of_testBit_eq
    intro i
    rw [Nat.testBit_or]
    cases i with
    | zero => simp [Nat.testBit_zero]; omega
    | succ j =>
      rw [Nat.testBit_succ, Nat.testBit_succ, Nat.testBit_succ]
      have : (size + 1) / 2 = size / 2 := by omega
      simp [this]

/-! ## Header words of well-formed sizes -/

theorem pack_lt {size : Nat} (al : Bool) (h : size % 16 = 0) (hs : size < 2^64) :
    pack size al < 2^64 := by
  rw [pack_eq al (by omega)]
  cases al <;> simp <;> omega

theorem extract_size_pack {size : Nat} (al : Bool) (h : size % 16 = 0) (hs : size < 2^64) :
    extract_size (pack size al) = size := by
  rw [extract_size_eq (pack_lt al h hs), pack_eq al (by omega)]
  cases al <;> simp <;> omega

theorem extract_alloc_pack {size : Nat} (al : Bool) (h : size % 16 = 0) :
    extract_alloc (pack size al) = al := by
  rw [extract_alloc_eq, pack_eq al (by omega)]
  cases al <;> simp <;> omega

theorem pack_zero_true : pack 0 true = 1 := by decide

theorem rd_wr_same (s : State) (a v : Nat) (hv : v < 2^64) : (s.wr a v).rd a = v := by
  unfold State.rd State.wr
  simp only [load64_store64_same]
  exact Nat.mod_eq_of_lt hv

theorem rd_wr_sep (s : State) {a b : Nat} (v : Nat) (h : a + 8 ≤ b ∨ b + 8 ≤ a) :
    (s.wr a v).rd b = s.rd b := by
  unfold State.rd State.wr
  exact load64_store64_sep v h

/-! ## Layout -/

theorem Layout.le {a e : Nat} {bs : List Blk} (h : Layout a bs e) : a ≤ e := by
  induction bs generalizing a with
  | nil => exact Nat.le_of_eq h
  | cons b bs ih =>
    obtain ⟨_, _, _, h4⟩ := h
    have := ih h4
    omega

theorem Layout.append {a e : Nat} {xs ys : List Blk} :
    Layout a (xs ++ ys) e ↔ ∃ mid, Layout a xs mid ∧ Layout mid ys e := by
  induction xs generalizing a with
  | nil =>
    constructor
    · intro h; exact ⟨a, rfl, h⟩
    · rintro ⟨mid, h1, h2⟩
      have : a = mid := h1
      subst this; exact h2
  | cons b xs ih =>
    constructor
    · rintro ⟨h1, h2, h3, h4⟩
      obtain ⟨mid, h5, h6⟩ := ih.1 h4
      exact ⟨mid, ⟨h1, h2, h3, h5⟩, h6⟩
    · rintro ⟨mid, ⟨h1, h2, h3, h5⟩, h6⟩
      exact ⟨h1, h2, h3, ih.2 ⟨mid, h5, h6⟩⟩

theorem Layout.mem {a e : Nat} {bs : List Blk} (h : Layout a bs e) {b : Blk} (hb : b ∈ bs) :
    a ≤ b.addr ∧ b.addr + b.size ≤ e ∧ 32 ≤ b.size ∧ b.size % 16 = 0 := by
  induction bs generalizing a with
  | nil => cases hb
  | cons c bs ih =>
    obtain ⟨h1, h2, h3, h4⟩ := h
    rcases List.mem_cons.1 hb with hb1 | hb1
    · have := h4.le
      subst hb1
      omega
    · have := ih h4 hb1
      omega

/-- Two blocks of a layout are the same block or occupy disjoint ranges. -/
theorem Layout.disjoint {a e : Nat} {bs : List Blk} (h : Layout a bs e) {b c : Blk}
    (hb : b ∈ bs) (hc : c ∈ bs) :
    b = c ∨ b.addr + b.size ≤ c.addr ∨ c.addr + c.size ≤ b.addr := by
  induction bs generalizing a with
  | nil => cases hb
  | cons d bs ih =>
    obtain ⟨h1, h2, h3, h4⟩ := h
    rcases List.mem_cons.1 hb with hb1 | hb1 <;> rcases List.mem_cons.1 hc with hc1 | hc1
    · exact Or.inl (hb1.trans hc1.symm)
    · have := h4.mem hc1
      subst hb1
      right; left; omega
    · have := h4.mem hb1
      subst hc1
      right; right; omega
    · exact ih h4 hb1 hc1

theorem Layout.addr_inj {a e : Nat} {bs : List Blk} (h : Layout a bs e) {b c : Blk}
    (hb : b ∈ bs) (hc : c ∈ bs) (hbc : b.addr = c.addr) : b = c := by
  rcases h.disjoint hb hc with h1 | h1 | h1
  · exact h1
  · have := h.mem hb; omega
  · have := h.mem hc; omega

/-- A block of a layout splits the layout in the blocks below it and the blocks above. -/
theorem Layout.split {a e : Nat} {bs : List Blk} (h : Layout a bs e) {b : Blk} (hb : b ∈ bs) :
    ∃ pre post, bs = pre ++ b :: post ∧ Layout a pre b.addr
      ∧ Layout (b.addr + b.size) post e := by
  obtain ⟨pre, post, rfl⟩ := List.append_of_mem hb
  obtain ⟨mid, h1, h2, _, _, h3⟩ := Layout.append.1 h
  subst h2
  exact ⟨pre, post, rfl, h1, h3⟩

theorem Layout.getLast {a e : Nat} {pre : List Blk} {p : Blk}
    (h : Layout a (pre ++ [p]) e) : p.addr + p.size = e := by
  obtain ⟨mid, _, h2, _, _, h3⟩ := Layout.append.1 h
  have : mid + p.size = e := h3
  omega

/-! ## Projections of updated states -/

@[simp] theorem wr_mem_start_brk (s : State) (a v : Nat) :
    (s.wr a v).mem_start_brk = s.mem_start_brk := rfl
@[simp] theorem wr_mem_brk (s : State) (a v : Nat) : (s.wr a v).mem_brk = s.mem_brk := rfl
@[simp] theorem wr_mem_max_addr (s : State) (a v : Nat) :
    (s.wr a v).mem_max_addr = s.mem_max_addr := rfl
@[simp] theorem wr_heap_start (s : State) (a v : Nat) :
    (s.wr a v).heap_start = s.heap_start := rfl
@[simp] theorem wr_heap_prol (s : State) (a v : Nat) : (s.wr a v).heap_prol = s.heap_prol := rfl
@[simp] theorem wr_heap_epil (s : State) (a v : Nat) : (s.wr a v).heap_epil = s.heap_epil := rfl
@[simp] theorem wr_list_start (s : State) (a v : Nat) :
    (s.wr a v).all_free_list_start = s.all_free_list_start := rfl
@[simp] theorem wr_list_end (s : State) (a v : Nat) :
    (s.wr a v).all_free_list_end = s.all_free_list_end := rfl
@[simp] theorem wr_mem (s : State) (a v : Nat) : (s.wr a v).mem = store64 s.mem a v := rfl

@[simp] theorem setList_mem (s : State) (i a b : Nat) : (s.setList i a b).mem = s.mem := rfl
@[simp] theorem setList_rd (s : State) (i a b x : Nat) : (s.setList i a b).rd x = s.rd x := rfl
@[simp] theorem setList_mem_start_brk (s : State) (i a b : Nat) :
    (s.setList i a b).mem_start_brk = s.mem_start_brk := rfl
@[simp] theorem setList_mem_brk (s : State) (i a b : Nat) :
    (s.setList i a b).mem_brk = s.mem_brk := rfl
@[simp] theorem setList_mem_max_addr (s : State) (i a b : Nat) :
    (s.setList i a b).mem_max_addr = s.mem_max_addr := rfl
@[simp] theorem setList_heap_start (s : State) (i a b : Nat) :
    (s.setList i a b).heap_start = s.heap_start := rfl
@[simp] theorem setList_heap_prol (s : State) (i a b : Nat) :
    (s.setList i a b).heap_prol = s.heap_prol := rfl
@[simp] theorem setList_heap_epil (s : State) (i a b : Nat) :
    (s.setList i a b).heap_epil = s.heap_epil := rfl
theorem setList_start (s : State) (i a b j : Nat) :
    (s.setList i a b).all_free_list_start j = if j = i then a else s.all_free_list_start j := rfl
theorem setList_end (s : State) (i a b j : Nat) :
    (s.setList i a b).all_free_list_end j = if j = i then b else s.all_free_list_end j := rfl

/-! ## Reading a well-formed heap -/

theorem Heap.epil_lt {s : State} {bs : List Blk} (h : Heap s bs) : s.heap_epil + 8 < 2^64 := by
  have := h.brk; have := h.lim; have := h.lim64; omega

theorem Heap.bounds {s : State} {bs : List Blk} (h : Heap s bs) {b : Blk} (hb : b ∈ bs) :
    s.heap_start ≤ b.addr ∧ b.addr + b.size ≤ s.heap_epil ∧ 32 ≤ b.size ∧ b.size % 16 = 0
      ∧ 8 ≤ b.addr ∧ b.addr + b.size + 8 < 2^64 := by
  have := h.layout.mem hb
  have := h.epil_lt
  have := h.prol
  omega

theorem Heap.rd_header {s : State} {bs : List Blk} (h : Heap s bs) {b : Blk} (hb : b ∈ bs) :
    s.rd b.addr = pack b.size b.alloc := (h.tags b hb).1

theorem Heap.rd_footer {s : State} {bs : List Blk} (h : Heap s bs) {b : Blk} (hb : b ∈ bs) :
    s.rd (b.addr + b.size - 8) = pack b.size b.alloc := (h.tags b hb).2

theorem Heap.get_size {s : State} {bs : List Blk} (h : Heap s bs) {b : Blk} (hb : b ∈ bs) :
    get_size s b.addr = b.size := by
  have := h.bounds hb
  unfold MM.get_size
  rw [h.rd_header hb, extract_size_pack _ (by omega) (by omega)]

theorem Heap.get_alloc {s : State} {bs : List Blk} (h : Heap s bs) {b : Blk} (hb : b ∈ bs) :
    get_alloc s b.addr = b.alloc := by
  have := h.bounds hb
  unfold MM.get_alloc
  rw [h.rd_header hb, extract_alloc_pack _ (by omega)]

/-! ## Writes that keep the heap well-formed -/

/-- A word write strictly between the header and the footer of a block. -/
theorem Heap.wr_inside {s : State} {bs : List Blk} (h : Heap s bs) {c : Blk} (hc : c ∈ bs)
    {w : Nat} (v : Nat) (h1 : c.addr + 8 ≤ w) (h2 : w + 16 ≤ c.addr + c.size) :
    Heap (s.wr w v) bs := by
  have hcb := h.bounds hc
  refine ⟨h.prol, h.brk0, h.brk, h.lim, h.lim64, h.layout, ?_, ?_⟩
  · rw [rd_wr_sep]
    · exact h.prologue
    · have := h.prol
      simp only [wr_heap_prol]
      omega
  · intro b hb
    have hbb := h.bounds hb
    have hd := h.layout.disjoint hb hc
    have hw1 : (s.wr w v).rd b.addr = s.rd b.addr := by
      apply rd_wr_sep
      rcases hd with rfl | hd | hd <;> omega
    have hw2 : (s.wr w v).rd (b.addr + b.size - 8) = s.rd (b.addr + b.size - 8) := by
      apply rd_wr_sep
      rcases hd with rfl | hd | hd <;> omega
    rw [hw1, hw2]
    exact h.tags b hb

theorem Heap.setList {s : State} {bs : List Blk} (h : Heap s bs) (i a b : Nat) :
    Heap (s.setList i a b) bs :=
  ⟨h.prol, h.brk0, h.brk, h.lim, h.lim64, h.layout, h.prologue, h.tags⟩

/-! ## The top of the heap -/

theorem Top.refl (s : State) : Top s s := ⟨rfl, fun _ _ => rfl⟩

theorem Top.trans {s t u : State} (h1 : Top s t) (h2 : Top t u) : Top s u :=
  ⟨h2.1.trans h1.1, fun x hx => (h2.2 x (by rw [h1.1]; exact hx)).trans (h1.2 x hx)⟩

theorem Top.wr (s : State) {w : Nat} (v : Nat) (h : w + 8 ≤ s.heap_epil) : Top s (s.wr w v) :=
  ⟨rfl, fun x hx => store64_out (by omega)⟩

theorem Top.set_list (s : State) (i a b : Nat) : Top s (s.setList i a b) :=
  ⟨rfl, fun _ _ => rfl⟩

theorem Top.rd {s t : State} (h : Top s t) {a : Nat} (ha : s.heap_epil ≤ a) :
    t.rd a = s.rd a :=
  load64_congr fun x h1 _ => h.2 x (by omega)

/-! ## List segments -/

theorem Seg.cons_iff {m : Nat → Nat} {x : Nat} {xs : List Nat} {p nx : Nat} :
    Seg m p (x :: xs) nx ↔ load64 m (x + 8) = p ∧ load64 m (x + 16) = xs.headD nx
      ∧ Seg m x xs nx := by
  rw [Seg]

theorem Seg.congr {m m' : Nat → Nat} {xs : List Nat} {p nx : Nat}
    (hf : ∀ x ∈ xs, load64 m' (x + 8) = load64 m (x + 8)
      ∧ load64 m' (x + 16) = load64 m (x + 16))
    (h : Seg m p xs nx) : Seg m' p xs nx := by
  induction xs generalizing p with
  | nil => trivial
  | cons x xs ih =>
    obtain ⟨h1, h2, h3⟩ := h
    have hx := hf x (List.mem_cons_self _ _)
    exact ⟨hx.1.trans h1, hx.2.trans h2, ih (fun y hy => hf y (List.mem_cons_of_mem _ hy)) h3⟩

theorem headD_append (xs ys : List Nat) (d : Nat) :
    (xs ++ ys).headD d = xs.headD (ys.headD d) := by
  cases xs <;> rfl

theorem Seg.append_iff {m : Nat → Nat} {xs ys : List Nat} {p nx : Nat} :
    Seg m p (xs ++ ys) nx ↔ Seg m p xs (ys.headD nx) ∧ Seg m (xs.getLastD p) ys nx := by
  induction xs generalizing p with
  | nil => simp [Seg]
  | cons x xs ih =>
    rw [List.cons_append, Seg.cons_iff, Seg.cons_iff, ih, headD_append, List.getLastD_cons]
    tauto

/-- Changing the `free_next` field of the last node of a segment. -/
theorem Seg.set_next {m m' : Nat → Nat} {xs : List Nat} {z p a b : Nat}
    (h : Seg m p (xs ++ [z]) a)
    (hf : ∀ x ∈ xs, load64 m' (x + 8) = load64 m (x + 8)
      ∧ load64 m' (x + 16) = load64 m (x + 16))
    (hz1 : load64 m' (z + 8) = load64 m (z + 8)) (hz2 : load64 m' (z + 16) = b) :
    Seg m' p (xs ++ [z]) b := by
  rw [Seg.append_iff] at h ⊢
  refine ⟨h.1.congr hf, ?_⟩
  obtain ⟨h1, _, _⟩ := h.2
  exact ⟨hz1.trans h1, hz2, trivial⟩

/-! ## Nodes of the free lists -/

theorem prevField_eq {x : Nat} (h : x + 8 < 2^64) : prevField x = x + 8 := padd_eq h

theorem nextField_eq {x : Nat} (h : x + 16 < 2^64) : nextField x = x + 16 := padd_eq h

/-- Two list nodes are the same node of the same list or lie 32 bytes apart. -/
theorem Lists.sep {s : State} {bs : List Blk} {L : Nat → List Nat} (hh : Heap s bs)
    (hl : Lists s bs L) {i j x y : Nat} (hx : x ∈ L i) (hy : y ∈ L j) :
    (i = j ∧ x = y) ∨ x + 32 ≤ y ∨ y + 32 ≤ x := by
  obtain ⟨b, hb, rfl, _, hbt⟩ := hl.nodes i x hx
  obtain ⟨c, hc, rfl, _, hct⟩ := hl.nodes j y hy
  have hbb := hh.bounds hb
  have hcb := hh.bounds hc
  rcases hh.layout.disjoint hb hc with rfl | h | h
  · exact Or.inl ⟨hbt.symm.trans hct, rfl⟩
  · right; left; omega
  · right; right; omega

/-- A list node and a block that is in no list of its tier lie 32 bytes apart. -/
theorem Lists.sep_block {s : State} {bs : List Blk} {L : Nat → List Nat} (hh : Heap s bs)
    (hl : Lists s bs L) {b : Blk} (hb : b ∈ bs) (hn : b.addr ∉ L (tier b.size))
    {j y : Nat} (hy : y ∈ L j) : b.addr + 32 ≤ y ∨ y + 32 ≤ b.addr := by
  obtain ⟨c, hc, rfl, _, hct⟩ := hl.nodes j y hy
  have hbb := hh.bounds hb
  have hcb := hh.bounds hc
  rcases hh.layout.disjoint hb hc with rfl | h | h
  · rw [hct] at hn; exact absurd hy hn
  · left; omega
  · right; omega

theorem Lists.node_bounds {s : State} {bs : List Blk} {L : Nat → List Nat} (hh : Heap s bs)
    (hl : Lists s bs L) {i x : Nat} (hx : x ∈ L i) :
    8 ≤ x ∧ x + 32 ≤ s.heap_epil ∧ x + 40 < 2^64 := by
  obtain ⟨b, hb, rfl, _, _⟩ := hl.nodes i x hx
  have := hh.bounds hb
  omega

/-- Rebuilding the list invariant after an operation on list `i`. -/
theorem Lists.update {s t : State} {bs : List Blk} {L : Nat → List Nat} (hl : Lists s bs L)
    (i : Nat) (l : List Nat)
    (hmem : ∀ j, j ≠ i → ∀ z ∈ L j, load64 t.mem (z + 8) = load64 s.mem (z + 8)
      ∧ load64 t.mem (z + 16) = load64 s.mem (z + 16))
    (hst : ∀ j, j ≠ i → t.all_free_list_start j = s.all_free_list_start j)
    (hen : ∀ j, j ≠ i → t.all_free_list_end j = s.all_free_list_end j)
    (hseg : Seg t.mem NULL l NULL) (hhead : t.all_free_list_start i = l.headD NULL)
    (htail : t.all_free_list_end i = l.getLastD NULL) (hnd : l.Nodup)
    (hnodes : ∀ x ∈ l, ∃ b ∈ bs, b.addr = x ∧ b.alloc = false ∧ tier b.size = i) :
    Lists t bs (Function.update L i l) := by
  refine ⟨?_, ?_, ?_, ?_, ?_⟩
  · intro j
    by_cases hj : j = i
    · subst hj; rw [Function.update_same]; exact hseg
    · rw [Function.update_noteq hj]; exact (hl.links j).congr (hmem j hj)
  · intro j
    by_cases hj : j = i
    · subst hj; rw [Function.update_same]; exact hhead
    · rw [Function.update_noteq hj, hst j hj]; exact hl.heads j
  · intro j
    by_cases hj : j = i
    · subst hj; rw [Function.update_same]; exact htail
    · rw [Function.update_noteq hj, hen j hj]; exact hl.tails j
  · intro j
    by_cases hj : j = i
    · subst hj; rw [Function.update_same]; exact hnd
    · rw [Function.update_noteq hj]; exact hl.nodup j
  · intro j
    by_cases hj : j = i
    · subst hj; rw [Function.update_same]; exact hnodes
    · rw [Function.update_noteq hj]; exact hl.nodes j

theorem list_add_spec {s : State} {bs : List Blk} {L : Nat → List Nat} (hh : Heap s bs)
    (hl : Lists s bs L) {b : Blk} (hb : b ∈ bs) (hfree : b.alloc = false)
    (hn : b.addr ∉ L (tier b.size)) :
    Heap (list_add s b.addr (s.all_free_list_start (tier b.size))
        (s.all_free_list_end (tier b.size)) (tier b.size)) bs
      ∧ Lists (list_add s b.addr (s.all_free_list_start (tier b.size))
        (s.all_free_list_end (tier b.size)) (tier b.size)) bs
        (Function.update L (tier b.size) (b.addr :: L (tier b.size)))
      ∧ Top s (list_add s b.addr (s.all_free_list_start (tier b.size))
        (s.all_free_list_end (tier b.size)) (tier b.size)) := by
  have hbb := hh.bounds hb
  have hx0 : ¬ (b.addr = NULL ∨ get_alloc s b.addr = true) := by
    rw [hh.get_alloc hb, hfree]; unfold NULL; simp; omega
  have hp : prevField b.addr = b.addr + 8 := prevField_eq (by omega)
  have hnx : nextField b.addr = b.addr + 16 := nextField_eq (by omega)
  have hnew : ∀ x ∈ [b.addr], ∃ c ∈ bs, c.addr = x ∧ c.alloc = false
      ∧ tier c.size = tier b.size := by
    intro x hx
    rw [List.mem_singleton] at hx
    exact ⟨b, hb, hx.symm, hfree, rfl⟩
  unfold list_add
  rw [if_neg hx0, hl.heads, hl.tails, hp, hnx]
  cases hL : L (tier b.size) with
  | nil =>
    rw [List.headD_nil, if_pos rfl]
    refine ⟨((hh.wr_inside hb _ (by omega) (by omega)).wr_inside hb _ (by omega)
      (by omega)).setList _ _ _, ?_, ?_⟩
    · refine hl.update _ _ ?_ ?_ ?_ ?_ ?_ ?_ ?_ hnew
      · intro j _ z hz
        have := hl.sep_block hh hb hn hz
        simp only [setList_mem, wr_mem]
        rw [load64_store64_sep _ (by omega), load64_store64_sep _ (by omega),
          load64_store64_sep _ (by omega), load64_store64_sep _ (by omega)]
        exact ⟨rfl, rfl⟩
      · intro j hj; rw [setList_start, if_neg hj]; rfl
      · intro j hj; rw [setList_end, if_neg hj]; rfl
      · rw [Seg.cons_iff]
        simp only [setList_mem, wr_mem]
        refine ⟨?_, ?_, trivial⟩
        · rw [load64_store64_sep _ (by omega), load64_store64_same]; rfl
        · rw [load64_store64_same]; rfl
      · rw [setList_start, if_pos rfl]; rfl
      · rw [setList_end, if_pos rfl]; rfl
      · exact List.nodup_singleton _
    · exact ((Top.wr s _ (by omega)).trans (Top.wr _ _ (by simp only [wr_heap_epil]; omega))).trans
        (Top.set_list _ _ _ _)
  | cons y ys =>
    have hy : y ∈ L (tier b.size) := by rw [hL]; exact List.mem_cons_self _ _
    have hyb := hl.node_bounds hh hy
    have hsy := hl.sep_block hh hb hn hy
    obtain ⟨c, hc, hca, _, _⟩ := hl.nodes _ y hy
    have hcb := hh.bounds hc
    have hseg := hl.links (tier b.size)
    have hnd := hl.nodup (tier b.size)
    rw [hL] at hseg hnd
    rw [Seg.cons_iff] at hseg
    obtain ⟨hs1, hs2, hs3⟩ := hseg
    have hyn : ¬ (y = NULL) := by unfold NULL; omega
    have hpy : prevField y = y + 8 := prevField_eq (by omega)
    rw [List.headD_cons, if_neg hyn, hpy]
    refine ⟨(((hh.wr_inside hb _ (by omega) (by omega)).wr_inside hb _ (by omega)
      (by omega)).wr_inside hc _ (by omega) (by omega)).setList _ _ _, ?_, ?_⟩
    · refine hl.update _ _ ?_ ?_ ?_ ?_ ?_ ?_ ?_ ?_
      · intro j hj z hz
        have := hl.sep_block hh hb hn hz
        have := hl.sep hh hz hy
        simp only [setList_mem, wr_mem]
        rw [load64_store64_sep _ (by omega), load64_store64_sep _ (by omega),
          load64_store64_sep _ (by omega), load64_store64_sep _ (by omega),
          load64_store64_sep _ (by omega), load64_store64_sep _ (by omega)]
        exact ⟨rfl, rfl⟩
      · intro j hj; rw [setList_start, if_neg hj]; rfl
      · intro j hj; rw [setList_end, if_neg hj]; rfl
      · rw [Seg.cons_iff, Seg.cons_iff]
        simp only [setList_mem, wr_mem, List.headD_cons]
        refine ⟨?_, ?_, ?_, ?_, ?_⟩
        · rw [load64_store64_sep _ (by omega), load64_store64_same]; rfl
        · rw [load64_store64_sep _ (by omega), load64_store64_sep _ (by omega),
            load64_store64_same]
          exact Nat.mod_eq_of_lt (by omega)
        · rw [load64_store64_same]
          exact Nat.mod_eq_of_lt (by omega)
        · rw [load64_store64_sep _ (by omega), load64_store64_sep _ (by omega),
            load64_store64_sep _ (by omega)]
          exact hs2
        · refine hs3.congr ?_
          intro z hz
          have hz' : z ∈ L (tier b.size) := by rw [hL]; exact List.mem_cons_of_mem _ hz
          have h1 := hl.sep_block hh hb hn hz'
          have h2 := hl.sep hh hz' hy
          have h3 : z ≠ y := fun h => (List.nodup_cons.1 hnd).1 (h ▸ hz)
          rw [load64_store64_sep _ (by omega), load64_store64_sep _ (by omega),
            load64_store64_sep _ (by omega), load64_store64_sep _ (by omega),
            load64_store64_sep _ (by omega), load64_store64_sep _ (by omega)]
          exact ⟨rfl, rfl⟩
      · rw [setList_start, if_pos rfl]; rfl
      · rw [setList_end, if_pos rfl]
        simp only [List.getLastD_cons]
      · rw [← hL]
        exact List.nodup_cons.2 ⟨hn, hl.nodup _⟩
      · intro x hx
        rcases List.mem_cons.1 hx with rfl | hx
        · exact ⟨b, hb, rfl, hfree, rfl⟩
        · exact hl.nodes _ x (by rw [hL]; exact hx)
    · exact (((Top.wr s _ (by omega)).trans
        (Top.wr _ _ (by simp only [wr_heap_epil]; omega))).trans
        (Top.wr _ _ (by simp only [wr_heap_epil]; omega))).trans (Top.set_list _ _ _ _)

theorem getLastD_append_cons (xs : List Nat) (y : Nat) (ys : List Nat) (d : Nat) :
    (xs ++ y :: ys).getLastD d = ys.getLastD y := by
  induction xs generalizing d with
  | nil => rw [List.nil_append, List.getLastD_cons]
  | cons x xs ih => rw [List.cons_append, List.getLastD_cons, ih]

theorem getLastD_mem_cons (y : Nat) (ys : List Nat) : ys.getLastD y ∈ y :: ys := by
  induction ys generalizing y with
  | nil => exact List.mem_cons_self _ _
  | cons z zs ih =>
    rw [List.getLastD_cons]
    exact List.mem_cons_of_mem _ (ih z)

theorem headD_mem_concat (xs : List Nat) (z : Nat) : xs.headD z ∈ xs ++ [z] := by
  cases xs with
  | nil => exact List.mem_cons_self _ _
  | cons x xs => exact List.mem_cons_self _ _

theorem getLastD_concat' (xs : List Nat) (z d : Nat) : (xs ++ [z]).getLastD d = z := by
  rw [getLastD_append_cons]; rfl

/-! ## The four branches of `list_rem` -/

theorem list_rem_single {s : State} {x st en : Nat} (i : Nat)
    (h0 : ¬ (x = NULL ∨ get_alloc s x = true ∨ st = NULL)) (h1 : st = en)
    (hx : x + 16 < 2^64) :
    list_rem s x st en i = ((s.wr (x + 8) NULL).wr (x + 16) NULL).setList i NULL NULL := by
  have hp : prevField x = x + 8 := prevField_eq (by omega)
  have hn : nextField x = x + 16 := nextField_eq hx
  unfold list_rem
  rw [if_neg h0, if_pos h1, hp, hn]

theorem list_rem_head {s : State} {x st en y : Nat} (i : Nat)
    (h0 : ¬ (x = NULL ∨ get_alloc s x = true ∨ st = NULL)) (h1 : ¬ st = en) (h2 : x = st)
    (hx : x + 16 < 2^64) (hy : s.rd (x + 16) = y) (hyb : y + 8 < 2^64) :
    list_rem s x st en i
      = (((s.wr (y + 8) NULL).wr (x + 8) NULL).wr (x + 16) NULL).setList i y en := by
  have hp : prevField x = x + 8 := prevField_eq (by omega)
  have hn : nextField x = x + 16 := nextField_eq hx
  unfold list_rem
  rw [if_neg h0, if_neg h1, if_pos h2]
  simp only [hp, hn, hy, prevField_eq hyb]

theorem list_rem_last {s : State} {x st en z : Nat} (i : Nat)
    (h0 : ¬ (x = NULL ∨ get_alloc s x = true ∨ st = NULL)) (h1 : ¬ st = en) (h2 : ¬ x = st)
    (h3 : x = en) (hx : x + 16 < 2^64) (hz : s.rd (x + 8) = z) (hzb : z + 16 < 2^64) :
    list_rem s x st en i
      = (((s.wr (z + 16) NULL).wr (x + 8) NULL).wr (x + 16) NULL).setList i st z := by
  have hp : prevField x = x + 8 := prevField_eq (by omega)
  have hn : nextField x = x + 16 := nextField_eq hx
  unfold list_rem
  rw [if_neg h0, if_neg h1, if_neg h2, if_pos h3]
  simp only [hp, hn, hz, nextField_eq hzb]

theorem list_rem_inner {s : State} {x st en y z : Nat} (i : Nat)
    (h0 : ¬ (x = NULL ∨ get_alloc s x = true ∨ st = NULL)) (h1 : ¬ st = en) (h2 : ¬ x = st)
    (h3 : ¬ x = en) (hx : x + 16 < 2^64) (hy : s.rd (x + 16) = y) (hz : s.rd (x + 8) = z)
    (hyb : y + 8 < 2^64) (hzb : z + 16 < 2^64) (hsep : x + 32 ≤ y ∨ y + 32 ≤ x) :
    list_rem s x st en i
      = ((((s.wr (y + 8) z).wr (z + 16) y).wr (x + 8) NULL).wr (x + 16) NULL).setList i
          st en := by
  have e1 : (s.wr (y + 8) z).rd (x + 8) = z := by rw [rd_wr_sep _ _ (by omega)]; exact hz
  have e2 : (s.wr (y + 8) z).rd (x + 16) = y := by rw [rd_wr_sep _ _ (by omega)]; exact hy
  have hp : prevField x = x + 8 := prevField_eq (by omega)
  have hn : nextField x = x + 16 := nextField_eq hx
  unfold list_rem
  rw [if_neg h0, if_neg h1, if_neg h2, if_neg h3]
  simp only [hp, hn, hy, hz, prevField_eq hyb, e1, e2, nextField_eq hzb]

/-- Word writes to link fields of list nodes leave the link fields of a node that lies 32
bytes away from each of them unchanged. -/
theorem fields_store (m : Nat → Nat) {a n w : Nat} (v : Nat)
    (h : w + 32 ≤ n ∨ n + 32 ≤ w) (ha : a = n + 8 ∨ a = n + 16) :
    load64 (store64 m a v) (w + 8) = load64 m (w + 8)
      ∧ load64 (store64 m a v) (w + 16) = load64 m (w + 16) :=
  ⟨load64_store64_sep _ (by omega), load64_store64_sep _ (by omega)⟩

/-- Removal of the first node `x` of the list `x :: y :: ys`. -/
theorem rem_head {s : State} {bs : List Blk} {L : Nat → List Nat} (hh : Heap s bs)
    (hl : Lists s bs L) {i x y : Nat} {ys : List Nat} (hL : L i = x :: y :: ys) :
    Heap ((((s.wr (y + 8) NULL).wr (x + 8) NULL).wr (x + 16) NULL).setList i y
        (s.all_free_list_end i)) bs
      ∧ Lists ((((s.wr (y + 8) NULL).wr (x + 8) NULL).wr (x + 16) NULL).setList i y
        (s.all_free_list_end i)) bs (Function.update L i (y :: ys))
      ∧ Top s ((((s.wr (y + 8) NULL).wr (x + 8) NULL).wr (x + 16) NULL).setList i y
        (s.all_free_list_end i)) := by
  have hx : x ∈ L i := by rw [hL]; exact List.mem_cons_self _ _
  have hy : y ∈ L i := by rw [hL]; exact List.mem_cons_of_mem _ (List.mem_cons_self _ _)
  obtain ⟨b, hb, hbx, -, -⟩ := hl.nodes i x hx
  obtain ⟨c, hc, hcy, -, -⟩ := hl.nodes i y hy
  have hbb := hh.bounds hb
  have hcb := hh.bounds hc
  have hnd := hl.nodup i
  have hseg := hl.links i
  rw [hL] at hnd hseg
  have hxy : x ≠ y := fun h => (List.nodup_cons.1 hnd).1 (h ▸ List.mem_cons_self _ _)
  have hsy : x + 32 ≤ y ∨ y + 32 ≤ x := by
    have := hl.sep hh hx hy; omega
  rw [Seg.cons_iff, Seg.cons_iff] at hseg
  obtain ⟨-, -, -, ht2, ht3⟩ := hseg
  have hndy := (List.nodup_cons.1 hnd).2
  have hfr : ∀ j w, w ∈ L j → w ≠ x → w ≠ y →
      load64 (store64 (store64 (store64 s.mem (y + 8) NULL) (x + 8) NULL) (x + 16) NULL) (w + 8)
        = load64 s.mem (w + 8)
      ∧ load64 (store64 (store64 (store64 s.mem (y + 8) NULL) (x + 8) NULL) (x + 16) NULL)
        (w + 16) = load64 s.mem (w + 16) := by
    intro j w hw h1 h2
    have hwx : w + 32 ≤ x ∨ x + 32 ≤ w := by have := hl.sep hh hw hx; omega
    have hwy : w + 32 ≤ y ∨ y + 32 ≤ w := by have := hl.sep hh hw hy; omega
    have e1 := fields_store s.mem NULL hwy (Or.inl rfl)
    have e2 := fields_store (store64 s.mem (y + 8) NULL) NULL hwx (Or.inl rfl)
    have e3 := fields_store (store64 (store64 s.mem (y + 8) NULL) (x + 8) NULL) NULL hwx
      (Or.inr rfl)
    exact ⟨e3.1.trans (e2.1.trans e1.1), e3.2.trans (e2.2.trans e1.2)⟩
  have hne : ∀ j, j ≠ i → ∀ w ∈ L j, w ≠ x ∧ w ≠ y := by
    intro j hj w hw
    constructor
    · rintro rfl
      rcases hl.sep hh hw hx with h | h | h
      · exact hj h.1
      · omega
      · omega
    · rintro rfl
      rcases hl.sep hh hw hy with h | h | h
      · exact hj h.1
      · omega
      · omega
  refine ⟨?_, ?_, ?_⟩
  · exact (((hh.wr_inside hc _ (by omega) (by omega)).wr_inside hb _ (by omega)
      (by omega)).wr_inside hb _ (by omega) (by omega)).setList _ _ _
  · refine hl.update _ _ ?_ ?_ ?_ ?_ ?_ ?_ hndy ?_
    · intro j hj w hw
      exact hfr j w hw (hne j hj w hw).1 (hne j hj w hw).2
    · intro j hj; rw [setList_start, if_neg hj]; rfl
    · intro j hj; rw [setList_end, if_neg hj]; rfl
    · rw [Seg.cons_iff]
      simp only [setList_mem, wr_mem]
      refine ⟨?_, ?_, ?_⟩
      · rw [load64_store64_sep _ (by omega), load64_store64_sep _ (by omega),
          load64_store64_same]
        rfl
      · rw [load64_store64_sep _ (by omega), load64_store64_sep _ (by omega),
          load64_store64_sep _ (by omega)]
        exact ht2
      · refine ht3.congr ?_
        intro w hw
        have hw' : w ∈ L i := by
          rw [hL]; exact List.mem_cons_of_mem _ (List.mem_cons_of_mem _ hw)
        refine hfr i w hw' ?_ ?_
        · rintro rfl
          exact (List.nodup_cons.1 hnd).1 (List.mem_cons_of_mem _ hw)
        · rintro rfl
          exact (List.nodup_cons.1 hndy).1 hw
    · rw [setList_start, if_pos rfl]; rfl
    · rw [setList_end, if_pos rfl, hl.tails, hL]
      simp only [List.getLastD_cons]
    · intro w hw
      exact hl.nodes i w (by rw [hL]; exact List.mem_cons_of_mem _ hw)
  · exact (((Top.wr s _ (by omega)).trans
      (Top.wr _ _ (by simp only [wr_heap_epil]; omega))).trans
      (Top.wr _ _ (by simp only [wr_heap_epil]; omega))).trans (Top.set_list _ _ _ _)


/-- Removal of the only node `x` of the list `[x]`. -/
theorem rem_single {s : State} {bs : List Blk} {L : Nat → List Nat} (hh : Heap s bs)
    (hl : Lists s bs L) {i x : Nat} (hL : L i = [x]) :
    Heap (((s.wr (x + 8) NULL).wr (x + 16) NULL).setList i NULL NULL) bs
      ∧ Lists (((s.wr (x + 8) NULL).wr (x + 16) NULL).setList i NULL NULL) bs
        (Function.update L i [])
      ∧ Top s (((s.wr (x + 8) NULL).wr (x + 16) NULL).setList i NULL NULL) := by
  have hx : x ∈ L i := by rw [hL]; exact List.mem_cons_self _ _
  obtain ⟨b, hb, hbx, -, -⟩ := hl.nodes i x hx
  have hbb := hh.bounds hb
  refine ⟨?_, ?_, ?_⟩
  · exact ((hh.wr_inside hb _ (by omega) (by omega)).wr_inside hb _ (by omega)
      (by omega)).setList _ _ _
  · refine hl.update _ _ ?_ ?_ ?_ trivial ?_ ?_ List.nodup_nil ?_
    · intro j hj w hw
      have hwx : w + 32 ≤ x ∨ x + 32 ≤ w := by
        rcases hl.sep hh hw hx with h | h | h
        · exact absurd h.1 hj
        · exact Or.inl h
        · exact Or.inr h
      have e1 := fields_store s.mem NULL hwx (Or.inl rfl)
      have e2 := fields_store (store64 s.mem (x + 8) NULL) NULL hwx (Or.inr rfl)
      exact ⟨e2.1.trans e1.1, e2.2.trans e1.2⟩
    · intro j hj; rw [setList_start, if_neg hj]; rfl
    · intro j hj; rw [setList_end, if_neg hj]; rfl
    · rw [setList_start, if_pos rfl]; rfl
    · rw [setList_end, if_pos rfl]; rfl
    · intro w hw; cases hw
  · exact ((Top.wr s _ (by omega)).trans
      (Top.wr _ _ (by simp only [wr_heap_epil]; omega))).trans (Top.set_list _ _ _ _)

/-- Removal of the last node `x` of the list `xs ++ [z, x]`. -/
theorem rem_last {s : State} {bs : List Blk} {L : Nat → List Nat} (hh : Heap s bs)
    (hl : Lists s bs L) {i x z : Nat} {xs : List Nat} (hL : L i = xs ++ [z] ++ [x]) :
    Heap ((((s.wr (z + 16) NULL).wr (x + 8) NULL).wr (x + 16) NULL).setList i
        (s.all_free_list_start i) z) bs
      ∧ Lists ((((s.wr (z + 16) NULL).wr (x + 8) NULL).wr (x + 16) NULL).setList i
        (s.all_free_list_start i) z) bs (Function.update L i (xs ++ [z]))
      ∧ Top s ((((s.wr (z + 16) NULL).wr (x + 8) NULL).wr (x + 16) NULL).setList i
        (s.all_free_list_start i) z) := by
  have hx : x ∈ L i := by rw [hL]; exact List.mem_append_right _ (List.mem_singleton_self _)
  have hz : z ∈ L i := by
    rw [hL]
    exact List.mem_append_left _ (List.mem_append_right _ (List.mem_singleton_self _))
  obtain ⟨b, hb, hbx, -, -⟩ := hl.nodes i x hx
  obtain ⟨c, hc, hcz, -, -⟩ := hl.nodes i z hz
  have hbb := hh.bounds hb
  have hcb := hh.bounds hc
  have hnd := hl.nodup i
  have hseg := hl.links i
  rw [hL] at hnd hseg
  have hnd' := List.nodup_append.1 hnd
  have hnd2 := List.nodup_append.1 hnd'.1
  have hxz : x ≠ z := fun h => hnd'.2.2
    (List.mem_append_right _ (List.mem_singleton_self z)) (by rw [h]; exact List.mem_singleton_self _)
  have hsz : x + 32 ≤ z ∨ z + 32 ≤ x := by
    have := hl.sep hh hx hz; omega
  rw [Seg.append_iff] at hseg
  have hs1 := hseg.1
  have hfr : ∀ j w, w ∈ L j → w ≠ x → w ≠ z →
      load64 (store64 (store64 (store64 s.mem (z + 16) NULL) (x + 8) NULL) (x + 16) NULL)
        (w + 8) = load64 s.mem (w + 8)
      ∧ load64 (store64 (store64 (store64 s.mem (z + 16) NULL) (x + 8) NULL) (x + 16) NULL)
        (w + 16) = load64 s.mem (w + 16) := by
    intro j w hw h1 h2
    have hwx : w + 32 ≤ x ∨ x + 32 ≤ w := by have := hl.sep hh hw hx; omega
    have hwz : w + 32 ≤ z ∨ z + 32 ≤ w := by have := hl.sep hh hw hz; omega
    have e1 := fields_store s.mem NULL hwz (Or.inr rfl)
    have e2 := fields_store (store64 s.mem (z + 16) NULL) NULL hwx (Or.inl rfl)
    have e3 := fields_store (store64 (store64 s.mem (z + 16) NULL) (x + 8) NULL) NULL hwx
      (Or.inr rfl)
    exact ⟨e3.1.trans (e2.1.trans e1.1), e3.2.trans (e2.2.trans e1.2)⟩
  have hne : ∀ j, j ≠ i → ∀ w ∈ L j, w ≠ x ∧ w ≠ z := by
    intro j hj w hw
    constructor
    · rintro rfl
      rcases hl.sep hh hw hx with h | h | h
      · exact hj h.1
      · omega
      · omega
    · rintro rfl
      rcases hl.sep hh hw hz with h | h | h
      · exact hj h.1
      · omega
      · omega
  refine ⟨?_, ?_, ?_⟩
  · exact (((hh.wr_inside hc _ (by omega) (by omega)).wr_inside hb _ (by omega)
      (by omega)).wr_inside hb _ (by omega) (by omega)).setList _ _ _
  · refine hl.update _ _ ?_ ?_ ?_ ?_ ?_ ?_ hnd'.1 ?_
    · intro j hj w hw
      exact hfr j w hw (hne j hj w hw).1 (hne j hj w hw).2
    · intro j hj; rw [setList_start, if_neg hj]; rfl
    · intro j hj; rw [setList_end, if_neg hj]; rfl
    · simp only [setList_mem, wr_mem]
      refine hs1.set_next ?_ ?_ ?_
      · intro w hw
        have hw' : w ∈ L i := by
          rw [hL]; exact List.mem_append_left _ (List.mem_append_left _ hw)
        refine hfr i w hw' ?_ ?_
        · rintro rfl
          exact hnd'.2.2 (List.mem_append_left _ hw) (List.mem_singleton_self _)
        · rintro rfl
          exact hnd2.2.2 hw (List.mem_singleton_self _)
      · rw [load64_store64_sep _ (by omega), load64_store64_sep _ (by omega),
          load64_store64_sep _ (by omega)]
      · rw [load64_store64_sep _ (by omega), load64_store64_sep _ (by omega),
          load64_store64_same]
        rfl
    · rw [setList_start, if_pos rfl, hl.heads, hL]
      simp only [headD_append, List.headD_cons]
    · rw [setList_end, if_pos rfl, getLastD_concat']
    · intro w hw
      exact hl.nodes i w (by rw [hL]; exact List.mem_append_left _ hw)
  · exact (((Top.wr s _ (by omega)).trans
      (Top.wr _ _ (by simp only [wr_heap_epil]; omega))).trans
      (Top.wr _ _ (by simp only [wr_heap_epil]; omega))).trans (Top.set_list _ _ _ _)

/-- Removal of the inner node `x` of the list `xs ++ [z, x, y] ++ ys`. -/
theorem rem_inner {s : State} {bs : List Blk} {L : Nat → List Nat} (hh : Heap s bs)
    (hl : Lists s bs L) {i x y z : Nat} {xs ys : List Nat}
    (hL : L i = xs ++ [z] ++ x :: y :: ys) :
    Heap (((((s.wr (y + 8) z).wr (z + 16) y).wr (x + 8) NULL).wr (x + 16) NULL).setList i
        (s.all_free_list_start i) (s.all_free_list_end i)) bs
      ∧ Lists (((((s.wr (y + 8) z).wr (z + 16) y).wr (x + 8) NULL).wr (x + 16) NULL).setList i
        (s.all_free_list_start i) (s.all_free_list_end i)) bs
        (Function.update L i (xs ++ [z] ++ y :: ys))
      ∧ Top s (((((s.wr (y + 8) z).wr (z + 16) y).wr (x + 8) NULL).wr (x + 16) NULL).setList i
        (s.all_free_list_start i) (s.all_free_list_end i)) := by
  have hx : x ∈ L i := by rw [hL]; exact List.mem_append_right _ (List.mem_cons_self _ _)
  have hy : y ∈ L i := by
    rw [hL]; exact List.mem_append_right _ (List.mem_cons_of_mem _ (List.mem_cons_self _ _))
  have hz : z ∈ L i := by
    rw [hL]
    exact List.mem_append_left _ (List.mem_append_right _ (List.mem_singleton_self _))
  obtain ⟨b, hb, hbx, -, -⟩ := hl.nodes i x hx
  obtain ⟨c, hc, hcz, -, -⟩ := hl.nodes i z hz
  obtain ⟨d, hd, hdy, -, -⟩ := hl.nodes i y hy
  have hbb := hh.bounds hb
  have hcb := hh.bounds hc
  have hdb := hh.bounds hd
  have hnd := hl.nodup i
  have hseg := hl.links i
  rw [hL] at hnd hseg
  have hnd' := List.nodup_append.1 hnd
  have hnd2 := List.nodup_append.1 hnd'.1
  have hndx := List.nodup_cons.1 hnd'.2.1
  have hndy := List.nodup_cons.1 hndx.2
  have hxz : x ≠ z := fun h => hnd'.2.2
    (List.mem_append_right _ (List.mem_singleton_self z)) (by rw [h]; exact List.mem_cons_self _ _)
  have hxy : x ≠ y := fun h => hndx.1 (by rw [h]; exact List.mem_cons_self _ _)
  have hzy : z ≠ y := fun h => hnd'.2.2
    (List.mem_append_right _ (List.mem_singleton_self z))
    (by rw [h]; exact List.mem_cons_of_mem _ (List.mem_cons_self _ _))
  have hsz : x + 32 ≤ z ∨ z + 32 ≤ x := by
    have := hl.sep hh hx hz; omega
  have hsy : x + 32 ≤ y ∨ y + 32 ≤ x := by
    have := hl.sep hh hx hy; omega
  have hszy : z + 32 ≤ y ∨ y + 32 ≤ z := by
    have := hl.sep hh hz hy; omega
  rw [Seg.append_iff, Seg.cons_iff, Seg.cons_iff] at hseg
  obtain ⟨hs1, -, -, -, ht2, ht3⟩ := hseg
  simp only [List.headD_cons] at hs1
  have hfr : ∀ j w, w ∈ L j → w ≠ x → w ≠ z → w ≠ y →
      load64 (store64 (store64 (store64 (store64 s.mem (y + 8) z) (z + 16) y) (x + 8) NULL)
        (x + 16) NULL) (w + 8) = load64 s.mem (w + 8)
      ∧ load64 (store64 (store64 (store64 (store64 s.mem (y + 8) z) (z + 16) y) (x + 8) NULL)
        (x + 16) NULL) (w + 16) = load64 s.mem (w + 16) := by
    intro j w hw h1 h2 h3
    have hwx : w + 32 ≤ x ∨ x + 32 ≤ w := by have := hl.sep hh hw hx; omega
    have hwz : w + 32 ≤ z ∨ z + 32 ≤ w := by have := hl.sep hh hw hz; omega
    have hwy : w + 32 ≤ y ∨ y + 32 ≤ w := by have := hl.sep hh hw hy; omega
    have e0 := fields_store s.mem z hwy (Or.inl rfl)
    have e1 := fields_store (store64 s.mem (y + 8) z) y hwz (Or.inr rfl)
    have e2 := fields_store (store64 (store64 s.mem (y + 8) z) (z + 16) y) NULL hwx
      (Or.inl rfl)
    have e3 := fields_store (store64 (store64 (store64 s.mem (y + 8) z) (z + 16) y) (x + 8)
      NULL) NULL hwx (Or.inr rfl)
    exact ⟨e3.1.trans (e2.1.trans (e1.1.trans e0.1)), e3.2.trans (e2.2.trans (e1.2.trans e0.2))⟩
  have hne : ∀ j, j ≠ i → ∀ w ∈ L j, w ≠ x ∧ w ≠ z ∧ w ≠ y := by
    intro j hj w hw
    refine ⟨?_, ?_, ?_⟩
    · rintro rfl
      rcases hl.sep hh hw hx with h | h | h
      · exact hj h.1
      · omega
      · omega
    · rintro rfl
      rcases hl.sep hh hw hz with h | h | h
      · exact hj h.1
      · omega
      · omega
    · rintro rfl
      rcases hl.sep hh hw hy with h | h | h
      · exact hj h.1
      · omega
      · omega
  refine ⟨?_, ?_, ?_⟩
  · exact ((((hh.wr_inside hd _ (by omega) (by omega)).wr_inside hc _ (by omega)
      (by omega)).wr_inside hb _ (by omega) (by omega)).wr_inside hb _ (by omega)
      (by omega)).setList _ _ _
  · refine hl.update _ _ ?_ ?_ ?_ ?_ ?_ ?_ ?_ ?_
    · intro j hj w hw
      exact hfr j w hw (hne j hj w hw).1 (hne j hj w hw).2.1 (hne j hj w hw).2.2
    · intro j hj; rw [setList_start, if_neg hj]; rfl
    · intro j hj; rw [setList_end, if_neg hj]; rfl
    · simp only [setList_mem, wr_mem]
      rw [Seg.append_iff]
      constructor
      · refine hs1.set_next ?_ ?_ ?_
        · intro w hw
          have hw' : w ∈ L i := by
            rw [hL]; exact List.mem_append_left _ (List.mem_append_left _ hw)
          refine hfr i w hw' ?_ ?_ ?_
          · rintro rfl
            exact hnd'.2.2 (List.mem_append_left _ hw) (List.mem_cons_self _ _)
          · rintro rfl
            exact hnd2.2.2 hw (List.mem_singleton_self _)
          · rintro rfl
            exact hnd'.2.2 (List.mem_append_left _ hw)
              (List.mem_cons_of_mem _ (List.mem_cons_self _ _))
        · rw [load64_store64_sep _ (by omega), load64_store64_sep _ (by omega),
            load64_store64_sep _ (by omega), load64_store64_sep _ (by omega)]
        · rw [load64_store64_sep _ (by omega), load64_store64_sep _ (by omega),
            load64_store64_same]
          exact Nat.mod_eq_of_lt (by omega)
      · rw [getLastD_concat', Seg.cons_iff]
        refine ⟨?_, ?_, ?_⟩
        · rw [load64_store64_sep _ (by omega), load64_store64_sep _ (by omega),
            load64_store64_sep _ (by omega), load64_store64_same]
          exact Nat.mod_eq_of_lt (by omega)
        · rw [load64_store64_sep _ (by omega), load64_store64_sep _ (by omega),
            load64_store64_sep _ (by omega), load64_store64_sep _ (by omega)]
          exact ht2
        · refine ht3.congr ?_
          intro w hw
          have hw' : w ∈ L i := by
            rw [hL]
            exact List.mem_append_right _ (List.mem_cons_of_mem _ (List.mem_cons_of_mem _ hw))
          refine hfr i w hw' ?_ ?_ ?_
          · rintro rfl
            exact hndx.1 (List.mem_cons_of_mem _ hw)
          · rintro rfl
            exact hnd'.2.2 (List.mem_append_right _ (List.mem_singleton_self _))
              (List.mem_cons_of_mem _ (List.mem_cons_of_mem _ hw))
          · rintro rfl
            exact hndy.1 hw
    · rw [setList_start, if_pos rfl, hl.heads, hL]
      simp only [headD_append, List.headD_cons]
    · rw [setList_end, if_pos rfl, hl.tails, hL, getLastD_append_cons, getLastD_append_cons]
      simp only [List.getLastD_cons]
    · exact List.nodup_append.2 ⟨hnd'.1, hndx.2, fun w h1 h2 =>
        hnd'.2.2 h1 (List.mem_cons_of_mem _ h2)⟩
    · intro w hw
      refine hl.nodes i w ?_
      rw [hL]
      rcases List.mem_append.1 hw with h | h
      · exact List.mem_append_left _ h
      · exact List.mem_append_right _ (List.mem_cons_of_mem _ h)
  · exact ((((Top.wr s _ (by omega)).trans
      (Top.wr _ _ (by simp only [wr_heap_epil]; omega))).trans
      (Top.wr _ _ (by simp only [wr_heap_epil]; omega))).trans
      (Top.wr _ _ (by simp only [wr_heap_epil]; omega))).trans (Top.set_list _ _ _ _)

theorem list_rem_spec {s : State} {bs : List Blk} {L : Nat → List Nat} (hh : Heap s bs)
    (hl : Lists s bs L) {i x : Nat} (hx : x ∈ L i) :
    Heap (list_rem s x (s.all_free_list_start i) (s.all_free_list_end i) i) bs
      ∧ Lists (list_rem s x (s.all_free_list_start i) (s.all_free_list_end i) i) bs
        (Function.update L i ((L i).erase x))
      ∧ Top s (list_rem s x (s.all_free_list_start i) (s.all_free_list_end i) i) := by
  obtain ⟨b, hb, hbx, hfree, -⟩ := hl.nodes i x hx
  have hxb := hl.node_bounds hh hx
  have hga : get_alloc s x = false := by rw [← hbx, hh.get_alloc hb, hfree]
  have hnd := hl.nodup i
  have hseg := hl.links i
  obtain ⟨xs, ys, hL⟩ := List.append_of_mem hx
  rw [hL] at hnd hseg
  have hnd' := List.nodup_append.1 hnd
  have hxxs : x ∉ xs := fun h => hnd'.2.2 h (List.mem_cons_self _ _)
  have hxys : x ∉ ys := (List.nodup_cons.1 hnd'.2.1).1
  have her : (L i).erase x = xs ++ ys := by
    rw [hL, List.erase_append_right _ hxxs, List.erase_cons_head]
  have hhd : s.all_free_list_start i = xs.headD x := by
    rw [hl.heads, hL, headD_append]; rfl
  have htl : s.all_free_list_end i = ys.getLastD x := by
    rw [hl.tails, hL, getLastD_append_cons]
  have hst_mem : xs.headD x ∈ L i := by
    rw [hL]
    rcases List.mem_append.1 (headD_mem_concat xs x) with h | h
    · exact List.mem_append_left _ h
    · rw [List.mem_singleton.1 h]; exact List.mem_append_right _ (List.mem_cons_self _ _)
  have hstb := hl.node_bounds hh hst_mem
  have h0 : ¬ (x = NULL ∨ get_alloc s x = true ∨ s.all_free_list_start i = NULL) := by
    rw [hga, hhd]
    unfold NULL
    rintro (h | h | h)
    · omega
    · cases h
    · omega
  rw [Seg.append_iff, Seg.cons_iff] at hseg
  obtain ⟨-, hs2, hs3, -⟩ := hseg
  rw [her]
  rcases List.eq_nil_or_concat xs with hxs | ⟨xs', z, hxs⟩
  · subst hxs
    cases ys with
    | nil =>
      rw [list_rem_single i h0 (by rw [hhd, htl]; rfl) (by omega)]
      exact rem_single hh hl hL
    | cons y ys' =>
      have hy : y ∈ L i := by
        rw [hL]; exact List.mem_cons_of_mem _ (List.mem_cons_self _ _)
      have hyb := hl.node_bounds hh hy
      have hlast : (y :: ys').getLastD x ∈ y :: ys' := by
        rw [List.getLastD_cons]; exact getLastD_mem_cons y ys'
      have hne : ¬ (s.all_free_list_start i = s.all_free_list_end i) := by
        rw [hhd, htl]
        intro h
        exact hxys (by rw [List.headD_nil] at h; rw [h]; exact hlast)
      have hs3' : s.rd (x + 16) = y := hs3
      rw [list_rem_head i h0 hne (by rw [hhd]; rfl) (by omega) hs3' (by omega), htl]
      have := rem_head hh hl hL
      rw [htl] at this
      exact this
  · rw [List.concat_eq_append] at hxs
    subst hxs
    have hz : z ∈ L i := by
      rw [hL]
      exact List.mem_append_left _ (List.mem_append_right _ (List.mem_singleton_self _))
    have hzb := hl.node_bounds hh hz
    have hpv : s.rd (x + 8) = z := by
      have := hs2
      rw [getLastD_concat'] at this
      exact this
    have hst_in : (xs' ++ [z]).headD x ∈ xs' ++ [z] := by
      rw [headD_append]; exact headD_mem_concat xs' z
    have hxst : ¬ (x = s.all_free_list_start i) := by
      rw [hhd]; intro h; exact hxxs (h ▸ hst_in)
    cases ys with
    | nil =>
      have hne : ¬ (s.all_free_list_start i = s.all_free_list_end i) := by
        rw [htl]; exact fun h => hxst h.symm
      rw [list_rem_last i h0 hne hxst (by rw [htl]; rfl) (by omega) hpv (by omega),
        List.append_nil]
      exact rem_last hh hl hL
    | cons y ys' =>
      have hy : y ∈ L i := by
        rw [hL]
        exact List.mem_append_right _ (List.mem_cons_of_mem _ (List.mem_cons_self _ _))
      have hyb := hl.node_bounds hh hy
      have hxy : x ≠ y := fun h => hxys (h ▸ List.mem_cons_self _ _)
      have hsy : x + 32 ≤ y ∨ y + 32 ≤ x := by
        have := hl.sep hh hx hy; omega
      have hlast : (y :: ys').getLastD x ∈ y :: ys' := by
        rw [List.getLastD_cons]; exact getLastD_mem_cons y ys'
      have hxen : ¬ (x = s.all_free_list_end i) := by
        rw [htl]; intro h; exact hxys (h ▸ hlast)
      have hne : ¬ (s.all_free_list_start i = s.all_free_list_end i) := by
        rw [hhd, htl]
        intro h
        exact hnd'.2.2 hst_in (List.mem_cons_of_mem _ (h ▸ hlast))
      have hs3' : s.rd (x + 16) = y := hs3
      rw [list_rem_inner i h0 hne hxst hxen (by omega) hs3' hpv (by omega) (by omega) hsy]
      exact rem_inner hh hl hL

theorem add_to_free_list_eq {s : State} {x sz : Nat} (hsz : get_size s x = sz)
    (h32 : 32 ≤ sz) :
    add_to_free_list s x = list_add s x (s.all_free_list_start (tier sz))
      (s.all_free_list_end (tier sz)) (tier sz) := by
  unfold add_to_free_list tier cat1 cat2 cat3 first_list second_list third_list
  simp only [hsz]
  split_ifs <;> first | omega | rfl

theorem rem_from_free_list_eq {s : State} {x sz : Nat} (hsz : get_size s x = sz)
    (h32 : 32 ≤ sz) :
    rem_from_free_list s x = list_rem s x (s.all_free_list_start (tier sz))
      (s.all_free_list_end (tier sz)) (tier sz) := by
  unfold rem_from_free_list tier cat1 cat2 cat3 first_list second_list third_list
  simp only [hsz]
  split_ifs <;> first | omega | rfl

theorem add_to_free_list_spec {s : State} {bs : List Blk} {L : Nat → List Nat}
    (hc : Core s bs L) {b : Blk} (hb : b ∈ bs) (hfree : b.alloc = false)
    (hn : b.addr ∉ L (tier b.size)) :
    Core (add_to_free_list s b.addr) bs
        (Function.update L (tier b.size) (b.addr :: L (tier b.size)))
      ∧ Top s (add_to_free_list s b.addr) := by
  rw [add_to_free_list_eq (hc.heap.get_size hb) (hc.heap.bounds hb).2.2.1]
  obtain ⟨h1, h2, h3⟩ := list_add_spec hc.heap hc.lists hb hfree hn
  exact ⟨⟨h1, h2⟩, h3⟩

theorem rem_from_free_list_spec {s : State} {bs : List Blk} {L : Nat → List Nat}
    (hc : Core s bs L) {b : Blk} (hb : b ∈ bs) (hin : b.addr ∈ L (tier b.size)) :
    Core (rem_from_free_list s b.addr) bs
        (Function.update L (tier b.size) ((L (tier b.size)).erase b.addr))
      ∧ Top s (rem_from_free_list s b.addr) := by
  rw [rem_from_free_list_eq (hc.heap.get_size hb) (hc.heap.bounds hb).2.2.1]
  obtain ⟨h1, h2, h3⟩ := list_rem_spec hc.heap hc.lists hin
  exact ⟨⟨h1, h2⟩, h3⟩

/-- Rewriting the blocks of an address range `[lo, hi)` of the heap: when no block of the
range is a list node, the memory outside the range is unchanged and the new blocks `mid'`
tile the range and carry their tags, the structural invariant holds for the new blocks. -/
theorem Core.retag {s : State} {L : Nat → List Nat} {pre mid mid' post : List Blk}
    {lo hi : Nat} {m' : Nat → Nat} (hc : Core s (pre ++ mid ++ post) L)
    (h1 : Layout s.heap_start pre lo) (h3 : Layout hi post s.heap_epil)
    (hfr : ∀ x, x < lo ∨ hi ≤ x → m' x = s.mem x)
    (hl' : Layout lo mid' hi)
    (htags : ∀ b ∈ mid', load64 m' b.addr = pack b.size b.alloc
      ∧ load64 m' (b.addr + b.size - 8) = pack b.size b.alloc)
    (hnot : ∀ b ∈ mid, ∀ i, b.addr ∉ L i) :
    Core { s with mem := m' } (pre ++ mid' ++ post) L ∧ Top s { s with mem := m' } := by
  have hh := hc.heap
  have hl := hc.lists
  have hep := h3.le
  have hprol := hh.prol
  have hpre : ∀ b ∈ pre, b.addr + b.size ≤ lo ∧ 8 ≤ b.addr ∧ 32 ≤ b.size := by
    intro b hb
    have := h1.mem hb
    omega
  have hpost : ∀ b ∈ post, hi ≤ b.addr ∧ 32 ≤ b.size := by
    intro b hb
    have := h3.mem hb
    omega
  have hrd : ∀ a, a + 8 ≤ lo ∨ hi ≤ a → load64 m' a = load64 s.mem a := by
    intro a ha
    exact load64_congr fun x hx1 hx2 => hfr x (by omega)
  refine ⟨⟨⟨hh.prol, hh.brk0, hh.brk, hh.lim, hh.lim64, ?_, ?_, ?_⟩, ⟨?_, hl.heads, hl.tails,
    hl.nodup, ?_⟩⟩, rfl, fun x hx => hfr x (by omega)⟩
  · exact Layout.append.2 ⟨hi, Layout.append.2 ⟨lo, h1, hl'⟩, h3⟩
  · have : load64 m' s.heap_prol = load64 s.mem s.heap_prol := hrd _ (by
      have := h1.le
      omega)
    exact this.trans hh.prologue
  · intro b hb
    rcases List.mem_append.1 hb with hb | hb
    · rcases List.mem_append.1 hb with hb | hb
      · have hbm : b ∈ pre ++ mid ++ post :=
          List.mem_append_left _ (List.mem_append_left _ hb)
        have := hpre b hb
        have e1 : load64 m' b.addr = load64 s.mem b.addr := hrd _ (by omega)
        have e2 : load64 m' (b.addr + b.size - 8) = load64 s.mem (b.addr + b.size - 8) :=
          hrd _ (by omega)
        exact ⟨e1.trans (hh.tags b hbm).1, e2.trans (hh.tags b hbm).2⟩
      · exact htags b hb
    · have hbm : b ∈ pre ++ mid ++ post := List.mem_append_right _ hb
      have := hpost b hb
      have e1 : load64 m' b.addr = load64 s.mem b.addr := hrd _ (by omega)
      have e2 : load64 m' (b.addr + b.size - 8) = load64 s.mem (b.addr + b.size - 8) :=
        hrd _ (by omega)
      exact ⟨e1.trans (hh.tags b hbm).1, e2.trans (hh.tags b hbm).2⟩
  · intro i
    refine (hl.links i).congr ?_
    intro x hx
    obtain ⟨c, hcm, hcx, -, -⟩ := hl.nodes i x hx
    subst hcx
    rcases List.mem_append.1 hcm with hcm | hcm
    · rcases List.mem_append.1 hcm with hcm | hcm
      · have := hpre c hcm
        exact ⟨hrd _ (by omega), hrd _ (by omega)⟩
      · exact absurd hx (hnot c hcm i)
    · have := hpost c hcm
      exact ⟨hrd _ (by omega), hrd _ (by omega)⟩
  · intro i x hx
    obtain ⟨c, hcm, hcx, hca, hct⟩ := hl.nodes i x hx
    refine ⟨c, ?_, hcx, hca, hct⟩
    rcases List.mem_append.1 hcm with hcm | hcm
    · rcases List.mem_append.1 hcm with hcm | hcm
      · exact List.mem_append_left _ (List.mem_append_left _ hcm)
      · subst hcx
        exact absurd hx (hnot c hcm i)
    · exact List.mem_append_right _ hcm

/-- A list node belongs to the list of the tier of its block only. -/
theorem Core.mem_tier {s : State} {bs : List Blk} {L : Nat → List Nat} (hc : Core s bs L)
    {b : Blk} (hb : b ∈ bs) {i : Nat} (hi : b.addr ∈ L i) : i = tier b.size := by
  obtain ⟨c, hcm, hca, -, hct⟩ := hc.lists.nodes i _ hi
  have := hc.heap.layout.addr_inj hcm hb hca
  subst this
  exact hct.symm

/-- Removing a listed block from its free list. -/
theorem rem_block {s : State} {bs : List Blk} {L : Nat → List Nat} (hc : Core s bs L)
    {b : Blk} (hb : b ∈ bs) (hin : b.addr ∈ L (tier b.size)) :
    ∃ L', Core (rem_from_free_list s b.addr) bs L' ∧ Top s (rem_from_free_list s b.addr)
      ∧ ∀ i x, x ∈ L' i ↔ (x ∈ L i ∧ x ≠ b.addr) := by
  obtain ⟨h1, h2⟩ := rem_from_free_list_spec hc hb hin
  refine ⟨_, h1, h2, ?_⟩
  intro i x
  by_cases hi : i = tier b.size
  · subst hi
    rw [Function.update_same, (hc.lists.nodup _).mem_erase_iff]
    tauto
  · rw [Function.update_noteq hi]
    constructor
    · intro hx
      refine ⟨hx, ?_⟩
      rintro rfl
      exact hi (hc.mem_tier hb hx)
    · exact fun h => h.1

/-- Inserting an unlisted free block at the head of the free list of its tier. -/
theorem add_block {s : State} {bs : List Blk} {L : Nat → List Nat} (hc : Core s bs L)
    {b : Blk} (hb : b ∈ bs) (hfree : b.alloc = false) (hn : b.addr ∉ L (tier b.size)) :
    ∃ L', Core (add_to_free_list s b.addr) bs L' ∧ Top s (add_to_free_list s b.addr)
      ∧ (∀ i x, x ∈ L' i ↔ (x ∈ L i ∨ (x = b.addr ∧ i = tier b.size)))
      ∧ L' (tier b.size) = b.addr :: L (tier b.size) := by
  obtain ⟨h1, h2⟩ := add_to_free_list_spec hc hb hfree hn
  refine ⟨_, h1, h2, ?_, Function.update_same _ _ _⟩
  intro i x
  by_cases hi : i = tier b.size
  · subst hi
    rw [Function.update_same, List.mem_cons]
    tauto
  · rw [Function.update_noteq hi]
    tauto

/-- Writing the header and the footer of one block that covers the range `[lo, hi)`. -/
theorem Core.set_block {s : State} {L : Nat → List Nat} {pre mid post : List Blk}
    {lo hi : Nat} (al : Bool) (hc : Core s (pre ++ mid ++ post) L)
    (h1 : Layout s.heap_start pre lo) (h3 : Layout hi post s.heap_epil)
    (hsz : lo + 32 ≤ hi) (h16 : (hi - lo) % 16 = 0)
    (hnot : ∀ b ∈ mid, ∀ i, b.addr ∉ L i) :
    Core ((s.wr lo (pack (hi - lo) al)).wr (hi - 8) (pack (hi - lo) al))
        (pre ++ [⟨lo, hi - lo, al⟩] ++ post) L
      ∧ Top s ((s.wr lo (pack (hi - lo) al)).wr (hi - 8) (pack (hi - lo) al)) := by
  have hep := h3.le
  have hlt := hc.heap.epil_lt
  have hv : pack (hi - lo) al < 2^64 := pack_lt al h16 (by omega)
  refine @Core.retag _ _ _ _ _ _ _ _ (store64 (store64 s.mem lo (pack (hi - lo) al)) (hi - 8)
    (pack (hi - lo) al)) hc h1 h3 ?_ ?_ ?_ hnot
  · intro x hx
    rw [store64_out (by omega), store64_out (by omega)]
  · exact ⟨rfl, show 32 ≤ hi - lo by omega, h16, show lo + (hi - lo) = hi by omega⟩
  · intro b hb
    rw [List.mem_singleton] at hb
    subst hb
    constructor
    · show load64 _ lo = _
      rw [load64_store64_sep _ (by omega), load64_store64_same]
      exact Nat.mod_eq_of_lt hv
    · show load64 _ (lo + (hi - lo) - 8) = _
      have : lo + (hi - lo) - 8 = hi - 8 := by omega
      rw [this, load64_store64_same]
      exact Nat.mod_eq_of_lt hv

/-- Writing the headers and footers of two blocks that cover `[lo, md)` and `[md, hi)`. -/
theorem Core.set_two {s : State} {L : Nat → List Nat} {pre mid post : List Blk}
    {lo md hi : Nat} (a1 a2 : Bool) (hc : Core s (pre ++ mid ++ post) L)
    (h1 : Layout s.heap_start pre lo) (h3 : Layout hi post s.heap_epil)
    (hs1 : lo + 32 ≤ md) (hs2 : md + 32 ≤ hi) (h16 : (md - lo) % 16 = 0)
    (h16' : (hi - md) % 16 = 0) (hnot : ∀ b ∈ mid, ∀ i, b.addr ∉ L i) :
    Core ((((s.wr lo (pack (md - lo) a1)).wr (md - 8) (pack (md - lo) a1)).wr md
          (pack (hi - md) a2)).wr (hi - 8) (pack (hi - md) a2))
        (pre ++ [⟨lo, md - lo, a1⟩, ⟨md, hi - md, a2⟩] ++ post) L
      ∧ Top s ((((s.wr lo (pack (md - lo) a1)).wr (md - 8) (pack (md - lo) a1)).wr md
          (pack (hi - md) a2)).wr (hi - 8) (pack (hi - md) a2)) := by
  have hep := h3.le
  have hlt := hc.heap.epil_lt
  have hv1 : pack (md - lo) a1 < 2^64 := pack_lt a1 h16 (by omega)
  have hv2 : pack (hi - md) a2 < 2^64 := pack_lt a2 h16' (by omega)
  refine @Core.retag _ _ _ _ _ _ _ _ (store64 (store64 (store64 (store64 s.mem lo
    (pack (md - lo) a1)) (md - 8) (pack (md - lo) a1)) md (pack (hi - md) a2)) (hi - 8)
    (pack (hi - md) a2)) hc h1 h3 ?_ ?_ ?_ hnot
  · intro x hx
    rw [store64_out (by omega), store64_out (by omega), store64_out (by omega),
      store64_out (by omega)]
  · refine ⟨rfl, show 32 ≤ md - lo by omega, h16, ?_⟩
    have : lo + (md - lo) = md := by omega
    show Layout (lo + (md - lo)) _ hi
    rw [this]
    exact ⟨rfl, show 32 ≤ hi - md by omega, h16', show md + (hi - md) = hi by omega⟩
  · intro b hb
    rcases List.mem_cons.1 hb with hb | hb
    · subst hb
      constructor
      · show load64 _ lo = _
        rw [load64_store64_sep _ (by omega), load64_store64_sep _ (by omega),
          load64_store64_sep _ (by omega), load64_store64_same]
        exact Nat.mod_eq_of_lt hv1
      · show load64 _ (lo + (md - lo) - 8) = _
        have : lo + (md - lo) - 8 = md - 8 := by omega
        rw [this, load64_store64_sep _ (by omega), load64_store64_sep _ (by omega),
          load64_store64_same]
        exact Nat.mod_eq_of_lt hv1
    · rw [List.mem_singleton] at hb
      subst hb
      constructor
      · show load64 _ md = _
        rw [load64_store64_sep _ (by omega), load64_store64_same]
        exact Nat.mod_eq_of_lt hv2
      · show load64 _ (md + (hi - md) - 8) = _
        have : md + (hi - md) - 8 = hi - 8 := by omega
        rw [this, load64_store64_same]
        exact Nat.mod_eq_of_lt hv2

theorem get_size_wr_same (s : State) (x : Nat) {size : Nat} (al : Bool) (h : size % 16 = 0)
    (hs : size < 2^64) : get_size (s.wr x (pack size al)) x = size := by
  unfold get_size
  rw [rd_wr_same _ _ _ (pack_lt al h hs), extract_size_pack al h hs]

theorem get_size_wr_sep (s : State) {a x : Nat} (v : Nat) (h : a + 8 ≤ x ∨ x + 8 ≤ a) :
    get_size (s.wr a v) x = get_size s x := by
  unfold get_size
  rw [rd_wr_sep _ _ h]

/-- The state after `place` when the block is split. -/
theorem place_eq_split {s : State} {x asize csize : Nat} (hcs : get_size s x = csize)
    (hx : x + csize + 8 < 2^64) (ha1 : asize % 16 = 0) (hc1 : csize % 16 = 0)
    (h32 : 32 ≤ asize) (hsp : asize + 32 ≤ csize) :
    place s x asize = add_to_free_list
      (((((rem_from_free_list s x).wr x (pack asize true)).wr (x + asize - 8)
        (pack asize true)).wr (x + asize) (pack (csize - asize) false)).wr (x + csize - 8)
        (pack (csize - asize) false)) (x + asize) := by
  have e0 : psub csize asize = csize - asize := psub_eq (by omega) (by omega)
  have e1 : get_size ((rem_from_free_list s x).wr x (pack asize true)) x = asize :=
    get_size_wr_same _ _ _ ha1 (by omega)
  have e2 : psub (padd (padd x 8) asize) dsize = x + asize - 8 := by
    unfold dsize
    rw [padd_eq (show x + 8 < 2^64 by omega), padd_eq (show x + 8 + asize < 2^64 by omega),
      psub_eq (by omega) (by omega)]
    omega
  have e3 : get_size (((rem_from_free_list s x).wr x (pack asize true)).wr (x + asize - 8)
      (pack asize true)) x = asize := by
    rw [get_size_wr_sep _ _ (by omega)]; exact e1
  have e4 : padd x asize = x + asize := padd_eq (by omega)
  have e5 : get_size ((((rem_from_free_list s x).wr x (pack asize true)).wr (x + asize - 8)
      (pack asize true)).wr (x + asize) (pack (csize - asize) false)) (x + asize)
      = csize - asize := get_size_wr_same _ _ _ (by omega) (by omega)
  have e6 : psub (padd (padd (x + asize) 8) (csize - asize)) dsize = x + csize - 8 := by
    unfold dsize
    rw [padd_eq (show x + asize + 8 < 2^64 by omega),
      padd_eq (show x + asize + 8 + (csize - asize) < 2^64 by omega),
      psub_eq (by omega) (by omega)]
    omega
  unfold place
  simp only [hcs, e0]
  rw [if_pos (show min_block_size ≤ csize - asize by unfold min_block_size; omega)]
  unfold write_header write_footer find_next
  simp only [e1, e2, e3, e4, e5, e6]

/-- The state after `place` when the whole block is used. -/
theorem place_eq_whole {s : State} {x asize csize : Nat} (hcs : get_size s x = csize)
    (hx : x + csize + 8 < 2^64) (hc1 : csize % 16 = 0) (h32 : 32 ≤ csize)
    (hle : asize ≤ csize) (hsp : csize < asize + 32) :
    place s x asize = ((rem_from_free_list s x).wr x (pack csize true)).wr (x + csize - 8)
      (pack csize true) := by
  have e0 : psub csize asize = csize - asize := psub_eq (by omega) (by omega)
  have e1 : get_size ((rem_from_free_list s x).wr x (pack csize true)) x = csize :=
    get_size_wr_same _ _ _ hc1 (by omega)
  have e2 : psub (padd (padd x 8) csize) dsize = x + csize - 8 := by
    unfold dsize
    rw [padd_eq (show x + 8 < 2^64 by omega), padd_eq (show x + 8 + csize < 2^64 by omega),
      psub_eq (by omega) (by omega)]
    omega
  unfold place
  simp only [hcs, e0]
  rw [if_neg (show ¬ min_block_size ≤ csize - asize by unfold min_block_size; omega)]
  unfold write_header write_footer
  simp only [e1, e2]

theorem NoAdj.parts {pre mid post : List Blk} (h : NoAdj (pre ++ mid ++ post)) :
    NoAdj pre ∧ NoAdj mid ∧ NoAdj post := by
  unfold NoAdj at *
  have h1 := List.chain'_append.1 h
  have h2 := List.chain'_append.1 h1.1
  exact ⟨h2.1, h2.2.1, h1.2.1⟩

theorem NoAdj.around {pre post : List Blk} {b : Blk} (h : NoAdj (pre ++ [b] ++ post))
    (hb : b.alloc = false) :
    (∀ p ∈ pre.getLast?, p.alloc = true) ∧ (∀ n ∈ post.head?, n.alloc = true) := by
  unfold NoAdj at h
  have h1 := List.chain'_append.1 h
  have h2 := List.chain'_append.1 h1.1
  constructor
  · intro p hp
    have := h2.2.2 p hp b rfl
    rw [hb] at this
    simpa using this
  · intro n hn
    have := h1.2.2 b (by simp) n hn
    rw [hb] at this
    simpa using this

theorem NoAdj.build {pre mid post : List Blk} (hpre : NoAdj pre) (hpost : NoAdj post)
    (hmid : NoAdj mid) (hne : mid ≠ [])
    (hl : ∀ p ∈ pre.getLast?, ∀ y ∈ mid.head?, p.alloc = true ∨ y.alloc = true)
    (hr : ∀ x ∈ mid.getLast?, ∀ n ∈ post.head?, x.alloc = true ∨ n.alloc = true) :
    NoAdj (pre ++ mid ++ post) := by
  unfold NoAdj at *
  refine List.chain'_append.2 ⟨List.chain'_append.2 ⟨hpre, hmid, hl⟩, hpost, ?_⟩
  intro x hx n hn
  rw [List.getLast?_append_of_ne_nil _ hne] at hx
  exact hr x hx n hn

theorem Inv.listed {s : State} {bs : List Blk} {L : Nat → List Nat} (hi : Inv s bs L)
    {b : Blk} (hb : b ∈ bs) (hfree : b.alloc = false) : b.addr ∈ L (tier b.size) :=
  hi.full b hb hfree

theorem Top.epilogue {s t : State} (h : Top s t) (he : s.rd s.heap_epil = pack 0 true) :
    t.rd t.heap_epil = pack 0 true := by
  rw [h.1, h.rd (Nat.le_refl _)]
  exact he

/-- An address strictly inside a block is not the address of a block. -/
theorem Layout.not_inside {a e : Nat} {bs : List Blk} (h : Layout a bs e) {b c : Blk}
    (hb : b ∈ bs) (hc : c ∈ bs) (h1 : b.addr < c.addr) (h2 : c.addr < b.addr + b.size) :
    False := by
  have hcb := h.mem hc
  rcases h.disjoint hb hc with h3 | h3 | h3
  · subst h3; omega
  · omega
  · omega

theorem mem_mid_iff {pre mid post : List Blk} {c : Blk} :
    c ∈ pre ++ mid ++ post ↔ c ∈ pre ∨ c ∈ mid ∨ c ∈ post := by
  rw [List.mem_append, List.mem_append, or_assoc]

theorem place_spec {s : State} {bs : List Blk} {L : Nat → List Nat} (hi : Inv s bs L)
    {b : Blk} (hb : b ∈ bs) (hfree : b.alloc = false) {asize : Nat} (h32 : 32 ≤ asize)
    (h16 : asize % 16 = 0) (hle : asize ≤ b.size) :
    ∃ bs' L' sz, Inv (place s b.addr asize) bs' L' ∧ asize ≤ sz ∧ sz ≤ b.size
      ∧ (⟨b.addr, sz, true⟩ : Blk) ∈ bs'
      ∧ (∀ c ∈ bs, c.alloc = true → c ∈ bs')
      ∧ Top s (place s b.addr asize) := by
  have hbb := hi.core.heap.bounds hb
  have hgs := hi.core.heap.get_size hb
  obtain ⟨L1, hc1, ht1, hm1⟩ := rem_block hi.core hb (hi.listed hb hfree)
  obtain ⟨pre, post, hbs, hl1, hl3⟩ := hc1.heap.layout.split hb
  have hbs' : bs = pre ++ [b] ++ post := by rw [hbs]; simp
  subst hbs'
  have hnot : ∀ c ∈ [b], ∀ i, c.addr ∉ L1 i := by
    intro c hc i hx
    rw [List.mem_singleton] at hc
    subst hc
    exact ((hm1 i _).1 hx).2 rfl
  obtain ⟨hpa, hna⟩ := hi.noadj.around hfree
  obtain ⟨hnpre, -, hnpost⟩ := hi.noadj.parts
  have hfull1 : ∀ c, c ∈ pre ∨ c ∈ post → c.alloc = false → c.addr ∈ L1 (tier c.size) := by
    intro c hc hcf
    have hcm : c ∈ pre ++ [b] ++ post := by
      rw [mem_mid_iff]; rcases hc with h | h
      · exact Or.inl h
      · exact Or.inr (Or.inr h)
    refine (hm1 _ _).2 ⟨hi.full c hcm hcf, ?_⟩
    intro hcb
    have := hc1.heap.layout.addr_inj hcm hb hcb
    subst this
    have hd := hc1.heap.layout
    rcases hc with h | h
    · have := hl1.mem h; omega
    · have := hl3.mem h; omega
  by_cases hsp : asize + 32 ≤ b.size
  · -- the block is split
    rw [place_eq_split hgs (by omega) h16 (by omega) h32 hsp]
    obtain ⟨hc2, ht2⟩ := @Core.set_two _ _ _ _ _ _ (b.addr + asize) _ true false hc1 hl1 hl3 (by omega)
      (by omega) (by omega) (by omega) hnot
    simp only [Nat.add_sub_cancel_left, Nat.add_sub_add_left] at hc2 ht2
    have hr : (⟨b.addr + asize, b.size - asize, false⟩ : Blk) ∈
        pre ++ [⟨b.addr, asize, true⟩, ⟨b.addr + asize, b.size - asize, false⟩] ++ post := by
      simp
    have hrn : ∀ i, b.addr + asize ∉ L1 i := by
      intro i hx
      obtain ⟨c, hcm, hca, -, -⟩ := hi.core.lists.nodes i _ ((hm1 i _).1 hx).1
      exact hi.core.heap.layout.not_inside hb hcm (by omega) (by omega)
    obtain ⟨L2, hc3, ht3, hm3, -⟩ := add_block hc2 hr rfl (hrn _)
    refine ⟨_, L2, asize, ⟨hc3, ((ht1.trans ht2).trans ht3).epilogue hi.epilogue, ?_, ?_⟩,
      Nat.le_refl _, hle, by simp, ?_, (ht1.trans ht2).trans ht3⟩
    · intro c hc hcf
      rw [mem_mid_iff] at hc
      rcases hc with hc | hc | hc
      · exact (hm3 _ _).2 (Or.inl (hfull1 c (Or.inl hc) hcf))
      · rcases List.mem_cons.1 hc with hc | hc
        · subst hc; cases hcf
        · rw [List.mem_singleton] at hc
          subst hc
          exact (hm3 _ _).2 (Or.inr ⟨rfl, rfl⟩)
      · exact (hm3 _ _).2 (Or.inl (hfull1 c (Or.inr hc) hcf))
    · refine NoAdj.build hnpre hnpost ?_ (by simp) ?_ ?_
      · unfold NoAdj
        rw [List.chain'_pair]
        exact Or.inl rfl
      · intro p _ y hy
        simp only [List.head?_cons, Option.mem_def, Option.some.injEq] at hy
        subst hy
        exact Or.inr rfl
      · intro x _ n hn
        exact Or.inr (hna n hn)
    · intro c hc hca
      rw [mem_mid_iff] at hc ⊢
      rcases hc with hc | hc | hc
      · exact Or.inl hc
      · rw [List.mem_singleton] at hc
        subst hc
        rw [hfree] at hca; cases hca
      · exact Or.inr (Or.inr hc)
  · -- the whole block is used
    rw [place_eq_whole hgs (by omega) (by omega) (by omega) hle (by omega)]
    obtain ⟨hc2, ht2⟩ := @Core.set_block _ _ _ _ _ _ (b.addr + b.size) true hc1 hl1 hl3 (by omega)
      (by omega) hnot
    simp only [Nat.add_sub_cancel_left] at hc2 ht2
    refine ⟨_, L1, b.size, ⟨hc2, (ht1.trans ht2).epilogue hi.epilogue, ?_, ?_⟩,
      hle, Nat.le_refl _, by simp, ?_, ht1.trans ht2⟩
    · intro c hc hcf
      rw [mem_mid_iff] at hc
      rcases hc with hc | hc | hc
      · exact hfull1 c (Or.inl hc) hcf
      · rw [List.mem_singleton] at hc
        subst hc; cases hcf
      · exact hfull1 c (Or.inr hc) hcf
    · refine NoAdj.build hnpre hnpost (List.chain'_singleton _) (by simp) ?_ ?_
      · intro p _ y hy
        simp only [List.head?_cons, Option.mem_def, Option.some.injEq] at hy
        subst hy
        exact Or.inr rfl
      · intro x hx n _
        simp only [List.getLast?_singleton, Option.mem_def, Option.some.injEq] at hx
        subst hx
        exact Or.inl rfl
    · intro c hc hca
      rw [mem_mid_iff] at hc ⊢
      rcases hc with hc | hc | hc
      · exact Or.inl hc
      · rw [List.mem_singleton] at hc
        subst hc
        rw [hfree] at hca; cases hca
      · exact Or.inr (Or.inr hc)

/-- Both neighbours allocated. -/
theorem coalesce_eq_tt {s : State} {x : Nat} (h0 : get_alloc s x = false)
    (hp : extract_alloc (s.rd (find_prev_footer x)) = true)
    (hn : extract_alloc (s.rd (padd x (get_size s x))) = true) :
    coalesce s x = (x, add_to_free_list (rem_from_free_list s x) x) := by
  unfold coalesce
  simp [h0, hp, hn]

/-- Previous block allocated, next block free. -/
theorem coalesce_eq_tf {s : State} {x : Nat} (h0 : get_alloc s x = false)
    (hp : extract_alloc (s.rd (find_prev_footer x)) = true)
    (hn : extract_alloc (s.rd (padd x (get_size s x))) = false) :
    coalesce s x = (x, add_to_free_list (write_footer (write_header
      (rem_from_free_list (rem_from_free_list s (find_next s x)) x) x
        (padd (get_size s x) (get_size s (find_next s x))) false) (find_next s x)
        (padd (get_size s x) (get_size s (find_next s x))) false) x) := by
  unfold coalesce
  simp [h0, hp, hn]

/-- Previous block free, next block allocated. -/
theorem coalesce_eq_ft {s : State} {x : Nat} (h0 : get_alloc s x = false)
    (hp : extract_alloc (s.rd (find_prev_footer x)) = false)
    (hn : extract_alloc (s.rd (padd x (get_size s x))) = true) :
    coalesce s x = (find_prev s x, add_to_free_list (write_footer (write_header
      (rem_from_free_list (rem_from_free_list s (find_prev s x)) x) (find_prev s x)
        (padd (get_size s x) (get_size s (find_prev s x))) false) x
        (padd (get_size s x) (get_size s (find_prev s x))) false) (find_prev s x)) := by
  unfold coalesce
  simp [h0, hp, hn]

/-- Both neighbours free. -/
theorem coalesce_eq_ff {s : State} {x : Nat} (h0 : get_alloc s x = false)
    (hp : extract_alloc (s.rd (find_prev_footer x)) = false)
    (hn : extract_alloc (s.rd (padd x (get_size s x))) = false) :
    coalesce s x = (find_prev s x, add_to_free_list (write_footer (write_header
      (rem_from_free_list (rem_from_free_list (rem_from_free_list s (find_prev s x))
        (find_next s x)) x) (find_prev s x)
        (padd (padd (get_size s x) (get_size s (find_prev s x))) (get_size s (find_next s x)))
        false) (find_next s x)
        (padd (padd (get_size s x) (get_size s (find_prev s x))) (get_size s (find_next s x)))
        false) (find_prev s x)) := by
  unfold coalesce
  simp [h0, hp, hn]

theorem find_prev_footer_eq {x : Nat} (h1 : 8 ≤ x) (h2 : x < 2^64) :
    find_prev_footer x = x - 8 := psub_eq h1 h2

/-- The word before the first block is the prologue. -/
theorem Heap.prev_nil {s : State} {bs : List Blk} (hh : Heap s bs) {b : Blk} {post : List Blk}
    (hbs : bs = [] ++ [b] ++ post) :
    extract_alloc (s.rd (find_prev_footer b.addr)) = true := by
  have hb : b ∈ bs := by rw [hbs]; simp
  have hbb := hh.bounds hb
  have hl := hh.layout
  rw [hbs] at hl
  have h1 : b.addr = s.heap_start := hl.1
  have := hh.prol
  rw [find_prev_footer_eq (by omega) (by omega)]
  have e : b.addr - 8 = s.heap_prol := by omega
  rw [e, hh.prologue]
  decide

/-- The word before a block with a predecessor is the footer of the predecessor. -/
theorem Heap.prev_snoc {s : State} {bs : List Blk} (hh : Heap s bs) {b p : Blk}
    {pre post : List Blk} (hbs : bs = pre ++ [p] ++ [b] ++ post) :
    p.addr + p.size = b.addr ∧ extract_alloc (s.rd (find_prev_footer b.addr)) = p.alloc
      ∧ find_prev s b.addr = p.addr ∧ MM.get_size s p.addr = p.size := by
  have hb : b ∈ bs := by rw [hbs]; simp
  have hp : p ∈ bs := by rw [hbs]; simp
  have hbb := hh.bounds hb
  have hpb := hh.bounds hp
  have hl := hh.layout
  rw [hbs] at hl
  obtain ⟨m1, hl1, -⟩ := Layout.append.1 hl
  obtain ⟨m2, hl2, hl3⟩ := Layout.append.1 hl1
  have e1 : p.addr + p.size = m2 := hl2.getLast
  have e2 : b.addr = m2 := hl3.1
  have e3 : b.addr - 8 = p.addr + p.size - 8 := by omega
  have hf := hh.rd_footer hp
  refine ⟨by omega, ?_, ?_, hh.get_size hp⟩
  · rw [find_prev_footer_eq (by omega) (by omega), e3, hf, extract_alloc_pack _ (by omega)]
  · unfold find_prev
    rw [find_prev_footer_eq (by omega) (by omega), e3, hf,
      extract_size_pack _ (by omega) (by omega), psub_eq (by omega) (by omega)]
    omega

/-- The word after the last block is the epilogue. -/
theorem Heap.next_nil {s : State} {bs : List Blk} (hh : Heap s bs)
    (he : s.rd s.heap_epil = pack 0 true) {b : Blk} {pre : List Blk}
    (hbs : bs = pre ++ [b] ++ []) :
    extract_alloc (s.rd (padd b.addr (MM.get_size s b.addr))) = true := by
  have hb : b ∈ bs := by rw [hbs]; simp
  have hbb := hh.bounds hb
  have hl := hh.layout
  rw [hbs, List.append_nil] at hl
  have e1 : b.addr + b.size = s.heap_epil := hl.getLast
  rw [hh.get_size hb, padd_eq (by omega), e1, he]
  decide

/-- The word after a block with a successor is the header of the successor. -/
theorem Heap.next_cons {s : State} {bs : List Blk} (hh : Heap s bs) {b n : Blk}
    {pre post : List Blk} (hbs : bs = pre ++ [b] ++ n :: post) :
    b.addr + b.size = n.addr ∧ extract_alloc (s.rd (padd b.addr (MM.get_size s b.addr))) = n.alloc
      ∧ find_next s b.addr = n.addr ∧ MM.get_size s n.addr = n.size := by
  have hb : b ∈ bs := by rw [hbs]; simp
  have hn : n ∈ bs := by rw [hbs]; simp
  have hbb := hh.bounds hb
  have hnb := hh.bounds hn
  have hl := hh.layout
  rw [hbs] at hl
  obtain ⟨m1, hl1, hl2⟩ := Layout.append.1 hl
  have e1 : b.addr + b.size = m1 := hl1.getLast
  have e2 : n.addr = m1 := hl2.1
  have e3 : padd b.addr b.size = n.addr := by rw [padd_eq (by omega)]; omega
  refine ⟨by omega, ?_, ?_, hh.get_size hn⟩
  · rw [hh.get_size hb, e3, hh.rd_header hn, extract_alloc_pack _ (by omega)]
  · unfold find_next
    rw [hh.get_size hb, e3]

/-- Inserting the free block `m`, which is in no list, completes the invariant when the
other free blocks are listed and both neighbours of `m` are allocated. -/
theorem finish_free {t : State} {L : Nat → List Nat} {pre post : List Blk} {m : Blk}
    (hc : Core t (pre ++ [m] ++ post) L) (he : t.rd t.heap_epil = pack 0 true)
    (hm : m.alloc = false) (hnot : ∀ i, m.addr ∉ L i)
    (hfull : ∀ c, c ∈ pre ∨ c ∈ post → c.alloc = false → c.addr ∈ L (tier c.size))
    (hnpre : NoAdj pre) (hnpost : NoAdj post)
    (hpa : ∀ p ∈ pre.getLast?, p.alloc = true) (hna : ∀ n ∈ post.head?, n.alloc = true) :
    ∃ L', Inv (add_to_free_list t m.addr) (pre ++ [m] ++ post) L'
      ∧ Top t (add_to_free_list t m.addr)
      ∧ L' (tier m.size) = m.addr :: L (tier m.size) := by
  have hmm : m ∈ pre ++ [m] ++ post := by simp
  obtain ⟨L', hc', ht', hm', hhd⟩ := add_block hc hmm hm (hnot _)
  refine ⟨L', ⟨hc', ht'.epilogue he, ?_, ?_⟩, ht', hhd⟩
  · intro c hcm hcf
    rw [mem_mid_iff] at hcm
    rcases hcm with h | h | h
    · exact (hm' _ _).2 (Or.inl (hfull c (Or.inl h) hcf))
    · rw [List.mem_singleton] at h
      subst h
      exact (hm' _ _).2 (Or.inr ⟨rfl, rfl⟩)
    · exact (hm' _ _).2 (Or.inl (hfull c (Or.inr h) hcf))
  · refine NoAdj.build hnpre hnpost (List.chain'_singleton _) (by simp) ?_ ?_
    · intro p hp y _
      exact Or.inl (hpa p hp)
    · intro x _ n hn
      exact Or.inr (hna n hn)

theorem Layout.three {a e : Nat} {pre mid post : List Blk}
    (h : Layout a (pre ++ mid ++ post) e) :
    ∃ lo hi, Layout a pre lo ∧ Layout lo mid hi ∧ Layout hi post e := by
  obtain ⟨hi, h1, h3⟩ := Layout.append.1 h
  obtain ⟨lo, h1, h2⟩ := Layout.append.1 h1
  exact ⟨lo, hi, h1, h2, h3⟩

theorem write_footer_eq {s : State} {x sz : Nat} (size : Nat) (al : Bool)
    (hgs : get_size s x = sz) (h1 : 8 ≤ sz) (h2 : x + sz + 8 < 2^64) :
    write_footer s x size al = s.wr (x + sz - 8) (pack size al) := by
  unfold write_footer dsize
  rw [hgs, padd_eq (show x + 8 < 2^64 by omega), padd_eq (show x + 8 + sz < 2^64 by omega),
    psub_eq (by omega) (by omega)]
  have : x + 8 + sz - 16 = x + sz - 8 := by omega
  rw [this]

/-- Blocks below or above a range of blocks keep their list membership when the blocks of
the range are removed from the lists. -/
theorem outside_listed {s : State} {L L' : Nat → List Nat} {pre mid post : List Blk}
    (hc : Core s (pre ++ mid ++ post) L)
    (hfull : ∀ c ∈ pre ++ mid ++ post, c.alloc = false → c.addr ∈ L (tier c.size))
    (hm : ∀ i x, x ∈ L' i ↔ (x ∈ L i ∧ ∀ r ∈ mid, x ≠ r.addr)) :
    ∀ c, c ∈ pre ∨ c ∈ post → c.alloc = false → c.addr ∈ L' (tier c.size) := by
  intro c hcm hcf
  obtain ⟨lo, hi, h1, h2, h3⟩ := hc.heap.layout.three
  have hcm' : c ∈ pre ++ mid ++ post := by
    rw [mem_mid_iff]; tauto
  refine (hm _ _).2 ⟨hfull c hcm' hcf, ?_⟩
  intro r hr hcr
  have hrb := h2.mem hr
  rcases hcm with h | h
  · have := h1.mem h; omega
  · have := h3.mem h; omega

/-- Coalescing a free block whose neighbours are both allocated. -/
theorem coalesce_tt {s : State} {L : Nat → List Nat} {pre post : List Blk} {b : Blk}
    (hc : Core s (pre ++ [b] ++ post) L) (he : s.rd s.heap_epil = pack 0 true)
    (hfree : b.alloc = false)
    (hfull : ∀ c ∈ pre ++ [b] ++ post, c.alloc = false → c.addr ∈ L (tier c.size))
    (hnpre : NoAdj pre) (hnpost : NoAdj post)
    (hp : extract_alloc (s.rd (find_prev_footer b.addr)) = true)
    (hpa : ∀ p ∈ pre.getLast?, p.alloc = true)
    (hn : extract_alloc (s.rd (padd b.addr (get_size s b.addr))) = true)
    (hna : ∀ n ∈ post.head?, n.alloc = true) :
    Merged s (pre ++ [b] ++ post) b (coalesce s b.addr) := by
  have hb : b ∈ pre ++ [b] ++ post := by simp
  have hbb := hc.heap.bounds hb
  have h0 : get_alloc s b.addr = false := by rw [hc.heap.get_alloc hb, hfree]
  rw [coalesce_eq_tt h0 hp hn]
  obtain ⟨L1, hc1, ht1, hm1⟩ := rem_block hc hb (hfull b hb hfree)
  have hm1' : ∀ i x, x ∈ L1 i ↔ (x ∈ L i ∧ ∀ r ∈ [b], x ≠ r.addr) := by
    intro i x; rw [hm1]; simp
  obtain ⟨L2, hi2, ht2, -⟩ := finish_free hc1 (ht1.epilogue he) hfree
    (fun i hx => ((hm1 i _).1 hx).2 rfl) (outside_listed hc hfull hm1') hnpre hnpost hpa hna
  exact ⟨_, L2, b, hi2, hb, rfl, hfree, Nat.le_refl _, Nat.le_refl _, fun c hcm _ => hcm,
    ht1.trans ht2⟩

/-- Coalescing a free block with its free successor. -/
theorem coalesce_tf {s : State} {L : Nat → List Nat} {pre post : List Blk} {b n : Blk}
    (hc : Core s (pre ++ [b] ++ n :: post) L) (he : s.rd s.heap_epil = pack 0 true)
    (hfree : b.alloc = false) (hnf : n.alloc = false)
    (hfull : ∀ c ∈ pre ++ [b] ++ n :: post, c.alloc = false → c.addr ∈ L (tier c.size))
    (hnpre : NoAdj pre) (hnpost : NoAdj (n :: post))
    (hp : extract_alloc (s.rd (find_prev_footer b.addr)) = true)
    (hpa : ∀ p ∈ pre.getLast?, p.alloc = true) :
    Merged s (pre ++ [b] ++ n :: post) b (coalesce s b.addr) := by
  have hb : b ∈ pre ++ [b] ++ n :: post := by simp
  have hnm : n ∈ pre ++ [b] ++ n :: post := by simp
  have hbb := hc.heap.bounds hb
  have hnb := hc.heap.bounds hnm
  have h0 : get_alloc s b.addr = false := by rw [hc.heap.get_alloc hb, hfree]
  obtain ⟨e1, e2, e3, e4⟩ := hc.heap.next_cons rfl
  rw [hnf] at e2
  rw [coalesce_eq_tf h0 hp e2, e3, e4, hc.heap.get_size hb]
  have hshape : pre ++ [b] ++ n :: post = pre ++ [b, n] ++ post := by simp
  -- the two removals
  obtain ⟨L1, hc1, ht1, hm1⟩ := rem_block hc hnm (hfull n hnm hnf)
  have hb1 : b.addr ∈ L1 (tier b.size) := (hm1 _ _).2 ⟨hfull b hb hfree, by omega⟩
  obtain ⟨L2, hc2, ht2, hm2⟩ := rem_block hc1 hb hb1
  have hm2' : ∀ i x, x ∈ L2 i ↔ (x ∈ L i ∧ ∀ r ∈ [b, n], x ≠ r.addr) := by
    intro i x; rw [hm2, hm1]; simp; tauto
  -- the new tags
  rw [hshape] at hc hc2 hfull
  obtain ⟨lo, hi, hl1, hl2, hl3⟩ := hc2.heap.layout.three
  have hlo : lo = b.addr := hl2.1.symm
  have hhi : n.addr + n.size = hi := by
    have := hl2.2.2.2
    exact this.2.2.2.symm ▸ (by rw [hlo]; omega)
  subst hlo
  have hgs : get_size ((rem_from_free_list (rem_from_free_list s n.addr) b.addr).wr b.addr
      (pack (padd b.size n.size) false)) n.addr = n.size := by
    rw [get_size_wr_sep _ _ (by omega)]
    exact hc2.heap.get_size (by simp)
  unfold write_header
  rw [write_footer_eq _ _ hgs (by omega) (by omega), padd_eq (by omega)]
  have hnot : ∀ c ∈ [b, n], ∀ i, c.addr ∉ L2 i := by
    intro c hcm i hx
    exact ((hm2' i _).1 hx).2 c hcm rfl
  obtain ⟨hc3, ht3⟩ := hc2.set_block false hl1 hl3 (by omega) (by omega) hnot
  have etot : hi - b.addr = b.size + n.size := by omega
  have eft : hi - 8 = n.addr + n.size - 8 := by omega
  rw [etot, eft] at hc3 ht3
  have hna : ∀ x ∈ post.head?, x.alloc = true := by
    intro x hx
    unfold NoAdj at hnpost
    have := (List.chain'_cons'.1 hnpost).1 x hx
    rw [hnf] at this
    simpa using this
  obtain ⟨L3, hi3, ht4, -⟩ := finish_free (m := ⟨b.addr, b.size + n.size, false⟩) hc3
    (((ht1.trans ht2).trans ht3).epilogue he) rfl
    (fun i hx => ((hm2' i _).1 hx).2 b (by simp) rfl) (outside_listed hc hfull hm2') hnpre
    (List.chain'_cons'.1 hnpost).2 hpa hna
  refine ⟨_, L3, ⟨b.addr, b.size + n.size, false⟩, hi3, by simp, rfl, rfl, Nat.le_refl _,
    by show b.addr + b.size ≤ b.addr + (b.size + n.size); omega, ?_,
    ((ht1.trans ht2).trans ht3).trans ht4⟩
  intro c hcm hca
  rw [hshape, mem_mid_iff] at hcm
  rw [mem_mid_iff]
  rcases hcm with h | h | h
  · exact Or.inl h
  · simp only [List.mem_cons, List.mem_singleton, List.not_mem_nil, or_false] at h
    rcases h with h | h
    · subst h; rw [hfree] at hca; cases hca
    · subst h; rw [hnf] at hca; cases hca
  · exact Or.inr (Or.inr h)

theorem NoAdj.before_free {pre : List Blk} {p : Blk} (h : NoAdj (pre ++ [p]))
    (hp : p.alloc = false) : NoAdj pre ∧ ∀ q ∈ pre.getLast?, q.alloc = true := by
  unfold NoAdj at *
  have h1 := List.chain'_append.1 h
  refine ⟨h1.1, fun q hq => ?_⟩
  have := h1.2.2 q hq p rfl
  rw [hp] at this
  simpa using this

theorem NoAdj.after_free {post : List Blk} {n : Blk} (h : NoAdj (n :: post))
    (hn : n.alloc = false) : NoAdj post ∧ ∀ q ∈ post.head?, q.alloc = true := by
  unfold NoAdj at *
  have h1 := List.chain'_cons'.1 h
  refine ⟨h1.2, fun q hq => ?_⟩
  have := h1.1 q hq
  rw [hn] at this
  simpa using this

/-- Coalescing a free block with its free predecessor. -/
theorem coalesce_ft {s : State} {L : Nat → List Nat} {pre post : List Blk} {b p : Blk}
    (hc : Core s (pre ++ [p] ++ [b] ++ post) L) (he : s.rd s.heap_epil = pack 0 true)
    (hfree : b.alloc = false) (hpf : p.alloc = false)
    (hfull : ∀ c ∈ pre ++ [p] ++ [b] ++ post, c.alloc = false → c.addr ∈ L (tier c.size))
    (hnpre : NoAdj (pre ++ [p])) (hnpost : NoAdj post)
    (hn : extract_alloc (s.rd (padd b.addr (get_size s b.addr))) = true)
    (hna : ∀ n ∈ post.head?, n.alloc = true) :
    Merged s (pre ++ [p] ++ [b] ++ post) b (coalesce s b.addr) := by
  have hb : b ∈ pre ++ [p] ++ [b] ++ post := by simp
  have hpm : p ∈ pre ++ [p] ++ [b] ++ post := by simp
  have hbb := hc.heap.bounds hb
  have hpb := hc.heap.bounds hpm
  have h0 : get_alloc s b.addr = false := by rw [hc.heap.get_alloc hb, hfree]
  obtain ⟨e1, e2, e3, e4⟩ := hc.heap.prev_snoc rfl
  rw [hpf] at e2
  rw [coalesce_eq_ft h0 e2 hn, e3, e4, hc.heap.get_size hb]
  have hshape : pre ++ [p] ++ [b] ++ post = pre ++ [p, b] ++ post := by simp
  obtain ⟨L1, hc1, ht1, hm1⟩ := rem_block hc hpm (hfull p hpm hpf)
  have hb1 : b.addr ∈ L1 (tier b.size) := (hm1 _ _).2 ⟨hfull b hb hfree, by omega⟩
  obtain ⟨L2, hc2, ht2, hm2⟩ := rem_block hc1 hb hb1
  have hm2' : ∀ i x, x ∈ L2 i ↔ (x ∈ L i ∧ ∀ r ∈ [p, b], x ≠ r.addr) := by
    intro i x; rw [hm2, hm1]; simp; tauto
  rw [hshape] at hc hc2 hfull
  obtain ⟨lo, hi, hl1, hl2, hl3⟩ := hc2.heap.layout.three
  have hlo : lo = p.addr := hl2.1.symm
  have hhi : b.addr + b.size = hi := by
    have := hl2.2.2.2
    exact this.2.2.2.symm ▸ (by rw [hlo]; omega)
  subst hlo
  have hgs : get_size ((rem_from_free_list (rem_from_free_list s p.addr) b.addr).wr p.addr
      (pack (padd b.size p.size) false)) b.addr = b.size := by
    rw [get_size_wr_sep _ _ (by omega)]
    exact hc2.heap.get_size (by simp)
  unfold write_header
  rw [write_footer_eq _ _ hgs (by omega) (by omega), padd_eq (by omega)]
  have hnot : ∀ c ∈ [p, b], ∀ i, c.addr ∉ L2 i := by
    intro c hcm i hx
    exact ((hm2' i _).1 hx).2 c hcm rfl
  obtain ⟨hc3, ht3⟩ := hc2.set_block false hl1 hl3 (by omega) (by omega) hnot
  have etot : hi - p.addr = b.size + p.size := by omega
  have eft : hi - 8 = b.addr + b.size - 8 := by omega
  rw [etot, eft] at hc3 ht3
  obtain ⟨hnpre', hpa⟩ := hnpre.before_free hpf
  obtain ⟨L3, hi3, ht4, -⟩ := finish_free (m := ⟨p.addr, b.size + p.size, false⟩) hc3
    (((ht1.trans ht2).trans ht3).epilogue he) rfl
    (fun i hx => ((hm2' i _).1 hx).2 p (by simp) rfl) (outside_listed hc hfull hm2') hnpre'
    hnpost hpa hna
  refine ⟨_, L3, ⟨p.addr, b.size + p.size, false⟩, hi3, by simp, rfl, rfl,
    by show p.addr ≤ b.addr; omega,
    by show b.addr + b.size ≤ p.addr + (b.size + p.size); omega, ?_,
    ((ht1.trans ht2).trans ht3).trans ht4⟩
  intro c hcm hca
  rw [hshape, mem_mid_iff] at hcm
  rw [mem_mid_iff]
  rcases hcm with h | h | h
  · exact Or.inl h
  · simp only [List.mem_cons, List.mem_singleton, List.not_mem_nil, or_false] at h
    rcases h with h | h
    · subst h; rw [hpf] at hca; cases hca
    · subst h; rw [hfree] at hca; cases hca
  · exact Or.inr (Or.inr h)

/-- Coalescing a free block with its free predecessor and its free successor. -/
theorem coalesce_ff {s : State} {L : Nat → List Nat} {pre post : List Blk} {b p n : Blk}
    (hc : Core s (pre ++ [p] ++ [b] ++ n :: post) L) (he : s.rd s.heap_epil = pack 0 true)
    (hfree : b.alloc = false) (hpf : p.alloc = false) (hnf : n.alloc = false)
    (hfull : ∀ c ∈ pre ++ [p] ++ [b] ++ n :: post, c.alloc = false
      → c.addr ∈ L (tier c.size))
    (hnpre : NoAdj (pre ++ [p])) (hnpost : NoAdj (n :: post)) :
    Merged s (pre ++ [p] ++ [b] ++ n :: post) b (coalesce s b.addr) := by
  have hb : b ∈ pre ++ [p] ++ [b] ++ n :: post := by simp
  have hpm : p ∈ pre ++ [p] ++ [b] ++ n :: post := by simp
  have hnm : n ∈ pre ++ [p] ++ [b] ++ n :: post := by simp
  have hbb := hc.heap.bounds hb
  have hpb := hc.heap.bounds hpm
  have hnb := hc.heap.bounds hnm
  have h0 : get_alloc s b.addr = false := by rw [hc.heap.get_alloc hb, hfree]
  obtain ⟨e1, e2, e3, e4⟩ := hc.heap.prev_snoc rfl
  obtain ⟨f1, f2, f3, f4⟩ := hc.heap.next_cons rfl
  rw [hpf] at e2
  rw [hnf] at f2
  rw [coalesce_eq_ff h0 e2 f2, e3, e4, f3, f4, hc.heap.get_size hb]
  have hshape : pre ++ [p] ++ [b] ++ n :: post = pre ++ [p, b, n] ++ post := by simp
  obtain ⟨L1, hc1, ht1, hm1⟩ := rem_block hc hpm (hfull p hpm hpf)
  have hn1 : n.addr ∈ L1 (tier n.size) := (hm1 _ _).2 ⟨hfull n hnm hnf, by omega⟩
  obtain ⟨L2, hc2, ht2, hm2⟩ := rem_block hc1 hnm hn1
  have hb2 : b.addr ∈ L2 (tier b.size) :=
    (hm2 _ _).2 ⟨(hm1 _ _).2 ⟨hfull b hb hfree, by omega⟩, by omega⟩
  obtain ⟨L3, hc3, ht3, hm3⟩ := rem_block hc2 hb hb2
  have hm3' : ∀ i x, x ∈ L3 i ↔ (x ∈ L i ∧ ∀ r ∈ [p, b, n], x ≠ r.addr) := by
    intro i x; rw [hm3, hm2, hm1]; simp; tauto
  rw [hshape] at hc hc3 hfull
  obtain ⟨lo, hi, hl1, hl2, hl3⟩ := hc3.heap.layout.three
  have hlo : lo = p.addr := hl2.1.symm
  have hhi : n.addr + n.size = hi := by
    have := hl2.2.2.2.2.2.2
    exact this.2.2.2.symm ▸ (by rw [hlo]; omega)
  subst hlo
  have hgs : get_size ((rem_from_free_list (rem_from_free_list (rem_from_free_list s p.addr)
      n.addr) b.addr).wr p.addr (pack (padd (padd b.size p.size) n.size) false)) n.addr
      = n.size := by
    rw [get_size_wr_sep _ _ (by omega)]
    exact hc3.heap.get_size (by simp)
  unfold write_header
  rw [write_footer_eq _ _ hgs (by omega) (by omega), padd_eq (show b.size + p.size < 2^64 by omega),
    padd_eq (by omega)]
  have hnot : ∀ c ∈ [p, b, n], ∀ i, c.addr ∉ L3 i := by
    intro c hcm i hx
    exact ((hm3' i _).1 hx).2 c hcm rfl
  obtain ⟨hc4, ht4⟩ := hc3.set_block false hl1 hl3 (by omega) (by omega) hnot
  have etot : hi - p.addr = b.size + p.size + n.size := by omega
  have eft : hi - 8 = n.addr + n.size - 8 := by omega
  rw [etot, eft] at hc4 ht4
  obtain ⟨hnpre', hpa⟩ := hnpre.before_free hpf
  obtain ⟨hnpost', hna⟩ := hnpost.after_free hnf
  obtain ⟨L4, hi4, ht5, -⟩ := finish_free (m := ⟨p.addr, b.size + p.size + n.size, false⟩) hc4
    ((((ht1.trans ht2).trans ht3).trans ht4).epilogue he) rfl
    (fun i hx => ((hm3' i _).1 hx).2 p (by simp) rfl) (outside_listed hc hfull hm3') hnpre'
    hnpost' hpa hna
  refine ⟨_, L4, ⟨p.addr, b.size + p.size + n.size, false⟩, hi4, by simp, rfl, rfl,
    by show p.addr ≤ b.addr; omega,
    by show b.addr + b.size ≤ p.addr + (b.size + p.size + n.size); omega, ?_,
    (((ht1.trans ht2).trans ht3).trans ht4).trans ht5⟩
  intro c hcm hca
  rw [hshape, mem_mid_iff] at hcm
  rw [mem_mid_iff]
  rcases hcm with h | h | h
  · exact Or.inl h
  · simp only [List.mem_cons, List.mem_singleton, List.not_mem_nil, or_false] at h
    rcases h with h | h | h
    · subst h; rw [hpf] at hca; cases hca
    · subst h; rw [hfree] at hca; cases hca
    · subst h; rw [hnf] at hca; cases hca
  · exact Or.inr (Or.inr h)

/-- `coalesce` on a free, listed block restores the invariant. -/
theorem coalesce_spec {s : State} {L : Nat → List Nat} {pre post : List Blk} {b : Blk}
    (hc : Core s (pre ++ [b] ++ post) L) (he : s.rd s.heap_epil = pack 0 true)
    (hfree : b.alloc = false)
    (hfull : ∀ c ∈ pre ++ [b] ++ post, c.alloc = false → c.addr ∈ L (tier c.size))
    (hnpre : NoAdj pre) (hnpost : NoAdj post) :
    Merged s (pre ++ [b] ++ post) b (coalesce s b.addr) := by
  -- the previous block is allocated or absent, or it is free
  have hprev : (extract_alloc (s.rd (find_prev_footer b.addr)) = true
      ∧ ∀ p ∈ pre.getLast?, p.alloc = true)
      ∨ ∃ pre' p, pre = pre' ++ [p] ∧ p.alloc = false := by
    rcases List.eq_nil_or_concat pre with h | ⟨pre', p, h⟩
    · subst h
      exact Or.inl ⟨hc.heap.prev_nil rfl, fun p hp => by cases hp⟩
    · rw [List.concat_eq_append] at h
      subst h
      cases hpa : p.alloc with
      | true =>
        left
        obtain ⟨-, e2, -, -⟩ := hc.heap.prev_snoc rfl
        refine ⟨e2.trans hpa, fun q hq => ?_⟩
        rw [List.getLast?_append_of_ne_nil _ (by simp)] at hq
        simp only [List.getLast?_singleton, Option.mem_def, Option.some.injEq] at hq
        subst hq
        exact hpa
      | false => exact Or.inr ⟨pre', p, rfl, hpa⟩
  have hnext : (extract_alloc (s.rd (padd b.addr (get_size s b.addr))) = true
      ∧ ∀ n ∈ post.head?, n.alloc = true)
      ∨ ∃ n post', post = n :: post' ∧ n.alloc = false := by
    cases post with
    | nil => exact Or.inl ⟨hc.heap.next_nil he rfl, fun p hp => by cases hp⟩
    | cons n post' =>
      cases hna : n.alloc with
      | true =>
        left
        obtain ⟨-, e2, -, -⟩ := hc.heap.next_cons rfl
        refine ⟨e2.trans hna, fun q hq => ?_⟩
        simp only [List.head?_cons, Option.mem_def, Option.some.injEq] at hq
        subst hq
        exact hna
      | false => exact Or.inr ⟨n, post', rfl, hna⟩
  rcases hprev with ⟨hp, hpa⟩ | ⟨pre', p, rfl, hpf⟩
  · rcases hnext with ⟨hn, hna⟩ | ⟨n, post', rfl, hnf⟩
    · exact coalesce_tt hc he hfree hfull hnpre hnpost hp hpa hn hna
    · exact coalesce_tf hc he hfree hnf hfull hnpre hnpost hp hpa
  · rcases hnext with ⟨hn, hna⟩ | ⟨n, post', rfl, hnf⟩
    · exact coalesce_ft hc he hfree hpf hfull hnpre hnpost hn hna
    · exact coalesce_ff hc he hfree hpf hnf hfull hnpre hnpost

/-- An allocated block is in no free list. -/
theorem Core.alloc_unlisted {s : State} {bs : List Blk} {L : Nat → List Nat}
    (hc : Core s bs L) {b : Blk} (hb : b ∈ bs) (ha : b.alloc = true) (i : Nat) :
    b.addr ∉ L i := by
  intro hx
  obtain ⟨c, hcm, hca, hcf, -⟩ := hc.lists.nodes i _ hx
  have := hc.heap.layout.addr_inj hcm hb hca
  subst this
  rw [ha] at hcf
  cases hcf

/-- The state after `free` of the payload pointer of a block. -/
theorem free_eq {s : State} {x sz : Nat} (hgs : get_size s x = sz) (h16 : sz % 16 = 0)
    (h32 : 32 ≤ sz) (hx : x + sz + 8 < 2^64) :
    free s (x + 8) = (coalesce (add_to_free_list ((s.wr x (pack sz false)).wr (x + sz - 8)
      (pack sz false)) x) x).2 := by
  have e0 : payload_to_header (x + 8) = x := by
    unfold payload_to_header
    rw [psub_eq (by omega) (by omega)]
    omega
  have e1 : get_size (s.wr x (pack sz false)) x = sz := get_size_wr_same _ _ _ h16 (by omega)
  unfold free
  rw [if_neg (by unfold NULL; omega)]
  simp only [e0, hgs]
  unfold write_header
  rw [write_footer_eq _ _ e1 (by omega) (by omega)]

theorem free_spec {s : State} {bs : List Blk} {L : Nat → List Nat} (hi : Inv s bs L)
    {b : Blk} (hb : b ∈ bs) (ha : b.alloc = true) :
    ∃ bs' L', Inv (free s (b.addr + 8)) bs' L'
      ∧ (∀ c ∈ bs, c.alloc = true → c ≠ b → c ∈ bs')
      ∧ Top s (free s (b.addr + 8)) := by
  have hbb := hi.core.heap.bounds hb
  obtain ⟨pre, post, hbs, hl1, hl3⟩ := hi.core.heap.layout.split hb
  have hbs' : bs = pre ++ [b] ++ post := by rw [hbs]; simp
  subst hbs'
  rw [free_eq (hi.core.heap.get_size hb) (by omega) (by omega) (by omega)]
  have hnot : ∀ c ∈ [b], ∀ i, c.addr ∉ L i := by
    intro c hc i
    rw [List.mem_singleton] at hc
    subst hc
    exact hi.core.alloc_unlisted hb ha i
  obtain ⟨hc2, ht2⟩ := @Core.set_block _ _ _ _ _ _ (b.addr + b.size) false hi.core hl1 hl3 (by omega)
    (by omega) hnot
  simp only [Nat.add_sub_cancel_left] at hc2 ht2
  have hb' : (⟨b.addr, b.size, false⟩ : Blk) ∈ pre ++ [⟨b.addr, b.size, false⟩] ++ post := by
    simp
  obtain ⟨L1, hc3, ht3, hm3, -⟩ := add_block hc2 hb' rfl (hi.core.alloc_unlisted hb ha _)
  obtain ⟨hnpre, -, hnpost⟩ := hi.noadj.parts
  have hfull : ∀ c ∈ pre ++ [⟨b.addr, b.size, false⟩] ++ post, c.alloc = false
      → c.addr ∈ L1 (tier c.size) := by
    intro c hcm hcf
    rw [mem_mid_iff] at hcm
    rcases hcm with h | h | h
    · exact (hm3 _ _).2 (Or.inl (hi.full c (by rw [mem_mid_iff]; exact Or.inl h) hcf))
    · rw [List.mem_singleton] at h
      subst h
      exact (hm3 _ _).2 (Or.inr ⟨rfl, rfl⟩)
    · exact (hm3 _ _).2 (Or.inl (hi.full c (by rw [mem_mid_iff]; exact Or.inr (Or.inr h)) hcf))
  obtain ⟨bs', L', m, hinv, -, -, -, -, -, hkeep, ht4⟩ :=
    coalesce_spec hc3 ((ht2.trans ht3).epilogue hi.epilogue) rfl hfull hnpre hnpost
  refine ⟨bs', L', hinv, ?_, (ht2.trans ht3).trans ht4⟩
  intro c hcm hca hne
  refine hkeep c ?_ hca
  rw [mem_mid_iff] at hcm ⊢
  rcases hcm with h | h | h
  · exact Or.inl h
  · rw [List.mem_singleton] at h
    exact absurd h hne
  · exact Or.inr (Or.inr h)

/-- The heap after growing by `size` bytes and formatting the new range as one free block:
`t` is `s` with `mem_brk` and `heap_epil` advanced and the two tags written. -/
theorem Core.extend {s t : State} {bs : List Blk} {L : Nat → List Nat} (hc : Core s bs L)
    {size : Nat} (h32 : 32 ≤ size) (h16 : size % 16 = 0)
    (hok : s.mem_brk + size ≤ s.mem_max_addr)
    (e1 : t.mem = store64 (store64 s.mem s.heap_epil (pack size false))
      (s.heap_epil + size - 8) (pack size false))
    (e2 : t.mem_start_brk = s.mem_start_brk) (e3 : t.mem_brk = s.mem_brk + size)
    (e4 : t.mem_max_addr = s.mem_max_addr) (e5 : t.heap_start = s.heap_start)
    (e6 : t.heap_prol = s.heap_prol) (e7 : t.heap_epil = s.heap_epil + size)
    (e8 : t.all_free_list_start = s.all_free_list_start)
    (e9 : t.all_free_list_end = s.all_free_list_end) :
    Core t (bs ++ [⟨s.heap_epil, size, false⟩]) L := by
  have hh := hc.heap
  have hl := hc.lists
  have hbrk := hh.brk
  have hlim := hh.lim64
  have hprol := hh.prol
  have hle := hh.layout.le
  have hv : pack size false < 2^64 := pack_lt false h16 (by omega)
  have hrd : ∀ a, a + 8 ≤ s.heap_epil → load64 t.mem a = load64 s.mem a := by
    intro a ha
    rw [e1, load64_store64_sep _ (by omega), load64_store64_sep _ (by omega)]
  refine ⟨⟨?_, ?_, ?_, ?_, ?_, ?_, ?_, ?_⟩, ⟨?_, ?_, ?_, hl.nodup, ?_⟩⟩
  · rw [e6, e5]; exact hh.prol
  · rw [e2, e6]; exact hh.brk0
  · rw [e7, e3]; omega
  · rw [e3, e4]; exact hok
  · rw [e4]; exact hh.lim64
  · rw [e5, e7]
    exact Layout.append.2 ⟨s.heap_epil, hh.layout, rfl, h32, h16, rfl⟩
  · show load64 t.mem t.heap_prol = _
    rw [e6]
    exact (hrd _ (by omega)).trans hh.prologue
  · intro b hb
    rcases List.mem_append.1 hb with hb | hb
    · have := hh.bounds hb
      exact ⟨(hrd _ (by omega)).trans (hh.tags b hb).1,
        (hrd _ (by omega)).trans (hh.tags b hb).2⟩
    · rw [List.mem_singleton] at hb
      subst hb
      constructor
      · show load64 t.mem s.heap_epil = _
        rw [e1, load64_store64_sep _ (by omega), load64_store64_same]
        exact Nat.mod_eq_of_lt hv
      · show load64 t.mem (s.heap_epil + size - 8) = _
        rw [e1, load64_store64_same]
        exact Nat.mod_eq_of_lt hv
  · intro i
    refine (hl.links i).congr ?_
    intro x hx
    have := hl.node_bounds hh hx
    exact ⟨hrd _ (by omega), hrd _ (by omega)⟩
  · intro i; rw [e8]; exact hl.heads i
  · intro i; rw [e9]; exact hl.tails i
  · intro i x hx
    obtain ⟨c, hcm, h⟩ := hl.nodes i x hx
    exact ⟨c, List.mem_append_left _ hcm, h⟩

/-- Writing the epilogue header keeps the structural invariant. -/
theorem Core.wr_epil {s : State} {bs : List Blk} {L : Nat → List Nat} (hc : Core s bs L)
    (v : Nat) : Core (s.wr s.heap_epil v) bs L := by
  have hh := hc.heap
  have hl := hc.lists
  have hprol := hh.prol
  have hle := hh.layout.le
  refine ⟨⟨hh.prol, hh.brk0, hh.brk, hh.lim, hh.lim64, hh.layout, ?_, ?_⟩, ⟨?_, hl.heads,
    hl.tails, hl.nodup, hl.nodes⟩⟩
  · rw [rd_wr_sep _ _ (by simp only [wr_heap_prol]; omega)]
    exact hh.prologue
  · intro b hb
    have := hh.bounds hb
    rw [rd_wr_sep _ _ (by omega), rd_wr_sep _ _ (by omega)]
    exact hh.tags b hb
  · intro i
    refine (hl.links i).congr ?_
    intro x hx
    have := hl.node_bounds hh hx
    exact ⟨load64_store64_sep _ (by omega), load64_store64_sep _ (by omega)⟩

theorem extend_heap_fail {s : State} {size0 : Nat}
    (hfail : s.mem_brk + round_up size0 dsize > s.mem_max_addr) :
    extend_heap s size0 = (NULL, s) := by
  unfold extend_heap mem_sbrk
  simp only [if_pos hfail, if_true]

theorem extend_heap_eq {s : State} {size0 size : Nat} (hsz : round_up size0 dsize = size)
    (hok : ¬ s.mem_brk + size > s.mem_max_addr) (hbrk : s.heap_epil + 8 = s.mem_brk)
    (hlt : s.mem_brk + size < 2^64) (h16 : size % 16 = 0) (h32 : 32 ≤ size)
    (hgs : get_size (add_to_free_list (grown s size) s.heap_epil) s.heap_epil = size) :
    extend_heap s size0 = coalesce ((add_to_free_list (grown s size) s.heap_epil).wr
      (s.heap_epil + size) (pack 0 true)) s.heap_epil := by
  have e0 : ¬ (s.mem_brk = SBRK_FAIL) := by unfold SBRK_FAIL; omega
  have e1 : payload_to_header s.mem_brk = s.heap_epil := by
    unfold payload_to_header
    rw [psub_eq (by omega) (by omega)]
    omega
  have e2 : padd s.heap_epil size = s.heap_epil + size := padd_eq (by omega)
  have e3 : get_size (write_header ((s.setBrk (s.mem_brk + size)).setEpil
      (s.heap_epil + size)) s.heap_epil size false) s.heap_epil = size :=
    get_size_wr_same _ _ _ h16 (by omega)
  have e4 : write_footer (write_header ((s.setBrk (s.mem_brk + size)).setEpil
      (s.heap_epil + size)) s.heap_epil size false) s.heap_epil size false
      = grown s size := by
    rw [write_footer_eq _ _ e3 (by omega) (by omega)]
    rfl
  have e5 : (s.setBrk (s.mem_brk + size)).heap_epil = s.heap_epil := rfl
  unfold extend_heap mem_sbrk
  simp only [hsz, if_neg hok, if_neg e0, e1, e5, e2, e4]
  unfold find_next
  rw [hgs, e2]
  rfl

theorem extend_heap_spec {s : State} {bs : List Blk} {L : Nat → List Nat} (hi : Inv s bs L)
    {size0 size : Nat} (hsz : round_up size0 dsize = size) (h32 : 32 ≤ size)
    (h16 : size % 16 = 0) (hok : s.mem_brk + size ≤ s.mem_max_addr) :
    ∃ bs' L' m, Inv (extend_heap s size0).2 bs' L' ∧ m ∈ bs' ∧ m.addr = (extend_heap s size0).1
      ∧ m.alloc = false ∧ size ≤ m.size ∧ (∀ c ∈ bs, c.alloc = true → c ∈ bs') := by
  have hh := hi.core.heap
  have hbrk := hh.brk
  have hlim := hh.lim64
  have hc1 : Core (grown s size) (bs ++ [⟨s.heap_epil, size, false⟩]) L :=
    hi.core.extend h32 h16 hok rfl rfl rfl rfl rfl rfl rfl rfl rfl
  generalize hnbd : (⟨s.heap_epil, size, false⟩ : Blk) = nb at hc1
  have ha : nb.addr = s.heap_epil := by rw [← hnbd]
  have hs : nb.size = size := by rw [← hnbd]
  have hf : nb.alloc = false := by rw [← hnbd]
  have hnb : nb ∈ bs ++ [nb] := by simp
  have hnl : ∀ i, nb.addr ∉ L i := by
    intro i hx
    have := hi.core.lists.node_bounds hh hx
    omega
  obtain ⟨L1, hc2, ht2, hm2, -⟩ := add_block hc1 hnb hf (hnl _)
  have hgs := hc2.heap.get_size hnb
  rw [ha, hs] at hgs
  rw [extend_heap_eq hsz (by omega) hbrk (by omega) h16 h32 hgs]
  rw [ha] at hc2 ht2
  have hep2 : (add_to_free_list (grown s size) s.heap_epil).heap_epil = s.heap_epil + size :=
    ht2.1
  have hc3 := hc2.wr_epil (pack 0 true)
  rw [hep2] at hc3
  have he3 : ((add_to_free_list (grown s size) s.heap_epil).wr (s.heap_epil + size)
      (pack 0 true)).rd ((add_to_free_list (grown s size) s.heap_epil).wr (s.heap_epil + size)
      (pack 0 true)).heap_epil = pack 0 true := by
    rw [wr_heap_epil, hep2]
    exact rd_wr_same _ _ _ (by decide)
  have hfull : ∀ c ∈ bs ++ [nb] ++ [], c.alloc = false → c.addr ∈ L1 (tier c.size) := by
    intro c hcm hcf
    rw [List.append_nil] at hcm
    rcases List.mem_append.1 hcm with h | h
    · exact (hm2 _ _).2 (Or.inl (hi.full c h hcf))
    · rw [List.mem_singleton] at h
      subst h
      exact (hm2 _ _).2 (Or.inr ⟨rfl, rfl⟩)
  have hc3' : Core ((add_to_free_list (grown s size) s.heap_epil).wr (s.heap_epil + size)
      (pack 0 true)) (bs ++ [nb] ++ []) L1 := by
    rw [List.append_nil]; exact hc3
  have hmg := coalesce_spec hc3' he3 hf hfull hi.noadj List.chain'_nil
  rw [ha] at hmg
  obtain ⟨bs', L', m, hinv, hmm, hma, hmf, hm1, hm2', hkeep, -⟩ := hmg
  refine ⟨bs', L', m, hinv, hmm, hma, hmf, ?_, ?_⟩
  · rw [ha, hs] at hm2'
    rw [ha] at hm1
    omega
  · intro c hcm hca
    exact hkeep c (by rw [List.append_nil]; exact List.mem_append_left _ hcm) hca

theorem find_fit_start_cases (s : State) (asize : Nat) :
    find_fit_start s asize = NULL ∨ ∃ i, find_fit_start s asize = s.all_free_list_start i := by
  unfold find_fit_start
  simp only
  split_ifs <;> first | exact Or.inl rfl | exact Or.inr ⟨_, rfl⟩

/-- The scan of `find_fit` returns its initial candidate or a scanned node that fits. -/
theorem find_fit_loop_spec {s : State} {bs : List Blk} (hh : Heap s bs) (asize : Nat)
    (k : Nat) : ∀ (ys : List Nat) (p md mb : Nat), Seg s.mem p ys NULL →
      (∀ y ∈ ys, ∃ c ∈ bs, c.addr = y ∧ c.alloc = false) →
      find_fit_loop s asize k (ys.headD NULL) md mb = mb
        ∨ ∃ c ∈ bs, c.addr = find_fit_loop s asize k (ys.headD NULL) md mb
          ∧ c.alloc = false ∧ asize ≤ c.size := by
  induction k with
  | zero =>
    intro ys p md mb _ _
    left
    unfold find_fit_loop
    rfl
  | succ k ih =>
    intro ys p md mb hseg hnodes
    cases ys with
    | nil =>
      left
      unfold find_fit_loop
      simp
    | cons y ys' =>
      obtain ⟨c, hc, hca, hcf⟩ := hnodes y (List.mem_cons_self _ _)
      have hcb := hh.bounds hc
      have hy0 : ¬ (y = NULL) := by unfold NULL; omega
      rw [Seg.cons_iff] at hseg
      obtain ⟨-, hnx, hrest⟩ := hseg
      have hnf : nextField y = y + 16 := nextField_eq (by omega)
      have hrd : s.rd (nextField y) = ys'.headD NULL := by rw [hnf]; exact hnx
      have hgs : get_size s y = c.size := by rw [← hca]; exact hh.get_size hc
      unfold find_fit_loop
      rw [List.headD_cons, if_neg hy0]
      simp only [hrd, hgs]
      have hrec := ih ys' y
      by_cases hfit : asize ≤ c.size ∧ psub c.size asize < md
      · simp only [hfit, and_self, if_true]
        rcases hrec (psub c.size asize) y hrest
          (fun z hz => hnodes z (List.mem_cons_of_mem _ hz)) with h | h
        · right
          rw [h]
          exact ⟨c, hc, hca, hcf, hfit.1⟩
        · exact Or.inr h
      · simp only [hfit, if_false]
        exact hrec md mb hrest (fun z hz => hnodes z (List.mem_cons_of_mem _ hz))

theorem find_fit_spec {s : State} {bs : List Blk} {L : Nat → List Nat} (hc : Core s bs L)
    (asize : Nat) :
    find_fit s asize = NULL
      ∨ ∃ c ∈ bs, c.addr = find_fit s asize ∧ c.alloc = false ∧ asize ≤ c.size := by
  unfold find_fit
  simp only
  by_cases h0 : find_fit_start s asize = NULL
  · rw [if_pos h0]; exact Or.inl rfl
  · rw [if_neg h0]
    rcases find_fit_start_cases s asize with h | ⟨i, h⟩
    · exact absurd h h0
    · rw [h, hc.lists.heads i]
      refine find_fit_loop_spec hc.heap asize _ (L i) NULL _ NULL (hc.lists.links i) ?_
      intro y hy
      obtain ⟨c, hcm, hca, hcf, -⟩ := hc.lists.nodes i y hy
      exact ⟨c, hcm, hca, hcf⟩

/-- The adjusted size of a request that does not wrap. -/
theorem asize_bounds {size : Nat} (h0 : size ≠ 0) (h : size + 31 < 2^64) :
    round_up (padd size dsize) dsize % 16 = 0 ∧ size + 16 ≤ round_up (padd size dsize) dsize
      ∧ round_up (padd size dsize) dsize ≤ size + 31
      ∧ 32 ≤ round_up (padd size dsize) dsize := by
  unfold round_up padd dsize
  omega

theorem round_up_aligned {n : Nat} (h16 : n % 16 = 0) (h : n < 2^64) :
    round_up n dsize = n := by
  unfold round_up dsize
  omega

theorem max_chunk (a : Nat) : a ≤ max a chunksize ∧ chunksize ≤ max a chunksize
    ∧ (max a chunksize = a ∨ max a chunksize = chunksize) := by
  unfold max chunksize
  split_ifs <;> omega

/-- `malloc` on an initialised heap, for a request size that does not wrap: it fails and
keeps every allocated block, or it returns the payload of an allocated block with room for
the request that is none of the blocks allocated before. -/
theorem malloc_body_spec {s : State} {bs : List Blk} {L : Nat → List Nat} (hi : Inv s bs L)
    {size : Nat} (h : size + 31 < 2^64) :
    ∃ bs' L', Inv (malloc_body s size).2 bs' L' ∧ (∀ c ∈ bs, c.alloc = true → c ∈ bs')
      ∧ ((malloc_body s size).1 = NULL
        ∨ ∃ a sz, (malloc_body s size).1 = a + 8 ∧ (⟨a, sz, true⟩ : Blk) ∈ bs'
          ∧ size + 16 ≤ sz ∧ ∀ c ∈ bs, c.alloc = true → c.addr ≠ a) := by
  by_cases h0 : size = 0
  · refine ⟨bs, L, ?_, fun c hc _ => hc, Or.inl ?_⟩
    · unfold malloc_body; rw [if_pos h0]; exact hi
    · unfold malloc_body; rw [if_pos h0]
  obtain ⟨ha16, halo, hahi, ha32⟩ := asize_bounds h0 h
  have hmb : malloc_body s size = (if find_fit s (round_up (padd size dsize) dsize) = NULL then
      (if (extend_heap s (max (round_up (padd size dsize) dsize) chunksize)).1 = NULL then
        (NULL, (extend_heap s (max (round_up (padd size dsize) dsize) chunksize)).2)
       else (header_to_payload
          (extend_heap s (max (round_up (padd size dsize) dsize) chunksize)).1,
        place (extend_heap s (max (round_up (padd size dsize) dsize) chunksize)).2
          (extend_heap s (max (round_up (padd size dsize) dsize) chunksize)).1
          (round_up (padd size dsize) dsize)))
      else (header_to_payload (find_fit s (round_up (padd size dsize) dsize)),
        place s (find_fit s (round_up (padd size dsize) dsize))
          (round_up (padd size dsize) dsize))) := by
    unfold malloc_body
    rw [if_neg h0]
  generalize round_up (padd size dsize) dsize = asize at ha16 halo hahi ha32 hmb
  rw [hmb]
  rcases find_fit_spec hi.core asize with hff | ⟨c, hc, hca, hcf, hcs⟩
  · -- no fit: the heap is extended
    rw [if_pos hff]
    obtain ⟨hm1, hm2, hm3⟩ := max_chunk asize
    generalize max asize chunksize = ext at hm1 hm2 hm3
    have hext16 : ext % 16 = 0 := by
      unfold chunksize at hm3
      rcases hm3 with h3 | h3 <;> omega
    have hextlt : ext < 2^64 := by
      unfold chunksize at hm3
      rcases hm3 with h3 | h3 <;> omega
    have hru : round_up ext dsize = ext := round_up_aligned hext16 hextlt
    by_cases hok : s.mem_brk + ext ≤ s.mem_max_addr
    · obtain ⟨bs1, L1, m, hinv1, hmm, hma, hmf, hms, hkeep1⟩ :=
        extend_heap_spec hi hru (by unfold chunksize at hm2; omega) hext16 hok
      have hmb1 := hinv1.core.heap.bounds hmm
      rw [← hma]
      rw [if_neg (by unfold NULL; omega)]
      obtain ⟨bs2, L2, sz, hinv2, hsz1, -, hnew, hkeep2, -⟩ :=
        place_spec hinv1 hmm hmf ha32 ha16 (by omega)
      refine ⟨bs2, L2, hinv2, fun c hc hca => hkeep2 c (hkeep1 c hc hca) hca, Or.inr
        ⟨m.addr, sz, ?_, hnew, by omega, ?_⟩⟩
      · exact padd_eq (by omega)
      · intro c hc hca hce
        have := hinv1.core.heap.layout.addr_inj (hkeep1 c hc hca) hmm hce
        subst this
        rw [hca] at hmf
        cases hmf
    · rw [extend_heap_fail (by rw [hru]; omega)]
      rw [if_pos rfl]
      exact ⟨bs, L, hi, fun c hc _ => hc, Or.inl rfl⟩
  · -- a fit was found
    have hcb := hi.core.heap.bounds hc
    rw [← hca]
    rw [if_neg (by unfold NULL; omega)]
    obtain ⟨bs2, L2, sz, hinv2, hsz1, -, hnew, hkeep2, -⟩ :=
      place_spec hi hc hcf ha32 ha16 hcs
    refine ⟨bs2, L2, hinv2, hkeep2, Or.inr ⟨c.addr, sz, ?_, hnew, by omega, ?_⟩⟩
    · exact padd_eq (by omega)
    · intro d hd hda hde
      have := hi.core.heap.layout.addr_inj hd hc hde
      subst this
      rw [hda] at hcf
      cases hcf

/-- The heap that consists of the prologue and the epilogue only. -/
theorem empty_heap_inv {t : State} {m : Nat → Nat} {base limit : Nat}
    (hlim : base + 16 ≤ limit) (h64 : limit < 2^64)
    (e1 : t.mem = store64 (store64 m base (pack 0 true)) (base + 8) (pack 0 true))
    (e2 : t.mem_start_brk = base) (e3 : t.mem_brk = base + 16) (e4 : t.mem_max_addr = limit)
    (e5 : t.heap_start = base + 8) (e6 : t.heap_prol = base) (e7 : t.heap_epil = base + 8)
    (e8 : t.all_free_list_start = fun _ => NULL) (e9 : t.all_free_list_end = fun _ => NULL) :
    Inv t [] (fun _ => []) := by
  refine ⟨⟨⟨?_, ?_, ?_, ?_, ?_, ?_, ?_, ?_⟩, ⟨?_, ?_, ?_, ?_, ?_⟩⟩, ?_, ?_, List.chain'_nil⟩
  · rw [e5, e6]
  · rw [e2, e6]
  · rw [e7, e3]
  · rw [e3, e4]; exact hlim
  · rw [e4]; exact h64
  · rw [e5, e7]; rfl
  · show load64 t.mem t.heap_prol = _
    rw [e1, e6, load64_store64_sep _ (by omega), load64_store64_same]
    decide
  · intro b hb; cases hb
  · intro i; trivial
  · intro i; rw [e8]; rfl
  · intro i; rw [e9]; rfl
  · intro i; exact List.nodup_nil
  · intro i x hx; cases hx
  · show load64 t.mem t.heap_epil = _
    rw [e1, e7, load64_store64_same]
    decide
  · intro b hb; cases hb

theorem clear_free_list_boot (fuel : Nat) (s : State)
    (h : s.all_free_list_start = fun _ => NULL) : clear_free_list fuel s = some s := by
  unfold clear_free_list
  rw [h]
  simp

theorem mm_init_boot_fail (fuel : Nat) (m : Nat → Nat) {base limit : Nat}
    (h : limit < base + 16) :
    mm_init fuel (boot m base limit) = some (false, (boot m base limit).setHeap NULL NULL NULL)
    := by
  have hs : mem_sbrk ((boot m base limit).setHeap NULL NULL NULL) (2 * wsize)
      = (SBRK_FAIL, (boot m base limit).setHeap NULL NULL NULL) := by
    unfold mem_sbrk wsize
    rw [if_pos (by show base + 2 * 8 > limit; omega)]
  have hcl : clear_free_list fuel ((boot m base limit).setHeap NULL NULL NULL)
      = some ((boot m base limit).setHeap NULL NULL NULL) := clear_free_list_boot _ _ rfl
  unfold mm_init
  simp only [hcl, Option.some_bind, hs, if_true]

theorem mm_init_boot_ok (fuel : Nat) (m : Nat → Nat) {base limit : Nat}
    (h : base + 16 ≤ limit) (h64 : limit < 2^64) :
    mm_init fuel (boot m base limit)
      = if (extend_heap (seeded m base limit) chunksize).1 = NULL then
          some (false, (extend_heap (seeded m base limit) chunksize).2)
        else some (true, (extend_heap (seeded m base limit) chunksize).2) := by
  have hs : mem_sbrk ((boot m base limit).setHeap NULL NULL NULL) (2 * wsize)
      = (base, ((boot m base limit).setHeap NULL NULL NULL).setBrk (base + 16)) := by
    unfold mem_sbrk wsize
    rw [if_neg (by show ¬ (base + 2 * 8 > limit); omega)]
    rfl
  have hnf : ¬ (base = SBRK_FAIL) := by unfold SBRK_FAIL; omega
  have hp : padd base 8 = base + 8 := padd_eq (by omega)
  have hsd : (((((boot m base limit).setHeap NULL NULL NULL).setBrk (base + 16)).wr base
      (pack 0 true)).wr (base + 8) (pack 0 true)).setHeap (base + 8) base (base + 8)
      = seeded m base limit := rfl
  have hcl : clear_free_list fuel ((boot m base limit).setHeap NULL NULL NULL)
      = some ((boot m base limit).setHeap NULL NULL NULL) := clear_free_list_boot _ _ rfl
  unfold mm_init
  simp only [hcl, Option.some_bind, hs, if_neg hnf, hp, hsd]

/-- A successful `mm_init` at process start establishes the invariant. -/
theorem mm_init_spec {fuel : Nat} {m : Nat → Nat} {base limit : Nat} {s : State}
    (h64 : limit < 2^64) (h : mm_init fuel (boot m base limit) = some (true, s)) :
    ∃ bs L, Inv s bs L := by
  by_cases hlim : base + 16 ≤ limit
  · rw [mm_init_boot_ok fuel m hlim h64] at h
    have hinv : Inv (seeded m base limit) [] (fun _ => []) :=
      empty_heap_inv (m := m) hlim h64 rfl rfl rfl rfl rfl rfl rfl rfl rfl
    generalize seeded m base limit = t at h hinv
    have hru : round_up chunksize dsize = 4096 := by decide
    by_cases hok : t.mem_brk + 4096 ≤ t.mem_max_addr
    · obtain ⟨bs', L', mb, hi', -, -, -, -, -⟩ :=
        extend_heap_spec hinv hru (by omega) (by omega) hok
      by_cases hn : (extend_heap t chunksize).1 = NULL
      · rw [if_pos hn] at h; cases h
      · rw [if_neg hn] at h
        cases h
        exact ⟨bs', L', hi'⟩
    · rw [extend_heap_fail (by rw [hru]; omega)] at h
      rw [if_pos rfl] at h
      cases h
  · rw [mm_init_boot_fail fuel m (by omega)] at h
    cases h

/-! ## Reachable states -/

theorem Inv.heap_start_ne {s : State} {bs : List Blk} {L : Nat → List Nat} (hi : Inv s bs L) :
    s.heap_start ≠ NULL := by
  have := hi.core.heap.prol
  unfold NULL
  omega

theorem malloc_eq (fuel : Nat) {s : State} (h : s.heap_start ≠ NULL) (n : Nat) :
    malloc fuel s n = some (malloc_body s n) := by
  unfold malloc
  rw [if_neg h]

/-- Every reachable state satisfies the invariant, and the live pointers are the payloads
of distinct allocated blocks. -/
theorem reach_inv {s : State} {live : List (Nat × Nat)} (h : Reach s live) :
    ∃ bs L, Inv s bs L ∧ LiveOK bs live := by
  induction h with
  | init fuel m base limit s h64 hinit =>
    obtain ⟨bs, L, hi⟩ := mm_init_spec h64 hinit
    refine ⟨bs, L, hi, ?_⟩
    unfold LiveOK
    exact ⟨fun e he => absurd he (List.not_mem_nil e), List.nodup_nil⟩
  | malloc fuel s s' live n p _ hn hm hp ih =>
    obtain ⟨bs, L, hi, hlive, hnd⟩ := ih
    rw [malloc_eq fuel hi.heap_start_ne] at hm
    obtain ⟨bs', L', hi', hkeep, hres⟩ := malloc_body_spec hi hn
    have h1 : (malloc_body s n).1 = p := by rw [Option.some.inj hm]
    have h2 : (malloc_body s n).2 = s' := by rw [Option.some.inj hm]
    rw [h1] at hres
    rw [h2] at hi'
    rcases hres with hres | ⟨a, sz, hpa, hnew, hsz, hfresh⟩
    · exact absurd hres hp
    · refine ⟨bs', L', hi', ?_⟩
      unfold LiveOK
      refine ⟨?_, ?_⟩
      · intro e he
        rcases List.mem_cons.1 he with he | he
        · subst he
          exact ⟨_, hnew, rfl, hpa, hsz⟩
        · obtain ⟨c, hc, hca, h3, h4⟩ := hlive e he
          exact ⟨c, hkeep c hc hca, hca, h3, h4⟩
      · rw [List.map_cons, List.nodup_cons]
        refine ⟨?_, hnd⟩
        intro hmem
        obtain ⟨e, he, hep⟩ := List.mem_map.1 hmem
        obtain ⟨c, hc, hca, h3, -⟩ := hlive e he
        have : e.1 = a + 8 := hep.trans hpa
        exact hfresh c hc hca (by omega)
  | malloc_null fuel s s' live n _ hn hm ih =>
    obtain ⟨bs, L, hi, hlive, hnd⟩ := ih
    rw [malloc_eq fuel hi.heap_start_ne] at hm
    obtain ⟨bs', L', hi', hkeep, -⟩ := malloc_body_spec hi hn
    have h2 : (malloc_body s n).2 = s' := by rw [Option.some.inj hm]
    rw [h2] at hi'
    refine ⟨bs', L', hi', ?_⟩
    unfold LiveOK
    refine ⟨?_, hnd⟩
    intro e he
    obtain ⟨c, hc, hca, h3, h4⟩ := hlive e he
    exact ⟨c, hkeep c hc hca, hca, h3, h4⟩
  | free s live p n _ hmem ih =>
    obtain ⟨bs, L, hi, hlive, hnd⟩ := ih
    obtain ⟨b, hb, hba, hbp, -⟩ := hlive (p, n) hmem
    have hbp' : p = b.addr + 8 := hbp
    subst hbp'
    obtain ⟨bs', L', hi', hkeep, -⟩ := free_spec hi hb hba
    refine ⟨bs', L', hi', ?_⟩
    unfold LiveOK
    refine ⟨?_, ?_⟩
    · intro e he
      rw [List.mem_filter] at he
      obtain ⟨c, hc, hca, h3, h4⟩ := hlive e he.1
      refine ⟨c, hkeep c hc hca ?_, hca, h3, h4⟩
      rintro rfl
      have := he.2
      simp only [ne_eq, decide_not, Bool.not_eq_true', decide_eq_false_iff_not] at this
      exact this h3
    · exact hnd.sublist ((List.filter_sublist _).map _)
  | free_null s live _ ih =>
    have : free s NULL = s := by unfold free; rw [if_pos rfl]
    rw [this]
    exact ih

/-! ## The heap walk -/

/-- The walk by block sizes from the start of a suffix of the heap meets only headers of
blocks of that suffix. -/
theorem heap_blocks_sub {s : State} {bs : List Blk} (hh : Heap s bs)
    (he : s.rd s.heap_epil = pack 0 true) (k : Nat) :
    ∀ (a : Nat) (post : List Blk), (∀ b ∈ post, b ∈ bs) → Layout a post s.heap_epil →
      ∀ h ∈ heap_blocks k s a, ∃ b ∈ post, b.addr = h := by
  induction k with
  | zero =>
    intro a post _ _ h hm
    simp [heap_blocks] at hm
  | succ k ih =>
    intro a post hsub hl h hm
    cases post with
    | nil =>
      have ha : a = s.heap_epil := hl
      have hz : MM.get_size s a = 0 := by
        unfold MM.get_size
        rw [ha, he]
        decide
      unfold heap_blocks at hm
      rw [if_neg (by omega)] at hm
      cases hm
    | cons b post =>
      obtain ⟨h1, h2, h3, h4⟩ := hl
      have hb : b ∈ bs := hsub b (List.mem_cons_self _ _)
      have hbb := hh.bounds hb
      have hsz : MM.get_size s a = b.size := by rw [← h1]; exact hh.get_size hb
      have hnx : find_next s a = a + b.size := by
        unfold find_next
        rw [hsz]
        exact padd_eq (by omega)
      unfold heap_blocks at hm
      rw [if_pos (by omega), hnx] at hm
      rcases List.mem_cons.1 hm with hm | hm
      · exact ⟨b, List.mem_cons_self _ _, by omega⟩
      · obtain ⟨c, hc, hca⟩ := ih (a + b.size) post
          (fun c hc => hsub c (List.mem_cons_of_mem _ hc)) h4 h hm
        exact ⟨c, List.mem_cons_of_mem _ hc, hca⟩

/-- With enough fuel the walk from `heap_start` lists the headers of all blocks. -/
theorem heap_blocks_all {s : State} {bs : List Blk} (hh : Heap s bs) :
    ∀ (k a : Nat) (post : List Blk), (∀ b ∈ post, b ∈ bs) → Layout a post s.heap_epil →
      post.length ≤ k → ∀ b ∈ post, b.addr ∈ heap_blocks k s a := by
  intro k
  induction k with
  | zero =>
    intro a post _ _ hlen b hb
    have : post = [] := List.length_eq_zero.1 (by omega)
    rw [this] at hb
    cases hb
  | succ k ih =>
    intro a post hsub hl hlen c hc
    cases post with
    | nil => cases hc
    | cons b post =>
      obtain ⟨h1, h2, h3, h4⟩ := hl
      have hb : b ∈ bs := hsub b (List.mem_cons_self _ _)
      have hbb := hh.bounds hb
      have hsz : MM.get_size s a = b.size := by rw [← h1]; exact hh.get_size hb
      have hnx : find_next s a = a + b.size := by
        unfold find_next
        rw [hsz]
        exact padd_eq (by omega)
      unfold heap_blocks
      rw [if_pos (by omega), hnx]
      rcases List.mem_cons.1 hc with hc | hc
      · rw [hc, h1]; exact List.mem_cons_self _ _
      · exact List.mem_cons_of_mem _ (ih (a + b.size) post
          (fun c hc => hsub c (List.mem_cons_of_mem _ hc)) h4
          (by simp only [List.length_cons] at hlen; omega) c hc)

/-! ## Requests whose adjusted size wraps around `2^64`

`malloc` computes `asize = round_up(size + dsize, dsize)` without an overflow check.  For the
32 largest request sizes the result is `0` or `16`, and `malloc` then returns a non-null
pointer.  The theorems of this section evaluate the code on such requests. -/

/-- C1: `malloc(2^64 - 16)` on a fresh heap.  The adjusted size wraps to `0`, the call returns
the non-null, 16-byte aligned pointer `0x10010`, and the block of that pointer is a free block
of size 8192, far smaller than the request. -/
theorem malloc_wrapped_request :
    round_up (padd (2^64 - 16) dsize) dsize = 0 ∧
    (fresh.bind fun s0 => (malloc 0 s0 (2^64 - 16)).map fun r =>
      (r.1, r.1 % 16, get_size r.2 (payload_to_header r.1),
        get_alloc r.2 (payload_to_header r.1))) = some (65552, 0, 8192, false) := by
  decide

/-- C3: after `mm_init(); a = malloc(64); b = malloc(64); free(a); p = malloc(2^64 - 16);
free(p); malloc(100)` the third free list contains an allocated block and `mm_checkheap`
returns false. -/
theorem checkheap_false_after_wrapped_request :
    (run_double_insert.bind fun s => mm_checkheap 30 s) = some false := by
  decide

/-- C4: after `mm_init(); p = malloc(8192); q = realloc(p, 2^64 - 16)` the call has returned
the non-null pointer `q`, the first block of the heap is free, the block at its address plus
its size is the epilogue, and the epilogue header is `0`: both allocation flags are false. -/
theorem adjacent_free_after_wrapped_realloc :
    (run_realloc_overrun.map fun r =>
      (r.1, get_alloc r.2 r.2.heap_start, decide (find_next r.2 r.2.heap_start = r.2.heap_epil),
        r.2.rd r.2.heap_epil, get_alloc r.2 (find_next r.2 r.2.heap_start)))
      = some (73760, false, true, 0, false) := by
  decide

/-- C5: after `mm_init(); x = malloc(2^64 - 1); y = malloc(8160); free(x)` the first block of
the heap is free and has size 16, and all three free lists are empty: a free block is
reachable from no tier head. -/
theorem free_block_in_no_tier :
    (run_tiny_block.map fun r =>
      (get_alloc r.2.2 r.2.2.heap_start, get_size r.2.2 r.2.2.heap_start,
        r.2.2.all_free_list_start 0, r.2.2.all_free_list_start 1,
        r.2.2.all_free_list_start 2)) = some (false, 16, NULL, NULL, NULL) := by
  decide

/-- C6: after `mm_init(); malloc(2^64 - 1)` the first block of the heap has size 16, below the
minimum block size 32. -/
theorem block_of_size_16 :
    (fresh.bind fun s0 => (malloc 0 s0 (2^64 - 1)).map fun r =>
      (decide (r.1 = NULL), get_size r.2 r.2.heap_start, get_alloc r.2 r.2.heap_start))
      = some (false, 16, true) := by
  decide

/-- C7: `p = malloc(16)` holds the word `0x1122334455667788`; `q = realloc(p, 2^64 - 16)`
returns a non-null `q`, and the first byte at `q` is `0` although the first byte at `p` was
`0x88` before the call. -/
theorem realloc_loses_bytes :
    (run_realloc_lost.map fun r =>
      (decide (r.2.2.1 = NULL), r.2.1.mem r.1, r.2.2.2.mem r.2.2.1)) = some (false, 136, 0) := by
  decide

/-- C10: in the run `mm_init(); x = malloc(2^64 - 1); y = malloc(8160); free(x)` the block of
`x` is allocated, has size 16 and lies between the prologue and the allocated block of `y`.
The adjusted size of a request of `2^64 - 1` bytes is 16, yet the next `malloc(2^64 - 1)`
returns `0x12010`, not `x = 0x10010`. -/
theorem no_reuse_of_tiny_block :
    round_up (padd (2^64 - 1) dsize) dsize = 16 ∧
    (run_tiny_block.bind fun r => (malloc 0 r.2.2 (2^64 - 1)).map fun z =>
      (r.1, get_size r.2.1 (payload_to_header r.1), get_alloc r.2.1 (payload_to_header r.1),
        extract_alloc (r.2.1.rd (find_prev_footer (payload_to_header r.1))),
        get_alloc r.2.1 (find_next r.2.1 (payload_to_header r.1)), z.1))
      = some (65552, 16, true, true, true, 73744) := by
  decide

/-! ## The ranges returned by `malloc` -/

/-- Ranges of `malloc` after the first `mm_init`: in a state reached from a successful
`mm_init` at process start (not from a later `mm_init` on a used heap) by `malloc` calls
with `n + 31 < 2^64` and `free` calls on live pointers, a non-null result `p` of `malloc(n)`
denotes a range `[p, p+n)` that lies between the prologue and the epilogue, is disjoint from
the range `[q, q+m)` of every live pointer, and contains no header word of a block met by
the heap walk. -/
theorem malloc_ranges {s s' : State} {live : List (Nat × Nat)} (fuel n p : Nat)
    (hr : Reach s live) (hn : n + 31 < 2^64) (hm : malloc fuel s n = some (p, s'))
    (hp : p ≠ NULL) :
    (s'.heap_prol + 8 ≤ p ∧ p + n ≤ s'.heap_epil)
      ∧ (∀ q m, (q, m) ∈ live → p + n ≤ q ∨ q + m ≤ p)
      ∧ (∀ k h, h ∈ heap_blocks k s' s'.heap_start → p + n ≤ h ∨ h + 8 ≤ p) := by
  obtain ⟨bs, L, hi, hl⟩ := reach_inv hr
  obtain ⟨hlive, -⟩ := hl
  rw [malloc_eq fuel hi.heap_start_ne] at hm
  obtain ⟨bs', L', hi', hkeep, hres⟩ := malloc_body_spec hi hn
  have h1 : (malloc_body s n).1 = p := by rw [Option.some.inj hm]
  have h2 : (malloc_body s n).2 = s' := by rw [Option.some.inj hm]
  rw [h1] at hres
  rw [h2] at hi'
  rcases hres with hres | ⟨a, sz, hpa, hnew, hsz, hfresh⟩
  · exact absurd hres hp
  have hh := hi'.core.heap
  have hb := hh.bounds hnew
  have hb1 : s'.heap_start ≤ a := hb.1
  have hb2 : a + sz ≤ s'.heap_epil := hb.2.1
  have hprol := hh.prol
  refine ⟨⟨by omega, by omega⟩, ?_, ?_⟩
  · intro q m hq
    obtain ⟨c, hc, hca, hcq, hcm⟩ := hlive (q, m) hq
    have hcq1 : q = c.addr + 8 := hcq
    have hcm1 : m + 16 ≤ c.size := hcm
    have hc' := hkeep c hc hca
    have hne := hfresh c hc hca
    rcases hh.layout.disjoint hc' hnew with hd | hd | hd
    · rw [hd] at hne; exact absurd rfl hne
    · have hd1 : c.addr + c.size ≤ a := hd
      omega
    · have hd1 : a + sz ≤ c.addr := hd
      omega
  · intro k h hk
    obtain ⟨c, hc, hca⟩ := heap_blocks_sub hh hi'.epilogue k s'.heap_start bs'
      (fun _ hb => hb) hh.layout h hk
    have hcb := hh.bounds hc
    rcases hh.layout.disjoint hc hnew with hd | hd | hd
    · rw [hd] at hca
      have hca1 : a = h := hca
      omega
    · have hd1 : c.addr + c.size ≤ a := hd
      omega
    · have hd1 : a + sz ≤ c.addr := hd
      omega

theorem init_state_reach : Reach init_state [] :=
  Reach.init 0 (fun _ => 0) 65536 1114112 init_state (by decide)
    ((mm_init_boot_ok 0 (fun _ => 0) (by decide) (by decide)).trans (if_neg (by decide)))

theorem first_malloc_reach : Reach first_malloc.2 [(first_malloc.1, 16)] :=
  Reach.malloc 0 init_state first_malloc.2 [] 16 first_malloc.1 init_state_reach (by decide)
    (malloc_eq 0 (by decide) 16) (by decide)

theorem malloc_ranges_witness :
    Reach first_malloc.2 [(first_malloc.1, 16)] ∧ second_malloc.1 ≠ NULL
      ∧ (second_malloc.2.heap_prol + 8 ≤ second_malloc.1
          ∧ second_malloc.1 + 24 ≤ second_malloc.2.heap_epil)
      ∧ (∀ q m, (q, m) ∈ [(first_malloc.1, 16)] → second_malloc.1 + 24 ≤ q
          ∨ q + m ≤ second_malloc.1)
      ∧ (∀ k h, h ∈ heap_blocks k second_malloc.2 second_malloc.2.heap_start →
          second_malloc.1 + 24 ≤ h ∨ h + 8 ≤ second_malloc.1) :=
  ⟨first_malloc_reach, by decide,
    malloc_ranges 0 24 second_malloc.1 first_malloc_reach (by decide)
      (malloc_eq 0 (by decide) 24) (by decide)⟩

/-! ## `calloc` and the failure path of `realloc` -/

theorem some_getD_of_isSome {α : Type} {o : Option α} (d : α) (h : o.isSome = true) :
    o = some (o.getD d) := by
  cases o with
  | none => cases h
  | some x => rfl

/-- C8: when the product `n * size` does not fit in 64 bits, `calloc(n, size)` returns null
and the state is as before; when it fits and `calloc` returns a non-null pointer `p`, the
`n * size` bytes from `p` on are zero. -/
theorem calloc_spec (fuel : Nat) (s : State) (n size : Nat) :
    (2^64 ≤ n * size → calloc fuel s n size = some (NULL, s)) ∧
    (n * size < 2^64 → ∀ r, calloc fuel s n size = some r → r.1 ≠ NULL →
      ∀ i, i < n * size → r.2.mem (r.1 + i) = 0) := by
  constructor
  · intro hov
    have hn0 : n ≠ 0 := by rintro rfl; simp at hov
    have hlt : (n * size) % 2^64 / n < size := by
      have h1 : (n * size) % 2^64 < n * size := by omega
      exact Nat.div_lt_of_lt_mul h1
    have hne : (n * size) % 2^64 / n ≠ size := by omega
    unfold calloc
    rw [if_neg hn0, if_pos hne]
  · intro hfit r hr hnn i hi
    unfold calloc at hr
    rw [Nat.mod_eq_of_lt hfit] at hr
    by_cases hn0 : n = 0
    · simp [hn0] at hr
    · rw [if_neg hn0] at hr
      by_cases hd : n * size / n ≠ size
      · rw [if_pos hd] at hr; cases hr; exact absurd rfl hnn
      · rw [if_neg hd] at hr
        cases hm : malloc fuel s (n * size) with
        | none => simp [hm] at hr
        | some q =>
          simp only [hm, Option.some_bind] at hr
          by_cases hq : q.1 = NULL
          · rw [if_pos hq] at hr; cases hr; exact absurd rfl hnn
          · rw [if_neg hq] at hr; cases hr; simp [State.setMem, memset_bytes, hi]

theorem calloc_spec_witness :
    calloc 0 dirty_state (2^63) 2 = some (NULL, dirty_state)
      ∧ dirty_state.mem 65568 = 255 ∧ calloc_result.1 = 65552
      ∧ ∀ i, i < 4 * 8 → calloc_result.2.mem (calloc_result.1 + i) = 0 :=
  ⟨(calloc_spec 0 dirty_state (2^63) 2).1 (by decide), by decide, by decide,
    (calloc_spec 0 dirty_state 4 8).2 (by decide) calloc_result
      (some_getD_of_isSome _ (by decide)) (by decide)⟩

/-- The amount by which `malloc` grows the heap is never 0. -/
theorem extendsize_pos (size : Nat) :
    0 < round_up (max (round_up (padd size dsize) dsize) chunksize) dsize := by
  unfold round_up max chunksize padd dsize
  split_ifs <;> omega

/-- C9: on an initialised heap, for a non-null pointer and a size other than 0, when
`find_fit` finds no block for the adjusted size and the growth primitive reports failure,
`realloc` returns null and the whole state is the state before the call. -/
theorem realloc_failure_atomic (fuel : Nat) (s : State) (ptr size : Nat)
    (hinit : s.heap_start ≠ NULL) (hptr : ptr ≠ NULL) (hsize : size ≠ 0)
    (hmax : s.mem_max_addr < 2^64)
    (hfit : find_fit s (round_up (padd size dsize) dsize) = NULL)
    (hgrow : (mem_sbrk s (round_up (max (round_up (padd size dsize) dsize) chunksize) dsize)).1
      = SBRK_FAIL) :
    realloc fuel s ptr size = some (NULL, s) := by
  have hpos := extendsize_pos size
  have hg : mem_sbrk s (round_up (max (round_up (padd size dsize) dsize) chunksize) dsize)
      = (SBRK_FAIL, s) := by
    unfold mem_sbrk at hgrow ⊢
    split_ifs at hgrow ⊢ with h
    · rfl
    · have h1 : s.mem_brk = SBRK_FAIL := hgrow
      unfold SBRK_FAIL at h1
      omega
  simp [realloc, malloc, malloc_body, extend_heap, hinit, hptr, hsize, hfit, hg]

theorem realloc_failure_atomic_witness :
    small_malloc.1 = 65552 ∧ find_fit small_malloc.2 (round_up (padd 5000 dsize) dsize) = NULL
      ∧ realloc 0 small_malloc.2 small_malloc.1 5000 = some (NULL, small_malloc.2) :=
  ⟨by decide, by decide,
    realloc_failure_atomic 0 small_malloc.2 small_malloc.1 5000 (by decide) (by decide)
      (by decide) (by decide) (by decide) (by decide)⟩

/-! ## Runs that end outside the claimed behaviour -/

/-- C11: `run_free_pair` reaches a state in which the blocks of `B` and `C` are allocated and
`C` follows `B` at once; after `free(B); free(C)` the call `mm_checkheap` returns false. -/
theorem checkheap_false_after_free_pair :
    run_free_pair.map (fun r =>
      (get_alloc r.2.2.1 (payload_to_header r.1), get_alloc r.2.2.1 (payload_to_header r.2.1),
        decide (find_next r.2.2.1 (payload_to_header r.1) = payload_to_header r.2.1),
        mm_checkheap 8 r.2.2.2))
      = some (true, true, true, some false) := by
  decide

/-- C14: a second `mm_init` on a heap whose third list holds two blocks returns true and
leaves two blocks in the third list: the new 4096-byte block at `heap_start` and, after it,
the block `65704` of the old heap, which is also the tail. -/
theorem reinit_keeps_stale_block :
    run_reinit.map (fun r =>
      (r.1, free_list_nodes 9 r.2.1 (r.2.1.all_free_list_start third_list), r.2.2.heap_start,
        free_list_nodes 9 r.2.2 (r.2.2.all_free_list_start third_list),
        r.2.2.all_free_list_end third_list))
      = some (true, [65544, 65704], 69656, [69656, 65704], 65704) := by
  decide

/-- C15: `calloc(0, size)` reaches the division `asize / elements` with `elements = 0`, for
which the model has no result. -/
theorem calloc_zero_count (fuel : Nat) (s : State) (size : Nat) :
    calloc fuel s 0 size = none := by
  unfold calloc
  rw [if_pos rfl]

/-- C17: in the state of `run_double_insert` the call `find_fit(128)` returns the block
`65704`, whose allocation flag is set. -/
theorem find_fit_returns_allocated_block :
    run_double_insert.map (fun s => (find_fit s 128, get_alloc s (find_fit s 128)))
      = some (65704, true) := by
  decide

/-- C16: in `scan_heap`, a heap on which `mm_checkheap` returns true, the third list holds
twenty blocks of size 64 followed by the block `67464` of size 2176, and `find_fit(80)`
returns that block, the node at position 21. -/
theorem find_fit_returns_node_21 :
    (mm_checkheap 100 scan_heap,
      (free_list_nodes 30 scan_heap (scan_heap.all_free_list_start third_list)).map
        (get_size scan_heap),
      (free_list_nodes 30 scan_heap (scan_heap.all_free_list_start third_list)).get? 20,
      find_fit scan_heap 80)
      = (some true, [64, 64, 64, 64, 64, 64, 64, 64, 64, 64, 64, 64, 64, 64, 64, 64, 64, 64,
        64, 64, 2176], some 67464, 67464) := by
  decide

/-! ## The extent of the heap -/

theorem wr_brks (s : State) (a v : Nat) : (s.wr a v).brks = s.brks := rfl

theorem setList_brks (s : State) (i a b : Nat) : (s.setList i a b).brks = s.brks := rfl

theorem list_add_brks (s : State) (x st en i : Nat) : (list_add s x st en i).brks = s.brks := by
  unfold list_add
  split_ifs <;> simp only [wr_brks, setList_brks]

theorem list_rem_brks (s : State) (x st en i : Nat) : (list_rem s x st en i).brks = s.brks := by
  unfold list_rem
  split_ifs <;> simp only [wr_brks, setList_brks]

theorem add_to_free_list_brks (s : State) (x : Nat) : (add_to_free_list s x).brks = s.brks := by
  unfold add_to_free_list
  dsimp only
  split_ifs <;> simp only [list_add_brks]

theorem rem_from_free_list_brks (s : State) (x : Nat) :
    (rem_from_free_list s x).brks = s.brks := by
  unfold rem_from_free_list
  dsimp only
  split_ifs <;> simp only [list_rem_brks]

theorem write_header_brks (s : State) (x size : Nat) (al : Bool) :
    (write_header s x size al).brks = s.brks := by
  unfold write_header
  exact wr_brks _ _ _

theorem write_footer_brks (s : State) (x size : Nat) (al : Bool) :
    (write_footer s x size al).brks = s.brks := by
  unfold write_footer
  exact wr_brks _ _ _

theorem coalesce_brks (s : State) (x : Nat) : (coalesce s x).2.brks = s.brks := by
  cases h0 : get_alloc s x with
  | true =>
    unfold coalesce
    rw [if_pos h0]
  | false =>
    cases hp : extract_alloc (s.rd (find_prev_footer x)) <;>
      cases hn : extract_alloc (s.rd (padd x (get_size s x)))
    · rw [coalesce_eq_ff h0 hp hn]
      simp only [add_to_free_list_brks, write_footer_brks, write_header_brks,
        rem_from_free_list_brks]
    · rw [coalesce_eq_ft h0 hp hn]
      simp only [add_to_free_list_brks, write_footer_brks, write_header_brks,
        rem_from_free_list_brks]
    · rw [coalesce_eq_tf h0 hp hn]
      simp only [add_to_free_list_brks, write_footer_brks, write_header_brks,
        rem_from_free_list_brks]
    · rw [coalesce_eq_tt h0 hp hn]
      simp only [add_to_free_list_brks, rem_from_free_list_brks]

theorem place_brks (s : State) (x asize : Nat) : (place s x asize).brks = s.brks := by
  unfold place
  dsimp only
  split_ifs <;>
    simp only [add_to_free_list_brks, write_footer_brks, write_header_brks,
      rem_from_free_list_brks]

/-- The amount `malloc` asks the growth primitive for is already a multiple of 16. -/
theorem round_up_extendsize (size : Nat) :
    round_up (max (round_up (padd size dsize) dsize) chunksize) dsize
      = max (round_up (padd size dsize) dsize) chunksize := by
  unfold round_up max chunksize padd dsize
  split_ifs <;> omega

theorem extend_heap_brks (s : State) (size : Nat) :
    (extend_heap s size).2.brks = (mem_sbrk s (round_up size dsize)).2.brks := by
  unfold extend_heap
  dsimp only
  split_ifs
  · rfl
  · rw [coalesce_brks]
    simp only [write_header_brks, add_to_free_list_brks, write_footer_brks]
    rfl

/-- The extent of the heap after the body of `malloc`. -/
theorem malloc_body_brks (s : State) {size : Nat} (h0 : size ≠ 0) :
    (malloc_body s size).2.brks
      = if find_fit s (round_up (padd size dsize) dsize) = NULL then
          (mem_sbrk s (max (round_up (padd size dsize) dsize) chunksize)).2.brks
        else s.brks := by
  unfold malloc_body
  rw [if_neg h0]
  dsimp only
  split_ifs with h1 h2
  · rw [extend_heap_brks, round_up_extendsize]
  · rw [place_brks, extend_heap_brks, round_up_extendsize]
  · rw [place_brks]

/-- On a state reached from `mm_init`, the body of `malloc` leaves the epilogue header at
`heap_epil`, which is the last word below the top of the heap. -/
theorem malloc_body_epilogue {s : State} {live : List (Nat × Nat)} (hr : Reach s live)
    {n : Nat} (hn : n + 31 < 2^64) :
    s.heap_epil + 8 = s.mem_brk ∧ (malloc_body s n).2.heap_epil + 8 = (malloc_body s n).2.mem_brk
      ∧ (malloc_body s n).2.rd (malloc_body s n).2.heap_epil = pack 0 true := by
  obtain ⟨bs, L, hi, -⟩ := reach_inv hr
  obtain ⟨bs', L', hi', -, -⟩ := malloc_body_spec hi hn
  exact ⟨hi.core.heap.brk, hi'.core.heap.brk, hi'.epilogue⟩

/-- C12 (on an initialised heap): `malloc(n)` with `n > 0` returns; when `find_fit` finds a
block the extent of the heap is as before, otherwise the extent is the one left by a single
call of the growth primitive for `max(asize, 4096)` bytes, `asize = round_up(n + 16, 16)`.
In a state reached from `mm_init` at process start, `malloc(32)` leaves the top of the heap
and `heap_epil` as they are or moves both up by 4096, and afterwards `heap_epil` holds the
epilogue header `pack(0, true)` in the last word below the top of the heap. -/
theorem malloc_growth (fuel : Nat) (s : State) (n : Nat) (hinit : s.heap_start ≠ NULL)
    (hn : n ≠ 0) :
    ∃ r, malloc fuel s n = some r
      ∧ (find_fit s (round_up (padd n dsize) dsize) ≠ NULL → r.2.brks = s.brks)
      ∧ (find_fit s (round_up (padd n dsize) dsize) = NULL →
          r.2.brks = (mem_sbrk s (max (round_up (padd n dsize) dsize) chunksize)).2.brks)
      ∧ (∀ live, Reach s live → n = 32 →
          ((r.2.mem_brk = s.mem_brk ∧ r.2.heap_epil = s.heap_epil)
            ∨ (r.2.mem_brk = s.mem_brk + 4096 ∧ r.2.heap_epil = s.heap_epil + 4096))
          ∧ r.2.heap_epil + 8 = r.2.mem_brk ∧ r.2.rd r.2.heap_epil = pack 0 true) := by
  refine ⟨malloc_body s n, malloc_eq fuel hinit n, ?_, ?_, ?_⟩
  · intro h
    rw [malloc_body_brks s hn, if_neg h]
  · intro h
    rw [malloc_body_brks s hn, if_pos h]
  · intro live hr h32
    subst h32
    obtain ⟨e1, e2, e3⟩ := malloc_body_epilogue hr (show 32 + 31 < 2^64 by decide)
    refine ⟨?_, e2, e3⟩
    have hb := malloc_body_brks s (show (32 : Nat) ≠ 0 by decide)
    have hmax : max (round_up (padd 32 dsize) dsize) chunksize = 4096 := by decide
    rw [hmax] at hb
    have hbrk : (malloc_body s 32).2.mem_brk = s.mem_brk
        ∨ (malloc_body s 32).2.mem_brk = s.mem_brk + 4096 := by
      have h2 : (malloc_body s 32).2.mem_brk = (malloc_body s 32).2.brks.2.1 := rfl
      rw [h2, hb]
      split_ifs
      · unfold mem_sbrk
        split_ifs
        · exact Or.inl rfl
        · exact Or.inr rfl
      · exact Or.inl rfl
    rcases hbrk with h | h
    · left; exact ⟨h, by omega⟩
    · right; exact ⟨h, by omega⟩

/-- C12: at process start `malloc(32)` finds the heap empty, runs `mm_init` and leaves a heap
of 4112 bytes, neither the extent before the call nor a growth by `max(asize, 4096) = 4096`
bytes. -/
theorem malloc_at_start_grows_4112 :
    boot0.heap_start = NULL ∧ mem_heapsize boot0 = 0
      ∧ max (round_up (padd 32 dsize) dsize) chunksize = 4096
      ∧ (malloc 0 boot0 32).map (fun r => mem_heapsize r.2) = some 4112 := by
  decide

theorem full_state_reach : Reach full_state.2 [(full_state.1, 4064)] :=
  Reach.malloc 0 init_state full_state.2 [] 4064 full_state.1 init_state_reach (by decide)
    (malloc_eq 0 (by decide) 4064) (by decide)

theorem malloc_growth_witness :
    (∃ r, malloc 0 init_state 5000 = some r ∧ r.2.mem_brk = init_state.mem_brk + 5024)
      ∧ (∃ r, malloc 0 full_state.2 32 = some r
          ∧ r.2.mem_brk = full_state.2.mem_brk + 4096
          ∧ r.2.heap_epil = full_state.2.heap_epil + 4096
          ∧ r.2.rd r.2.heap_epil = pack 0 true) := by
  constructor
  · obtain ⟨r, h1, -, h3, -⟩ := malloc_growth 0 init_state 5000 (by decide) (by decide)
    exact ⟨r, h1, congrArg (fun x => x.2.1) (h3 (by decide))⟩
  · obtain ⟨r, h1, -, h3, h4⟩ := malloc_growth 0 full_state.2 32 (by decide) (by decide)
    have h5 := h4 _ full_state_reach rfl
    have h6 : r.2.mem_brk = full_state.2.mem_brk + 4096 :=
      congrArg (fun x => x.2.1) (h3 (by decide))
    rcases h5.1 with h | h
    · omega
    · exact ⟨r, h1, h.1, h.2, h5.2.2⟩

/-! ## The degenerate cases of `realloc` -/

/-- C13: `realloc(ptr, 0)` returns null and leaves the state that `free(ptr)` leaves, for
every `ptr`; `realloc(NULL, size)` with `size > 0` is `malloc(size)`: the same pointer and
the same state, from every starting state. -/
theorem realloc_degenerate (fuel : Nat) (s : State) (ptr size : Nat) :
    realloc fuel s ptr 0 = some (NULL, free s ptr)
      ∧ (size ≠ 0 → realloc fuel s NULL size = malloc fuel s size) := by
  constructor
  · unfold realloc
    rw [if_pos rfl]
  · intro h
    unfold realloc
    rw [if_neg h, if_pos rfl]

theorem realloc_degenerate_witness :
    realloc 0 first_malloc.2 first_malloc.1 0 = some (NULL, free first_malloc.2 first_malloc.1)
      ∧ realloc 0 init_state NULL 16 = malloc 0 init_state 16
      ∧ (malloc 0 init_state 16).map (fun r => r.1) = some 65552 :=
  ⟨(realloc_degenerate 0 first_malloc.2 first_malloc.1 16).1,
    (realloc_degenerate 0 init_state NULL 16).2 (by decide), by decide⟩

/-! ## Placement -/

/-- The header and the footer of a block given by its three fields. -/
theorem Heap.tags_at {s : State} {bs : List Blk} (h : Heap s bs) {a sz : Nat} {al : Bool}
    (hb : (⟨a, sz, al⟩ : Blk) ∈ bs) :
    s.rd a = pack sz al ∧ s.rd (a + sz - 8) = pack sz al :=
  h.tags _ hb

/-- The split case of `place`. -/
theorem place_split_case {s : State} {L : Nat → List Nat} {pre post : List Blk} {b : Blk}
    (hc : Core s (pre ++ [b] ++ post) L) (hfree : b.alloc = false)
    (hin : b.addr ∈ L (tier b.size)) {asize : Nat} (h32 : 32 ≤ asize) (h16 : asize % 16 = 0)
    (hle : asize ≤ b.size) (hsp : 32 ≤ b.size - asize) :
      ∃ L', Core (place s b.addr asize)
          (pre ++ [⟨b.addr, asize, true⟩, ⟨b.addr + asize, b.size - asize, false⟩] ++ post) L'
        ∧ (place s b.addr asize).rd b.addr = pack asize true
        ∧ (place s b.addr asize).rd (b.addr + asize - 8) = pack asize true
        ∧ (place s b.addr asize).rd (b.addr + asize) = pack (b.size - asize) false
        ∧ (place s b.addr asize).rd (b.addr + b.size - 8) = pack (b.size - asize) false
        ∧ asize + (b.size - asize) = b.size
        ∧ (place s b.addr asize).all_free_list_start (tier (b.size - asize)) = b.addr + asize
        ∧ (L' (tier (b.size - asize))).head? = some (b.addr + asize)
        ∧ (∀ i x, x ∈ L' i ↔
            (x ∈ L i ∧ x ≠ b.addr) ∨ (x = b.addr + asize ∧ i = tier (b.size - asize)))
        ∧ (∀ c, c ∈ pre ∨ c ∈ post → (place s b.addr asize).rd c.addr = s.rd c.addr) := by
  have hb : b ∈ pre ++ [b] ++ post := by simp
  have hbb := hc.heap.bounds hb
  have hgs := hc.heap.get_size hb
  obtain ⟨L1, hc1, ht1, hm1⟩ := rem_block hc hb hin
  obtain ⟨lo, hi, hl1, hl2, hl3⟩ := hc1.heap.layout.three
  have hlo : lo = b.addr := hl2.1.symm
  have hhi : hi = b.addr + b.size := by
    have := hl2.2.2.2
    have h2 : lo + b.size = hi := this
    omega
  subst hlo
  subst hhi
  have hnot : ∀ c ∈ [b], ∀ i, c.addr ∉ L1 i := by
    intro c hcm i hx
    rw [List.mem_singleton] at hcm
    subst hcm
    exact ((hm1 i _).1 hx).2 rfl
  have hold : ∀ c, c ∈ pre ∨ c ∈ post → c ∈ pre ++ [b] ++ post := by
    intro c hcm
    rw [mem_mid_iff]
    rcases hcm with h | h
    · exact Or.inl h
    · exact Or.inr (Or.inr h)
  have hsp' : asize + 32 ≤ b.size := by omega
  rw [place_eq_split hgs (by omega) h16 (by omega) h32 hsp']
  obtain ⟨hc2, ht2⟩ := @Core.set_two _ _ _ _ _ _ (b.addr + asize) _ true false hc1 hl1 hl3
    (by omega) (by omega) (by omega) (by omega) hnot
  simp only [Nat.add_sub_cancel_left, Nat.add_sub_add_left] at hc2 ht2
  have h1m : (⟨b.addr, asize, true⟩ : Blk) ∈
      pre ++ [⟨b.addr, asize, true⟩, ⟨b.addr + asize, b.size - asize, false⟩] ++ post := by
    simp
  have hr : (⟨b.addr + asize, b.size - asize, false⟩ : Blk) ∈
      pre ++ [⟨b.addr, asize, true⟩, ⟨b.addr + asize, b.size - asize, false⟩] ++ post := by
    simp
  have hrn : ∀ i, b.addr + asize ∉ L1 i := by
    intro i hx
    obtain ⟨c, hcm, hca, -, -⟩ := hc.lists.nodes i _ ((hm1 i _).1 hx).1
    exact hc.heap.layout.not_inside hb hcm (by omega) (by omega)
  obtain ⟨L2, hc3, ht3, hm3, hhd⟩ := add_block hc2 hr rfl (hrn _)
  have hhd' : L2 (tier (b.size - asize)) = (b.addr + asize) :: L1 (tier (b.size - asize)) :=
    hhd
  have hhp := hc3.heap
  have t1 := hhp.tags_at h1m
  have t2 := hhp.tags_at hr
  have e : b.addr + asize + (b.size - asize) - 8 = b.addr + b.size - 8 := by omega
  rw [e] at t2
  refine ⟨L2, hc3, t1.1, t1.2, t2.1, t2.2, by omega, ?_, ?_, ?_, ?_⟩
  · rw [hc3.lists.heads, hhd']
    rfl
  · rw [hhd']
    rfl
  · intro i x
    rw [hm3, hm1]
  · intro c hcm
    have hcm2 : c ∈ pre ++ [⟨b.addr, asize, true⟩, ⟨b.addr + asize, b.size - asize, false⟩]
        ++ post := by
      rw [mem_mid_iff]
      rcases hcm with h | h
      · exact Or.inl h
      · exact Or.inr (Or.inr h)
    rw [hhp.rd_header hcm2, hc.heap.rd_header (hold c hcm)]

/-- The case of `place` that uses the whole block. -/
theorem place_whole_case {s : State} {L : Nat → List Nat} {pre post : List Blk} {b : Blk}
    (hc : Core s (pre ++ [b] ++ post) L)
    (hin : b.addr ∈ L (tier b.size)) {asize : Nat}
    (hle : asize ≤ b.size) (hsp : b.size - asize < 32) :
      ∃ L', Core (place s b.addr asize) (pre ++ [⟨b.addr, b.size, true⟩] ++ post) L'
        ∧ (place s b.addr asize).rd b.addr = pack b.size true
        ∧ (∀ i x, x ∈ L' i ↔ (x ∈ L i ∧ x ≠ b.addr))
        ∧ (∀ c, c ∈ pre ∨ c ∈ post → (place s b.addr asize).rd c.addr = s.rd c.addr) := by
  have hb : b ∈ pre ++ [b] ++ post := by simp
  have hbb := hc.heap.bounds hb
  have hgs := hc.heap.get_size hb
  obtain ⟨L1, hc1, ht1, hm1⟩ := rem_block hc hb hin
  obtain ⟨lo, hi, hl1, hl2, hl3⟩ := hc1.heap.layout.three
  have hlo : lo = b.addr := hl2.1.symm
  have hhi : hi = b.addr + b.size := by
    have := hl2.2.2.2
    have h2 : lo + b.size = hi := this
    omega
  subst hlo
  subst hhi
  have hnot : ∀ c ∈ [b], ∀ i, c.addr ∉ L1 i := by
    intro c hcm i hx
    rw [List.mem_singleton] at hcm
    subst hcm
    exact ((hm1 i _).1 hx).2 rfl
  have hold : ∀ c, c ∈ pre ∨ c ∈ post → c ∈ pre ++ [b] ++ post := by
    intro c hcm
    rw [mem_mid_iff]
    rcases hcm with h | h
    · exact Or.inl h
    · exact Or.inr (Or.inr h)
  rw [place_eq_whole hgs (by omega) (by omega) (by omega) hle (by omega)]
  obtain ⟨hc2, ht2⟩ := @Core.set_block _ _ _ _ _ _ (b.addr + b.size) true hc1 hl1 hl3
    (by omega) (by omega) hnot
  simp only [Nat.add_sub_cancel_left] at hc2 ht2
  have h1m : (⟨b.addr, b.size, true⟩ : Blk) ∈ pre ++ [⟨b.addr, b.size, true⟩] ++ post := by
    simp
  refine ⟨L1, hc2, (hc2.heap.tags_at h1m).1, hm1, ?_⟩
  intro c hcm
  have hcm2 : c ∈ pre ++ [⟨b.addr, b.size, true⟩] ++ post := by
    rw [mem_mid_iff]
    rcases hcm with h | h
    · exact Or.inl h
    · exact Or.inr (Or.inr h)
  rw [hc2.heap.rd_header hcm2, hc.heap.rd_header (hold c hcm)]

/-- C20: `place(block, asize)` on a free block of size `csize` that is in the list of its
tier, for `asize` a multiple of 16 with `32 <= asize <= csize`.  When `csize - asize >= 32`
the block is split: it leaves the lists, its header and the word at `block + asize - 8` are
`pack(asize, true)`, the block at `block + asize` has header and footer
`pack(csize - asize, false)` and is the head of the list of its tier, the sizes add up to
`csize`, and the other blocks keep their headers and their list membership.  When
`csize - asize < 32` there is no split: the header is `pack(csize, true)`. -/
theorem place_split {s : State} {L : Nat → List Nat} {pre post : List Blk} {b : Blk}
    (hc : Core s (pre ++ [b] ++ post) L) (hfree : b.alloc = false)
    (hin : b.addr ∈ L (tier b.size)) {asize : Nat} (h32 : 32 ≤ asize) (h16 : asize % 16 = 0)
    (hle : asize ≤ b.size) :
    (32 ≤ b.size - asize →
      ∃ L', Core (place s b.addr asize)
          (pre ++ [⟨b.addr, asize, true⟩, ⟨b.addr + asize, b.size - asize, false⟩] ++ post) L'
        ∧ (place s b.addr asize).rd b.addr = pack asize true
        ∧ (place s b.addr asize).rd (b.addr + asize - 8) = pack asize true
        ∧ (place s b.addr asize).rd (b.addr + asize) = pack (b.size - asize) false
        ∧ (place s b.addr asize).rd (b.addr + b.size - 8) = pack (b.size - asize) false
        ∧ asize + (b.size - asize) = b.size
        ∧ (place s b.addr asize).all_free_list_start (tier (b.size - asize)) = b.addr + asize
        ∧ (L' (tier (b.size - asize))).head? = some (b.addr + asize)
        ∧ (∀ i x, x ∈ L' i ↔
            (x ∈ L i ∧ x ≠ b.addr) ∨ (x = b.addr + asize ∧ i = tier (b.size - asize)))
        ∧ (∀ c, c ∈ pre ∨ c ∈ post → (place s b.addr asize).rd c.addr = s.rd c.addr))
    ∧ (b.size - asize < 32 →
      ∃ L', Core (place s b.addr asize) (pre ++ [⟨b.addr, b.size, true⟩] ++ post) L'
        ∧ (place s b.addr asize).rd b.addr = pack b.size true
        ∧ (∀ i x, x ∈ L' i ↔ (x ∈ L i ∧ x ≠ b.addr))
        ∧ (∀ c, c ∈ pre ∨ c ∈ post → (place s b.addr asize).rd c.addr = s.rd c.addr)) :=
  ⟨place_split_case hc hfree hin h32 h16 hle, place_whole_case hc hin hle⟩

/-! ## The four cases of `coalesce` -/

/-- Both neighbours allocated: the block leaves its list and comes back. -/
theorem join_tt {s : State} {L : Nat → List Nat} {pre post : List Blk} {b : Blk}
    (hc : Core s (pre ++ [b] ++ post) L) (hfree : b.alloc = false)
    (hin : b.addr ∈ L (tier b.size))
    (hp : extract_alloc (s.rd (find_prev_footer b.addr)) = true)
    (hn : extract_alloc (s.rd (padd b.addr (get_size s b.addr))) = true) :
    Joined s L b.addr pre [b] post b.addr b.size := by
  have hb : b ∈ pre ++ [b] ++ post := by simp
  have h0 : get_alloc s b.addr = false := by rw [hc.heap.get_alloc hb, hfree]
  obtain ⟨L1, hc1, ht1, hm1⟩ := rem_block hc hb hin
  have hbe : (⟨b.addr, b.size, false⟩ : Blk) = b := by
    cases b
    simp only at hfree
    subst hfree
    rfl
  refine ⟨L1, rem_from_free_list s b.addr, coalesce_eq_tt h0 hp hn, ?_, ?_, ht1⟩
  · rw [hbe]
    exact hc1
  · intro i y
    rw [hm1]
    simp

/-- The next block is free: the two blocks leave their lists and become one block. -/
theorem join_tf {s : State} {L : Nat → List Nat} {pre post : List Blk} {b n : Blk}
    (hc : Core s (pre ++ [b] ++ n :: post) L)
    (hfree : b.alloc = false) (hnf : n.alloc = false)
    (hin : b.addr ∈ L (tier b.size)) (hnin : n.addr ∈ L (tier n.size))
    (hp : extract_alloc (s.rd (find_prev_footer b.addr)) = true) :
    Joined s L b.addr pre [b, n] post b.addr (b.size + n.size) := by
  have hb : b ∈ pre ++ [b] ++ n :: post := by simp
  have hnm : n ∈ pre ++ [b] ++ n :: post := by simp
  have hbb := hc.heap.bounds hb
  have hnb := hc.heap.bounds hnm
  have h0 : get_alloc s b.addr = false := by rw [hc.heap.get_alloc hb, hfree]
  obtain ⟨e1, e2, e3, e4⟩ := hc.heap.next_cons rfl
  rw [hnf] at e2
  unfold Joined
  rw [coalesce_eq_tf h0 hp e2, e3, e4, hc.heap.get_size hb]
  have hshape : pre ++ [b] ++ n :: post = pre ++ [b, n] ++ post := by simp
  obtain ⟨L1, hc1, ht1, hm1⟩ := rem_block hc hnm hnin
  have hb1 : b.addr ∈ L1 (tier b.size) := (hm1 _ _).2 ⟨hin, by omega⟩
  obtain ⟨L2, hc2, ht2, hm2⟩ := rem_block hc1 hb hb1
  have hm2' : ∀ i x, x ∈ L2 i ↔ (x ∈ L i ∧ ∀ r ∈ [b, n], x ≠ r.addr) := by
    intro i x; rw [hm2, hm1]; simp; tauto
  rw [hshape] at hc hc2
  obtain ⟨lo, hi, hl1, hl2, hl3⟩ := hc2.heap.layout.three
  have hlo : lo = b.addr := hl2.1.symm
  have hhi : n.addr + n.size = hi := by
    have := hl2.2.2.2
    exact this.2.2.2.symm ▸ (by rw [hlo]; omega)
  subst hlo
  have hgs : get_size ((rem_from_free_list (rem_from_free_list s n.addr) b.addr).wr b.addr
      (pack (padd b.size n.size) false)) n.addr = n.size := by
    rw [get_size_wr_sep _ _ (by omega)]
    exact hc2.heap.get_size (by simp)
  unfold write_header
  rw [write_footer_eq _ _ hgs (by omega) (by omega), padd_eq (by omega)]
  have hnot : ∀ c ∈ [b, n], ∀ i, c.addr ∉ L2 i := by
    intro c hcm i hx
    exact ((hm2' i _).1 hx).2 c hcm rfl
  obtain ⟨hc3, ht3⟩ := hc2.set_block false hl1 hl3 (by omega) (by omega) hnot
  have etot : hi - b.addr = b.size + n.size := by omega
  have eft : hi - 8 = n.addr + n.size - 8 := by omega
  rw [etot, eft] at hc3 ht3
  exact ⟨L2, _, rfl, hc3, hm2', (ht1.trans ht2).trans ht3⟩

/-- The previous block is free: the two blocks leave their lists and become one block. -/
theorem join_ft {s : State} {L : Nat → List Nat} {pre post : List Blk} {b p : Blk}
    (hc : Core s (pre ++ [p] ++ [b] ++ post) L)
    (hfree : b.alloc = false) (hpf : p.alloc = false)
    (hin : b.addr ∈ L (tier b.size)) (hpin : p.addr ∈ L (tier p.size))
    (hn : extract_alloc (s.rd (padd b.addr (get_size s b.addr))) = true) :
    Joined s L b.addr pre [p, b] post p.addr (b.size + p.size) := by
  have hb : b ∈ pre ++ [p] ++ [b] ++ post := by simp
  have hpm : p ∈ pre ++ [p] ++ [b] ++ post := by simp
  have hbb := hc.heap.bounds hb
  have hpb := hc.heap.bounds hpm
  have h0 : get_alloc s b.addr = false := by rw [hc.heap.get_alloc hb, hfree]
  obtain ⟨e1, e2, e3, e4⟩ := hc.heap.prev_snoc rfl
  rw [hpf] at e2
  unfold Joined
  rw [coalesce_eq_ft h0 e2 hn, e3, e4, hc.heap.get_size hb]
  have hshape : pre ++ [p] ++ [b] ++ post = pre ++ [p, b] ++ post := by simp
  obtain ⟨L1, hc1, ht1, hm1⟩ := rem_block hc hpm hpin
  have hb1 : b.addr ∈ L1 (tier b.size) := (hm1 _ _).2 ⟨hin, by omega⟩
  obtain ⟨L2, hc2, ht2, hm2⟩ := rem_block hc1 hb hb1
  have hm2' : ∀ i x, x ∈ L2 i ↔ (x ∈ L i ∧ ∀ r ∈ [p, b], x ≠ r.addr) := by
    intro i x; rw [hm2, hm1]; simp; tauto
  rw [hshape] at hc hc2
  obtain ⟨lo, hi, hl1, hl2, hl3⟩ := hc2.heap.layout.three
  have hlo : lo = p.addr := hl2.1.symm
  have hhi : b.addr + b.size = hi := by
    have := hl2.2.2.2
    exact this.2.2.2.symm ▸ (by rw [hlo]; omega)
  subst hlo
  have hgs : get_size ((rem_from_free_list (rem_from_free_list s p.addr) b.addr).wr p.addr
      (pack (padd b.size p.size) false)) b.addr = b.size := by
    rw [get_size_wr_sep _ _ (by omega)]
    exact hc2.heap.get_size (by simp)
  unfold write_header
  rw [write_footer_eq _ _ hgs (by omega) (by omega), padd_eq (by omega)]
  have hnot : ∀ c ∈ [p, b], ∀ i, c.addr ∉ L2 i := by
    intro c hcm i hx
    exact ((hm2' i _).1 hx).2 c hcm rfl
  obtain ⟨hc3, ht3⟩ := hc2.set_block false hl1 hl3 (by omega) (by omega) hnot
  have etot : hi - p.addr = b.size + p.size := by omega
  have eft : hi - 8 = b.addr + b.size - 8 := by omega
  rw [etot, eft] at hc3 ht3
  exact ⟨L2, _, rfl, hc3, hm2', (ht1.trans ht2).trans ht3⟩

/-- Both neighbours are free: the three blocks leave their lists and become one block. -/
theorem join_ff {s : State} {L : Nat → List Nat} {pre post : List Blk} {b p n : Blk}
    (hc : Core s (pre ++ [p] ++ [b] ++ n :: post) L)
    (hfree : b.alloc = false) (hpf : p.alloc = false) (hnf : n.alloc = false)
    (hin : b.addr ∈ L (tier b.size)) (hpin : p.addr ∈ L (tier p.size))
    (hnin : n.addr ∈ L (tier n.size)) :
    Joined s L b.addr pre [p, b, n] post p.addr (b.size + p.size + n.size) := by
  have hb : b ∈ pre ++ [p] ++ [b] ++ n :: post := by simp
  have hpm : p ∈ pre ++ [p] ++ [b] ++ n :: post := by simp
  have hnm : n ∈ pre ++ [p] ++ [b] ++ n :: post := by simp
  have hbb := hc.heap.bounds hb
  have hpb := hc.heap.bounds hpm
  have hnb := hc.heap.bounds hnm
  have h0 : get_alloc s b.addr = false := by rw [hc.heap.get_alloc hb, hfree]
  obtain ⟨e1, e2, e3, e4⟩ := hc.heap.prev_snoc rfl
  obtain ⟨f1, f2, f3, f4⟩ := hc.heap.next_cons rfl
  rw [hpf] at e2
  rw [hnf] at f2
  unfold Joined
  rw [coalesce_eq_ff h0 e2 f2, e3, e4, f3, f4, hc.heap.get_size hb]
  have hshape : pre ++ [p] ++ [b] ++ n :: post = pre ++ [p, b, n] ++ post := by simp
  obtain ⟨L1, hc1, ht1, hm1⟩ := rem_block hc hpm hpin
  have hn1 : n.addr ∈ L1 (tier n.size) := (hm1 _ _).2 ⟨hnin, by omega⟩
  obtain ⟨L2, hc2, ht2, hm2⟩ := rem_block hc1 hnm hn1
  have hb2 : b.addr ∈ L2 (tier b.size) :=
    (hm2 _ _).2 ⟨(hm1 _ _).2 ⟨hin, by omega⟩, by omega⟩
  obtain ⟨L3, hc3, ht3, hm3⟩ := rem_block hc2 hb hb2
  have hm3' : ∀ i x, x ∈ L3 i ↔ (x ∈ L i ∧ ∀ r ∈ [p, b, n], x ≠ r.addr) := by
    intro i x; rw [hm3, hm2, hm1]; simp; tauto
  rw [hshape] at hc hc3
  obtain ⟨lo, hi, hl1, hl2, hl3⟩ := hc3.heap.layout.three
  have hlo : lo = p.addr := hl2.1.symm
  have hhi : n.addr + n.size = hi := by
    have := hl2.2.2.2.2.2.2
    exact this.2.2.2.symm ▸ (by rw [hlo]; omega)
  subst hlo
  have hgs : get_size ((rem_from_free_list (rem_from_free_list (rem_from_free_list s p.addr)
      n.addr) b.addr).wr p.addr (pack (padd (padd b.size p.size) n.size) false)) n.addr
      = n.size := by
    rw [get_size_wr_sep _ _ (by omega)]
    exact hc3.heap.get_size (by simp)
  unfold write_header
  rw [write_footer_eq _ _ hgs (by omega) (by omega), padd_eq (show b.size + p.size < 2^64 by omega),
    padd_eq (by omega)]
  have hnot : ∀ c ∈ [p, b, n], ∀ i, c.addr ∉ L3 i := by
    intro c hcm i hx
    exact ((hm3' i _).1 hx).2 c hcm rfl
  obtain ⟨hc4, ht4⟩ := hc3.set_block false hl1 hl3 (by omega) (by omega) hnot
  have etot : hi - p.addr = b.size + p.size + n.size := by omega
  have eft : hi - 8 = n.addr + n.size - 8 := by omega
  rw [etot, eft] at hc4 ht4
  exact ⟨L3, _, rfl, hc4, hm3', ((ht1.trans ht2).trans ht3).trans ht4⟩

/-! ## The state after `coalesce` -/

/-- After the final `add_to_free_list` the merged block is the head of the list of its
tier. -/
theorem Joined.post {s : State} {L : Nat → List Nat} {x : Nat} {pre mid post : List Blk}
    {lo tot : Nat} (hj : Joined s L x pre mid post lo tot) (hlo : ∃ r ∈ mid, r.addr = lo) :
    ∃ L', Core (coalesce s x).2 (pre ++ [⟨lo, tot, false⟩] ++ post) L'
      ∧ (coalesce s x).1 = lo
      ∧ (coalesce s x).2.rd lo = pack tot false
      ∧ (coalesce s x).2.rd (lo + tot - 8) = pack tot false
      ∧ (coalesce s x).2.all_free_list_start (tier tot) = lo
      ∧ (L' (tier tot)).head? = some lo
      ∧ (∀ i y, y ∈ L' i ↔ (y ∈ L i ∧ ∀ r ∈ mid, y ≠ r.addr) ∨ (y = lo ∧ i = tier tot))
      ∧ Top s (coalesce s x).2 := by
  obtain ⟨L2, t, hco, hc, hm, ht⟩ := hj
  rw [hco]
  have hmm : (⟨lo, tot, false⟩ : Blk) ∈ pre ++ [⟨lo, tot, false⟩] ++ post := by simp
  generalize hmd : (⟨lo, tot, false⟩ : Blk) = m at hc hmm ⊢
  have ha : m.addr = lo := by rw [← hmd]
  have hs : m.size = tot := by rw [← hmd]
  have hf : m.alloc = false := by rw [← hmd]
  have hnot : m.addr ∉ L2 (tier m.size) := by
    intro hx
    obtain ⟨r, hr, hrl⟩ := hlo
    exact ((hm _ _).1 hx).2 r hr (by rw [ha, hrl])
  obtain ⟨L3, hc3, ht3, hm3, hhd⟩ := add_block hc hmm hf hnot
  rw [ha] at hc3 ht3 hm3 hhd
  rw [hs] at hm3 hhd
  have t1 := hc3.heap.rd_header hmm
  have t2 := hc3.heap.rd_footer hmm
  rw [ha, hs, hf] at t1 t2
  refine ⟨L3, hc3, rfl, t1, t2, ?_, ?_, ?_, ht.trans ht3⟩
  · rw [hc3.lists.heads, hhd]
    rfl
  · rw [hhd]
    rfl
  · intro i y
    rw [hm3, hm]

theorem free_before_nil : free_before [] = [] := rfl

theorem free_before_snoc (pre : List Blk) (p : Blk) :
    free_before (pre ++ [p]) = if p.alloc = true then [] else [p] := by
  unfold free_before
  rw [List.getLast?_append_of_ne_nil _ (by simp)]
  rfl

theorem free_after_nil : free_after [] = [] := rfl

theorem free_after_cons (n : Blk) (post : List Blk) :
    free_after (n :: post) = if n.alloc = true then [] else [n] := rfl

/-- The block before `b`: it is allocated or absent and nothing is merged there, or it is
free and the last block of `pre`. -/
theorem prev_cases {s : State} {L : Nat → List Nat} {pre post : List Blk} {b : Blk}
    (hc : Core s (pre ++ [b] ++ post) L) :
    (free_before pre = [] ∧ kept_before pre = pre
        ∧ extract_alloc (s.rd (find_prev_footer b.addr)) = true)
      ∨ ∃ pre0 p, pre = pre0 ++ [p] ∧ p.alloc = false ∧ free_before pre = [p]
        ∧ kept_before pre = pre0 := by
  rcases List.eq_nil_or_concat pre with h | ⟨pre0, p, h⟩
  · subst h
    exact Or.inl ⟨rfl, rfl, hc.heap.prev_nil rfl⟩
  · rw [List.concat_eq_append] at h
    subst h
    cases hpa : p.alloc with
    | true =>
      left
      have hfb : free_before (pre0 ++ [p]) = [] := by rw [free_before_snoc, if_pos hpa]
      obtain ⟨-, e2, -, -⟩ := hc.heap.prev_snoc rfl
      refine ⟨hfb, ?_, e2.trans hpa⟩
      unfold kept_before
      rw [hfb]
      exact List.take_length _
    | false =>
      right
      have hfb : free_before (pre0 ++ [p]) = [p] := by
        rw [free_before_snoc, if_neg (by rw [hpa]; decide)]
      refine ⟨pre0, p, rfl, hpa, hfb, ?_⟩
      unfold kept_before
      rw [hfb]
      simp

/-- The block after `b`: it is allocated or absent and nothing is merged there, or it is free
and the first block of `post`. -/
theorem next_cases {s : State} {L : Nat → List Nat} {pre post : List Blk} {b : Blk}
    (hc : Core s (pre ++ [b] ++ post) L) (he : s.rd s.heap_epil = pack 0 true) :
    (free_after post = [] ∧ kept_after post = post
        ∧ extract_alloc (s.rd (padd b.addr (get_size s b.addr))) = true)
      ∨ ∃ n post0, post = n :: post0 ∧ n.alloc = false ∧ free_after post = [n]
        ∧ kept_after post = post0 := by
  cases post with
  | nil => exact Or.inl ⟨rfl, rfl, hc.heap.next_nil he rfl⟩
  | cons n post0 =>
    cases hna : n.alloc with
    | true =>
      left
      have hfa : free_after (n :: post0) = [] := by rw [free_after_cons, if_pos hna]
      obtain ⟨-, e2, -, -⟩ := hc.heap.next_cons rfl
      refine ⟨hfa, ?_, e2.trans hna⟩
      unfold kept_after
      rw [hfa]
      rfl
    | false =>
      right
      have hfa : free_after (n :: post0) = [n] := by
        rw [free_after_cons, if_neg (by rw [hna]; decide)]
      refine ⟨n, post0, rfl, hna, hfa, ?_⟩
      unfold kept_after
      rw [hfa]
      rfl

/-- The four cases of `coalesce` in one statement. -/
theorem joined_cases {s : State} {L : Nat → List Nat} {pre post : List Blk} {b : Blk}
    (hc : Core s (pre ++ [b] ++ post) L) (he : s.rd s.heap_epil = pack 0 true)
    (hfree : b.alloc = false)
    (hin : ∀ c ∈ merged_blocks pre b post, c.addr ∈ L (tier c.size)) :
    Joined s L b.addr (kept_before pre) (merged_blocks pre b post) (kept_after post)
        (merged_addr pre b) (merged_size pre b post)
      ∧ pre ++ [b] ++ post = kept_before pre ++ merged_blocks pre b post ++ kept_after post
      ∧ (∃ r ∈ merged_blocks pre b post, r.addr = merged_addr pre b) := by
  rcases prev_cases hc with ⟨hfb, hkb, hp⟩ | ⟨pre0, p, hpre, hpf, hfb, hkb⟩
  · rcases next_cases hc he with ⟨hfa, hka, hn⟩ | ⟨n, post0, hpost, hnf, hfa, hka⟩
    · have e1 : merged_blocks pre b post = [b] := by
        unfold merged_blocks; rw [hfb, hfa]; rfl
      have e2 : merged_addr pre b = b.addr := by
        unfold merged_addr; rw [hfb]; rfl
      have e3 : merged_size pre b post = b.size := by
        unfold merged_size; rw [e1]; simp
      rw [e1] at hin
      rw [e1, e2, e3, hkb, hka]
      exact ⟨join_tt hc hfree (hin b (by simp)) hp hn, rfl, ⟨b, by simp, rfl⟩⟩
    · subst hpost
      have e1 : merged_blocks pre b (n :: post0) = [b, n] := by
        unfold merged_blocks; rw [hfb, hfa]; rfl
      have e2 : merged_addr pre b = b.addr := by
        unfold merged_addr; rw [hfb]; rfl
      have e3 : merged_size pre b (n :: post0) = b.size + n.size := by
        unfold merged_size; rw [e1]; simp
      rw [e1] at hin
      rw [e1, e2, e3, hkb, hka]
      exact ⟨join_tf hc hfree hnf (hin b (by simp)) (hin n (by simp)) hp, by simp,
        ⟨b, by simp, rfl⟩⟩
  · subst hpre
    rcases next_cases hc he with ⟨hfa, hka, hn⟩ | ⟨n, post0, hpost, hnf, hfa, hka⟩
    · have e1 : merged_blocks (pre0 ++ [p]) b post = [p, b] := by
        unfold merged_blocks; rw [hfb, hfa]; rfl
      have e2 : merged_addr (pre0 ++ [p]) b = p.addr := by
        unfold merged_addr; rw [hfb]; rfl
      have e3 : merged_size (pre0 ++ [p]) b post = b.size + p.size := by
        unfold merged_size; rw [e1]; simp; omega
      rw [e1] at hin
      rw [e1, e2, e3, hkb, hka]
      exact ⟨join_ft hc hfree hpf (hin b (by simp)) (hin p (by simp)) hn, by simp,
        ⟨p, by simp, rfl⟩⟩
    · subst hpost
      have e1 : merged_blocks (pre0 ++ [p]) b (n :: post0) = [p, b, n] := by
        unfold merged_blocks; rw [hfb, hfa]; rfl
      have e2 : merged_addr (pre0 ++ [p]) b = p.addr := by
        unfold merged_addr; rw [hfb]; rfl
      have e3 : merged_size (pre0 ++ [p]) b (n :: post0) = b.size + p.size + n.size := by
        unfold merged_size; rw [e1]; simp; omega
      rw [e1] at hin
      rw [e1, e2, e3, hkb, hka]
      exact ⟨join_ff hc hfree hpf hnf (hin b (by simp)) (hin p (by simp)) (hin n (by simp)),
        by simp, ⟨p, by simp, rfl⟩⟩

/-- C18: `coalesce(b)` on a free block `b` of a well-formed heap in which `b` and its free
physical neighbours are in the lists of their tiers.  The call returns the first of the
merged blocks; afterwards the heap has, in place of the merged blocks, one free block whose
size is the sum of their sizes, with equal header and footer; that block is the head of
the list of the tier of its size and in no other list, the other merged blocks are in no
list, and every other block is in the lists it was in. -/
theorem coalesce_post {s : State} {L : Nat → List Nat} {pre post : List Blk} {b : Blk}
    (hc : Core s (pre ++ [b] ++ post) L) (he : s.rd s.heap_epil = pack 0 true)
    (hfree : b.alloc = false)
    (hin : ∀ c ∈ merged_blocks pre b post, c.addr ∈ L (tier c.size)) :
    pre ++ [b] ++ post = kept_before pre ++ merged_blocks pre b post ++ kept_after post
      ∧ ∃ L', Core (coalesce s b.addr).2 (kept_before pre
            ++ [⟨merged_addr pre b, merged_size pre b post, false⟩] ++ kept_after post) L'
        ∧ (coalesce s b.addr).1 = merged_addr pre b
        ∧ (coalesce s b.addr).2.rd (merged_addr pre b) = pack (merged_size pre b post) false
        ∧ (coalesce s b.addr).2.rd (merged_addr pre b + merged_size pre b post - 8)
            = pack (merged_size pre b post) false
        ∧ (coalesce s b.addr).2.all_free_list_start (tier (merged_size pre b post))
            = merged_addr pre b
        ∧ (L' (tier (merged_size pre b post))).head? = some (merged_addr pre b)
        ∧ (∀ i y, y ∈ L' i ↔ (y ∈ L i ∧ ∀ r ∈ merged_blocks pre b post, y ≠ r.addr)
            ∨ (y = merged_addr pre b ∧ i = tier (merged_size pre b post))) := by
  obtain ⟨hj, hshape, hlo⟩ := joined_cases hc he hfree hin
  obtain ⟨L', h1, h2, h3, h4, h5, h6, h7, -⟩ := hj.post hlo
  exact ⟨hshape, L', h1, h2, h3, h4, h5, h6, h7⟩

/-! ## Removing and inserting the head of a list -/

theorem State.eq_of_fields {a b : State} (h1 : a.mem = b.mem)
    (h2 : a.mem_start_brk = b.mem_start_brk) (h3 : a.mem_brk = b.mem_brk)
    (h4 : a.mem_max_addr = b.mem_max_addr) (h5 : a.heap_start = b.heap_start)
    (h6 : a.heap_prol = b.heap_prol) (h7 : a.heap_epil = b.heap_epil)
    (h8 : a.all_free_list_start = b.all_free_list_start)
    (h9 : a.all_free_list_end = b.all_free_list_end) : a = b := by
  cases a
  cases b
  simp only at h1 h2 h3 h4 h5 h6 h7 h8 h9
  subst h1 h2 h3 h4 h5 h6 h7 h8 h9
  rfl

/-- The only node of a list is removed and inserted again: the state is as before. -/
theorem readd_empty (t : State) (lo i : Nat) :
    (((((((((t.wr (lo + 8) NULL).wr (lo + 16) NULL).setList i lo lo).wr (lo + 8) NULL).wr
        (lo + 16) NULL).setList i NULL NULL).wr (lo + 8) NULL).wr (lo + 16) NULL).setList
        i lo lo)
      = ((t.wr (lo + 8) NULL).wr (lo + 16) NULL).setList i lo lo := by
  refine State.eq_of_fields ?_ rfl rfl rfl rfl rfl rfl ?_ ?_
  · funext x
    simp only [setList_mem, wr_mem]
    unfold store64
    split_ifs <;> rfl
  · funext j
    simp only [setList_start, wr_list_start]
    split_ifs <;> rfl
  · funext j
    simp only [setList_end, wr_list_end]
    split_ifs <;> rfl

/-- The head of a list with a second node `y` is removed and inserted again: the state is as
before. -/
theorem readd_cons (t : State) (lo y en i : Nat) :
    ((((((((((((t.wr (lo + 16) y).wr (lo + 8) NULL).wr (y + 8) lo).setList i lo en).wr
        (y + 8) NULL).wr (lo + 8) NULL).wr (lo + 16) NULL).setList i y en).wr (lo + 16)
        y).wr (lo + 8) NULL).wr (y + 8) lo).setList i lo en)
      = (((t.wr (lo + 16) y).wr (lo + 8) NULL).wr (y + 8) lo).setList i lo en := by
  refine State.eq_of_fields ?_ rfl rfl rfl rfl rfl rfl ?_ ?_
  · funext x
    simp only [setList_mem, wr_mem]
    unfold store64
    split_ifs <;> rfl
  · funext j
    simp only [setList_start, wr_list_start]
    split_ifs <;> rfl
  · funext j
    simp only [setList_end, wr_list_end]
    split_ifs <;> rfl

/-- A free block that is in no list is inserted, removed and inserted again: the state is
the state after the first insertion. -/
theorem readd_head {t : State} {bs : List Blk} {L2 : Nat → List Nat} (hc : Core t bs L2)
    {m : Blk} (hm : m ∈ bs) (hf : m.alloc = false) (hnot : m.addr ∉ L2 (tier m.size)) :
    add_to_free_list (rem_from_free_list (add_to_free_list t m.addr) m.addr) m.addr
      = add_to_free_list t m.addr := by
  have hbb := hc.heap.bounds hm
  have hgs := hc.heap.get_size hm
  have hga : get_alloc t m.addr = false := by rw [hc.heap.get_alloc hm, hf]
  obtain ⟨L3, hc3, -, -, hhd⟩ := add_block hc hm hf hnot
  have hgs3 := hc3.heap.get_size hm
  have hga3 : get_alloc (add_to_free_list t m.addr) m.addr = false := by
    rw [hc3.heap.get_alloc hm, hf]
  have hin3 : m.addr ∈ L3 (tier m.size) := by rw [hhd]; exact List.mem_cons_self _ _
  obtain ⟨L4, hc4, -, -⟩ := rem_block hc3 hm hin3
  have hgs4 := hc4.heap.get_size hm
  have hga4 : get_alloc (rem_from_free_list (add_to_free_list t m.addr) m.addr) m.addr
      = false := by
    rw [hc4.heap.get_alloc hm, hf]
  have h32 : 32 ≤ m.size := hbb.2.2.1
  have hlo0 : ¬ m.addr = NULL := by unfold NULL; omega
  have hp : prevField m.addr = m.addr + 8 := prevField_eq (by omega)
  have hn : nextField m.addr = m.addr + 16 := nextField_eq (by omega)
  have hst := hc.lists.heads (tier m.size)
  have hen := hc.lists.tails (tier m.size)
  cases hL : L2 (tier m.size) with
  | nil =>
    rw [hL] at hst hen
    have hst' : t.all_free_list_start (tier m.size) = NULL := hst
    have e_u : add_to_free_list t m.addr
        = ((t.wr (m.addr + 8) NULL).wr (m.addr + 16) NULL).setList (tier m.size) m.addr
            m.addr := by
      rw [add_to_free_list_eq hgs h32]
      unfold list_add
      rw [if_neg (by rw [hga]; simp [hlo0]), if_pos hst', hp, hn]
    rw [e_u] at hgs3 hga3 hgs4 hga4 ⊢
    have e_v : rem_from_free_list (((t.wr (m.addr + 8) NULL).wr (m.addr + 16) NULL).setList
        (tier m.size) m.addr m.addr) m.addr
        = (((((t.wr (m.addr + 8) NULL).wr (m.addr + 16) NULL).setList (tier m.size) m.addr
            m.addr).wr (m.addr + 8) NULL).wr (m.addr + 16) NULL).setList (tier m.size)
            NULL NULL := by
      rw [rem_from_free_list_eq hgs3 h32]
      refine list_rem_single _ ?_ ?_ (by omega)
      · rw [hga3, setList_start, if_pos rfl]
        simp [hlo0]
      · rw [setList_start, setList_end, if_pos rfl, if_pos rfl]
    rw [e_v] at hgs4 hga4 ⊢
    rw [add_to_free_list_eq hgs4 h32]
    unfold list_add
    rw [if_neg (by rw [hga4]; simp [hlo0]), if_pos (by rw [setList_start, if_pos rfl]), hp, hn]
    exact readd_empty t m.addr (tier m.size)
  | cons y ys =>
    rw [hL] at hst hen
    have hy : y ∈ L2 (tier m.size) := by rw [hL]; exact List.mem_cons_self _ _
    have hyb := hc.lists.node_bounds hc.heap hy
    have hsep := hc.lists.sep_block hc.heap hm hnot hy
    have hst' : t.all_free_list_start (tier m.size) = y := hst
    have hy0 : ¬ y = NULL := by unfold NULL; omega
    have hpy : prevField y = y + 8 := prevField_eq (by omega)
    have e_u : add_to_free_list t m.addr
        = (((t.wr (m.addr + 16) y).wr (m.addr + 8) NULL).wr (y + 8) m.addr).setList
            (tier m.size) m.addr (t.all_free_list_end (tier m.size)) := by
      rw [add_to_free_list_eq hgs h32]
      unfold list_add
      rw [if_neg (by rw [hga]; simp [hlo0]), if_neg (by rw [hst']; exact hy0), hp, hn, hst',
        hpy]
    have hene : ¬ m.addr = t.all_free_list_end (tier m.size) := by
      intro h
      apply hnot
      rw [h, hen, hL, List.getLastD_cons]
      exact getLastD_mem_cons y ys
    rw [e_u] at hgs3 hga3 hgs4 hga4 ⊢
    have hrd : ((((t.wr (m.addr + 16) y).wr (m.addr + 8) NULL).wr (y + 8) m.addr).setList
        (tier m.size) m.addr (t.all_free_list_end (tier m.size))).rd (m.addr + 16) = y := by
      rw [setList_rd, rd_wr_sep _ _ (by omega), rd_wr_sep _ _ (by omega),
        rd_wr_same _ _ _ (by omega)]
    have e_v : rem_from_free_list ((((t.wr (m.addr + 16) y).wr (m.addr + 8) NULL).wr (y + 8)
        m.addr).setList (tier m.size) m.addr (t.all_free_list_end (tier m.size))) m.addr
        = (((((((t.wr (m.addr + 16) y).wr (m.addr + 8) NULL).wr (y + 8) m.addr).setList
            (tier m.size) m.addr (t.all_free_list_end (tier m.size))).wr (y + 8) NULL).wr
            (m.addr + 8) NULL).wr (m.addr + 16) NULL).setList (tier m.size) y
            (t.all_free_list_end (tier m.size)) := by
      rw [rem_from_free_list_eq hgs3 h32, setList_start, setList_end, if_pos rfl,
        if_pos rfl]
      refine list_rem_head _ ?_ hene rfl (by omega) hrd (by omega)
      rw [hga3]
      simp [hlo0]
    rw [e_v] at hgs4 hga4 ⊢
    rw [add_to_free_list_eq hgs4 h32]
    unfold list_add
    rw [if_neg (by rw [hga4]; simp [hlo0]),
      if_neg (by rw [setList_start, if_pos rfl]; exact hy0), hp, hn, setList_start,
      setList_end, if_pos rfl, if_pos rfl, hpy]
    exact readd_cons t m.addr y (t.all_free_list_end (tier m.size)) (tier m.size)

/-! ## A second `coalesce` -/

/-- When the blocks next to the merged block are allocated, `coalesce` on the merged block
returns it and leaves the state as it is. -/
theorem Joined.again {s : State} {L : Nat → List Nat} {x : Nat} {pre mid post : List Blk}
    {lo tot : Nat} (hj : Joined s L x pre mid post lo tot) (hlo : ∃ r ∈ mid, r.addr = lo)
    (he : s.rd s.heap_epil = pack 0 true)
    (hpa : ∀ q ∈ pre.getLast?, q.alloc = true) (hna : ∀ q ∈ post.head?, q.alloc = true) :
    coalesce (coalesce s x).2 (coalesce s x).1 = coalesce s x := by
  obtain ⟨L2, t, hco, hc, hm, ht⟩ := hj
  rw [hco]
  show coalesce (add_to_free_list t lo) lo = (lo, add_to_free_list t lo)
  have hmm : (⟨lo, tot, false⟩ : Blk) ∈ pre ++ [⟨lo, tot, false⟩] ++ post := by simp
  generalize hmd : (⟨lo, tot, false⟩ : Blk) = m at hc hmm
  have ha : m.addr = lo := by rw [← hmd]
  have hf : m.alloc = false := by rw [← hmd]
  have hnot : m.addr ∉ L2 (tier m.size) := by
    intro hx
    obtain ⟨r, hr, hrl⟩ := hlo
    exact ((hm _ _).1 hx).2 r hr (by rw [ha, hrl])
  obtain ⟨L3, hc3, ht3, -, -⟩ := add_block hc hmm hf hnot
  have he3 : (add_to_free_list t m.addr).rd (add_to_free_list t m.addr).heap_epil
      = pack 0 true := (ht.trans ht3).epilogue he
  have h0 : get_alloc (add_to_free_list t m.addr) m.addr = false := by
    rw [hc3.heap.get_alloc hmm, hf]
  have hp : extract_alloc ((add_to_free_list t m.addr).rd (find_prev_footer m.addr))
      = true := by
    rcases List.eq_nil_or_concat pre with h | ⟨pre0, p, h⟩
    · subst h
      exact hc3.heap.prev_nil rfl
    · rw [List.concat_eq_append] at h
      subst h
      obtain ⟨-, e2, -, -⟩ := hc3.heap.prev_snoc rfl
      rw [e2]
      exact hpa p (by rw [List.getLast?_append_of_ne_nil _ (by simp)]; rfl)
  have hn : extract_alloc ((add_to_free_list t m.addr).rd
      (padd m.addr (get_size (add_to_free_list t m.addr) m.addr))) = true := by
    cases post with
    | nil => exact hc3.heap.next_nil he3 rfl
    | cons n post0 =>
      obtain ⟨-, e2, -, -⟩ := hc3.heap.next_cons rfl
      rw [e2]
      exact hna n rfl
  rw [← ha, coalesce_eq_tt h0 hp hn, readd_head hc hmm hf hnot]

/-- The blocks next to the merged blocks are allocated when no two adjacent blocks of `pre`
are both free. -/
theorem kept_before_alloc {pre : List Blk} (h : NoAdj pre) :
    ∀ q ∈ (kept_before pre).getLast?, q.alloc = true := by
  rcases List.eq_nil_or_concat pre with hp | ⟨pre0, p, hp⟩
  · subst hp
    intro q hq
    cases hq
  · rw [List.concat_eq_append] at hp
    subst hp
    unfold kept_before
    rw [free_before_snoc]
    cases hpa : p.alloc with
    | true =>
      rw [if_pos rfl]
      intro q hq
      rw [List.length_nil, Nat.sub_zero, List.take_length,
        List.getLast?_append_of_ne_nil _ (by simp)] at hq
      simp only [List.getLast?_singleton, Option.mem_def, Option.some.injEq] at hq
      subst hq
      exact hpa
    | false =>
      rw [if_neg (by decide)]
      intro q hq
      have e : (pre0 ++ [p]).take ((pre0 ++ [p]).length - [p].length) = pre0 := by simp
      rw [e] at hq
      exact (h.before_free hpa).2 q hq

/-- The blocks next to the merged blocks are allocated when no two adjacent blocks of `post`
are both free. -/
theorem kept_after_alloc {post : List Blk} (h : NoAdj post) :
    ∀ q ∈ (kept_after post).head?, q.alloc = true := by
  cases post with
  | nil =>
    intro q hq
    cases hq
  | cons n post0 =>
    unfold kept_after
    rw [free_after_cons]
    cases hna : n.alloc with
    | true =>
      rw [if_pos rfl]
      intro q hq
      simp only [List.length_nil, List.drop_zero, List.head?_cons, Option.mem_def,
        Option.some.injEq] at hq
      subst hq
      exact hna
    | false =>
      rw [if_neg (by decide)]
      intro q hq
      exact (h.after_free hna).2 q hq

/-- C19 (as the code does it): in a well-formed heap in which the free block `b` and its
free physical neighbours are in the lists of their tiers and the blocks next to them are
allocated (no two adjacent free blocks remain after the call), let
`c = coalesce(b)`; a second call `coalesce(c)` returns `c`, and the state after it is the
state after the first call. -/
theorem coalesce_idempotent {s : State} {L : Nat → List Nat} {pre post : List Blk} {b : Blk}
    (hc : Core s (pre ++ [b] ++ post) L) (he : s.rd s.heap_epil = pack 0 true)
    (hfree : b.alloc = false)
    (hin : ∀ c ∈ merged_blocks pre b post, c.addr ∈ L (tier c.size))
    (hpa : ∀ q ∈ (kept_before pre).getLast?, q.alloc = true)
    (hna : ∀ q ∈ (kept_after post).head?, q.alloc = true) :
    coalesce (coalesce s b.addr).2 (coalesce s b.addr).1
      = ((coalesce s b.addr).1, (coalesce s b.addr).2) := by
  obtain ⟨hj, -, hlo⟩ := joined_cases hc he hfree hin
  exact hj.again hlo he hpa hna

/-! ## Concrete well-formed heaps -/

/-- The walk by block sizes lists the blocks of a well-formed heap. -/
theorem block_walk_eq {s : State} {bs : List Blk} (hh : Heap s bs)
    (he : s.rd s.heap_epil = pack 0 true) (k : Nat) :
    ∀ (a : Nat) (post : List Blk), (∀ b ∈ post, b ∈ bs) → Layout a post s.heap_epil →
      ∀ l, block_walk k s a = some l → post = l.map Blk.ofTriple := by
  induction k with
  | zero =>
    intro a post _ _ l hl
    cases hl
  | succ k ih =>
    intro a post hsub hlay l hl
    unfold block_walk at hl
    cases post with
    | nil =>
      have ha : a = s.heap_epil := hlay
      have hz : MM.get_size s a = 0 := by
        unfold MM.get_size
        rw [ha, he]
        decide
      rw [if_pos hz] at hl
      cases hl
      rfl
    | cons b post =>
      obtain ⟨h1, h2, h3, h4⟩ := hlay
      have hb : b ∈ bs := hsub b (List.mem_cons_self _ _)
      have hbb := hh.bounds hb
      have hsz : MM.get_size s a = b.size := by rw [← h1]; exact hh.get_size hb
      have hal : MM.get_alloc s a = b.alloc := by rw [← h1]; exact hh.get_alloc hb
      have hnx : find_next s a = a + b.size := by
        unfold find_next
        rw [hsz]
        exact padd_eq (by omega)
      rw [if_neg (by omega), hnx, hsz, hal] at hl
      cases hw : block_walk k s (a + b.size) with
      | none =>
        rw [hw] at hl
        cases hl
      | some l0 =>
        rw [hw] at hl
        have hl' : (a, b.size, b.alloc) :: l0 = l := Option.some.inj hl
        subst hl'
        have ih' := ih (a + b.size) post (fun c hc => hsub c (List.mem_cons_of_mem _ hc)) h4
          l0 hw
        rw [List.map_cons, ← ih', ← h1]
        rfl

/-- The blocks of a state that satisfies the invariant, read off by the walk. -/
theorem Inv.blocks {s : State} {bs : List Blk} {L : Nat → List Nat} (hi : Inv s bs L)
    {k : Nat} {l : List (Nat × Nat × Bool)} (hw : block_walk k s s.heap_start = some l) :
    bs = l.map Blk.ofTriple :=
  block_walk_eq hi.core.heap hi.epilogue k s.heap_start bs (fun _ h => h)
    hi.core.heap.layout l hw

theorem free_before_mem {pre : List Blk} {c : Blk} (h : c ∈ free_before pre) :
    c ∈ pre ∧ c.alloc = false := by
  rcases List.eq_nil_or_concat pre with hp | ⟨pre0, p, hp⟩
  · subst hp
    cases h
  · rw [List.concat_eq_append] at hp
    subst hp
    rw [free_before_snoc] at h
    cases hpa : p.alloc with
    | true =>
      rw [if_pos hpa] at h
      cases h
    | false =>
      rw [if_neg (by rw [hpa]; decide), List.mem_singleton] at h
      subst h
      exact ⟨by simp, hpa⟩

theorem free_after_mem {post : List Blk} {c : Blk} (h : c ∈ free_after post) :
    c ∈ post ∧ c.alloc = false := by
  cases post with
  | nil => cases h
  | cons n post0 =>
    rw [free_after_cons] at h
    cases hna : n.alloc with
    | true =>
      rw [if_pos hna] at h
      cases h
    | false =>
      rw [if_neg (by rw [hna]; decide), List.mem_singleton] at h
      subst h
      exact ⟨List.mem_cons_self _ _, hna⟩

/-- When every free block is listed, so are the blocks that `coalesce` merges. -/
theorem merged_listed {L : Nat → List Nat} {pre post : List Blk} {b : Blk}
    (hfull : ∀ c ∈ pre ++ [b] ++ post, c.alloc = false → c.addr ∈ L (tier c.size))
    (hfree : b.alloc = false) :
    ∀ c ∈ merged_blocks pre b post, c.addr ∈ L (tier c.size) := by
  intro c hc
  unfold merged_blocks at hc
  rw [mem_mid_iff] at hc
  rcases hc with h | h | h
  · obtain ⟨h1, h2⟩ := free_before_mem h
    exact hfull c (by rw [mem_mid_iff]; exact Or.inl h1) h2
  · rw [List.mem_singleton] at h
    subst h
    exact hfull c (by simp) hfree
  · obtain ⟨h1, h2⟩ := free_after_mem h
    exact hfull c (by rw [mem_mid_iff]; exact Or.inr (Or.inr h1)) h2

/-- The state of `free` right before it calls `coalesce`: the heap is well-formed, the freed
block is free and every free block is listed. -/
theorem freed_block_core {s : State} {L : Nat → List Nat} {pre post : List Blk} {b : Blk}
    (hi : Inv s (pre ++ [b] ++ post) L) (ha : b.alloc = true) :
    ∃ L1, Core (freed_block s b.addr b.size) (pre ++ [⟨b.addr, b.size, false⟩] ++ post) L1
      ∧ (freed_block s b.addr b.size).rd (freed_block s b.addr b.size).heap_epil = pack 0 true
      ∧ (∀ c ∈ pre ++ [⟨b.addr, b.size, false⟩] ++ post, c.alloc = false
          → c.addr ∈ L1 (tier c.size))
      ∧ NoAdj pre ∧ NoAdj post := by
  have hb : b ∈ pre ++ [b] ++ post := by simp
  have hbb := hi.core.heap.bounds hb
  obtain ⟨lo, hi', hl1, hl2, hl3⟩ := hi.core.heap.layout.three
  have hlo : lo = b.addr := hl2.1.symm
  have hhi : hi' = b.addr + b.size := by
    have h2 : lo + b.size = hi' := hl2.2.2.2
    omega
  subst hlo
  subst hhi
  have hnot : ∀ c ∈ [b], ∀ i, c.addr ∉ L i := by
    intro c hc i
    rw [List.mem_singleton] at hc
    subst hc
    exact hi.core.alloc_unlisted hb ha i
  obtain ⟨hc2, ht2⟩ := @Core.set_block _ _ _ _ _ _ (b.addr + b.size) false hi.core hl1 hl3
    (by omega) (by omega) hnot
  simp only [Nat.add_sub_cancel_left] at hc2 ht2
  have hb' : (⟨b.addr, b.size, false⟩ : Blk) ∈ pre ++ [⟨b.addr, b.size, false⟩] ++ post := by
    simp
  obtain ⟨L1, hc3, ht3, hm3, -⟩ := add_block hc2 hb' rfl (hi.core.alloc_unlisted hb ha _)
  obtain ⟨hnpre, -, hnpost⟩ := hi.noadj.parts
  refine ⟨L1, hc3, (ht2.trans ht3).epilogue hi.epilogue, ?_, hnpre, hnpost⟩
  intro c hcm hcf
  rw [mem_mid_iff] at hcm
  rcases hcm with h | h | h
  · exact (hm3 _ _).2 (Or.inl (hi.full c (by rw [mem_mid_iff]; exact Or.inl h) hcf))
  · rw [List.mem_singleton] at h
    subst h
    exact (hm3 _ _).2 (Or.inr ⟨rfl, rfl⟩)
  · exact (hm3 _ _).2 (Or.inl (hi.full c (by rw [mem_mid_iff]; exact Or.inr (Or.inr h)) hcf))

theorem second_malloc_reach :
    Reach second_malloc.2 [(second_malloc.1, 24), (first_malloc.1, 16)] :=
  Reach.malloc 0 first_malloc.2 second_malloc.2 _ 24 second_malloc.1 first_malloc_reach
    (by decide) (malloc_eq 0 (by decide) 24) (by decide)

theorem after_free_reach :
    Reach after_free
      ([(second_malloc.1, 24), (first_malloc.1, 16)].filter fun e => e.1 ≠ first_malloc.1) :=
  Reach.free second_malloc.2 _ first_malloc.1 16 second_malloc_reach (by simp)

theorem init_state_core :
    ∃ L, Core init_state ([] ++ [⟨65544, 4096, false⟩] ++ []) L
      ∧ (⟨65544, 4096, false⟩ : Blk).addr ∈ L (tier (⟨65544, 4096, false⟩ : Blk).size) := by
  obtain ⟨bs, L, hi, -⟩ := reach_inv init_state_reach
  have hw : block_walk 3 init_state init_state.heap_start = some [(65544, 4096, false)] := by
    decide
  have hbs := hi.blocks hw
  subst hbs
  exact ⟨L, hi.core, hi.full _ (List.mem_singleton.2 rfl) rfl⟩

theorem after_free_inv :
    ∃ L, Inv after_free
      ([⟨65544, 32, false⟩] ++ [⟨65576, 48, true⟩] ++ [⟨65624, 4016, false⟩]) L := by
  obtain ⟨bs, L, hi, -⟩ := reach_inv after_free_reach
  have hw : block_walk 5 after_free after_free.heap_start
      = some [(65544, 32, false), (65576, 48, true), (65624, 4016, false)] := by
    decide
  have hbs := hi.blocks hw
  subst hbs
  exact ⟨L, hi⟩

theorem mid_free_core :
    ∃ L, Core mid_free
        ([⟨65544, 32, false⟩] ++ [⟨65576, 48, false⟩] ++ [⟨65624, 4016, false⟩]) L
      ∧ mid_free.rd mid_free.heap_epil = pack 0 true
      ∧ (∀ c ∈ merged_blocks [⟨65544, 32, false⟩] ⟨65576, 48, false⟩ [⟨65624, 4016, false⟩],
          c.addr ∈ L (tier c.size))
      ∧ (∀ q ∈ (kept_before [⟨65544, 32, false⟩]).getLast?, q.alloc = true)
      ∧ (∀ q ∈ (kept_after [⟨65624, 4016, false⟩]).head?, q.alloc = true) := by
  obtain ⟨L, hi⟩ := after_free_inv
  obtain ⟨L1, hc, he, hfull, hnpre, hnpost⟩ := freed_block_core hi rfl
  exact ⟨L1, hc, he, merged_listed hfull rfl, kept_before_alloc hnpre,
    kept_after_alloc hnpost⟩

theorem place_split_witness :
    ((place init_state 65544 48).rd 65544 = pack 48 true
        ∧ (place init_state 65544 48).rd (65544 + 48) = pack (4096 - 48) false
        ∧ (place init_state 65544 48).all_free_list_start (tier (4096 - 48)) = 65544 + 48)
      ∧ (place init_state 65544 4080).rd 65544 = pack 4096 true := by
  obtain ⟨L, hc, hin⟩ := init_state_core
  obtain ⟨L1, -, h1, -, h3, -, -, h6, -, -, -⟩ :=
    (place_split hc rfl hin (show 32 ≤ 48 by decide) (by decide) (by decide)).1 (by decide)
  obtain ⟨L2, -, h7, -, -⟩ :=
    (place_split hc rfl hin (show 32 ≤ 4080 by decide) (by decide) (by decide)).2 (by decide)
  exact ⟨⟨h1, h3, h6⟩, h7⟩

theorem coalesce_post_witness :
    (coalesce mid_free 65576).1 = 65544
      ∧ (coalesce mid_free 65576).2.rd 65544 = pack 4096 false
      ∧ (coalesce mid_free 65576).2.rd (65544 + 4096 - 8) = pack 4096 false
      ∧ (coalesce mid_free 65576).2.all_free_list_start (tier 4096) = 65544 := by
  obtain ⟨L, hc, he, hin, -, -⟩ := mid_free_core
  have h := @coalesce_post mid_free L [⟨65544, 32, false⟩] [⟨65624, 4016, false⟩]
    ⟨65576, 48, false⟩ hc he rfl hin
  obtain ⟨-, L', -, h2, h3, h4, h5, -, -⟩ := h
  exact ⟨h2, h3, h4, h5⟩

theorem coalesce_idempotent_witness :
    coalesce (coalesce mid_free 65576).2 (coalesce mid_free 65576).1
      = ((coalesce mid_free 65576).1, (coalesce mid_free 65576).2) := by
  obtain ⟨L, hc, he, hin, hpa, hna⟩ := mid_free_core
  have h := @coalesce_idempotent mid_free L [⟨65544, 32, false⟩] [⟨65624, 4016, false⟩]
    ⟨65576, 48, false⟩ hc he rfl hin hpa hna
  exact h

/-! ## Placement without a split -/

/-- C21 (as the code does it): `place(block, asize)` on a listed free block of size `csize`
of a well-formed heap with `csize - asize < 32` in 64-bit arithmetic.  The block leaves
the lists, the other blocks stay in theirs, the header is `pack(csize, true)`, and the last
word of the block, which held the footer `pack(csize, false)`, holds `pack(csize, true)`:
the footer is written and the word has changed. -/
theorem place_whole {s : State} {L : Nat → List Nat} {pre post : List Blk} {b : Blk}
    (hc : Core s (pre ++ [b] ++ post) L) (hfree : b.alloc = false)
    (hin : b.addr ∈ L (tier b.size)) {asize : Nat} (ha : asize < 2^64)
    (hsp : psub b.size asize < 32) :
    ∃ L', Core (place s b.addr asize) (pre ++ [⟨b.addr, b.size, true⟩] ++ post) L'
      ∧ (∀ i x, x ∈ L' i ↔ (x ∈ L i ∧ x ≠ b.addr))
      ∧ (place s b.addr asize).rd b.addr = pack b.size true
      ∧ s.rd (b.addr + b.size - 8) = pack b.size false
      ∧ (place s b.addr asize).rd (b.addr + b.size - 8) = pack b.size true
      ∧ pack b.size true ≠ pack b.size false := by
  have hb : b ∈ pre ++ [b] ++ post := by simp
  have hbb := hc.heap.bounds hb
  have hcases : asize ≤ b.size ∧ b.size - asize < 32 := by
    unfold psub at hsp
    omega
  obtain ⟨L', hc', h1, h2, -⟩ := place_whole_case hc hin hcases.1 hcases.2
  have hm : (⟨b.addr, b.size, true⟩ : Blk) ∈ pre ++ [⟨b.addr, b.size, true⟩] ++ post := by
    simp
  have hft := hc.heap.rd_footer hb
  rw [hfree] at hft
  refine ⟨L', hc', h2, h1, hft, (hc'.heap.tags_at hm).2, ?_⟩
  rw [pack_eq true (by omega), pack_eq false (by omega)]
  simp

/-- C21: in the state after `mm_init` the free block at `65544` has size 4096 and its last
word, at `69632`, holds `pack(4096, false)`; `place(block, 4080)` does not split
(`4096 - 4080 < 32`) and leaves `pack(4096, true)` in that word. -/
theorem place_writes_footer :
    (get_alloc init_state 65544, get_size init_state 65544, decide (psub 4096 4080 < 32),
      init_state.rd (65544 + 4096 - 8), (place init_state 65544 4080).rd (65544 + 4096 - 8))
      = (false, 4096, true, 4096, 4097) := by
  decide

theorem place_whole_witness :
    (place init_state 65544 4080).rd 65544 = pack 4096 true
      ∧ init_state.rd (65544 + 4096 - 8) = pack 4096 false
      ∧ (place init_state 65544 4080).rd (65544 + 4096 - 8) = pack 4096 true := by
  obtain ⟨L, hc, hin⟩ := init_state_core
  have h := @place_whole init_state L [] [] ⟨65544, 4096, false⟩ hc rfl hin 4080 (by decide)
    (by decide)
  obtain ⟨L', -, -, h1, h2, h3, -⟩ := h
  exact ⟨h1, h2, h3⟩

/-! ## The guard of `list_rem` -/

/-- C22 (as the code does it): `list_rem(block, L)` leaves the whole state as it is when the
block is null, when it is marked allocated, and when the list is empty.  There is no test
for membership: for a free block and a list with one element (`free_list_start` equal to
`free_list_end`) the head and the tail of the list become null and both links of the block
become null, whether or not the block is the element. -/
theorem list_rem_guard (s : State) (b st en i : Nat) :
    (b = NULL ∨ get_alloc s b = true ∨ st = NULL → list_rem s b st en i = s)
      ∧ (b ≠ NULL → get_alloc s b = false → st ≠ NULL → st = en → b + 16 < 2^64 →
          list_rem s b st en i = ((s.wr (b + 8) NULL).wr (b + 16) NULL).setList i NULL NULL
            ∧ (list_rem s b st en i).all_free_list_start i = NULL
            ∧ (list_rem s b st en i).all_free_list_end i = NULL) := by
  constructor
  · intro h
    unfold list_rem
    rw [if_pos h]
  · intro h1 h2 h3 h4 h5
    have h0 : ¬ (b = NULL ∨ get_alloc s b = true ∨ st = NULL) := by
      rw [h2]
      simp [h1, h3]
    have e := list_rem_single i h0 h4 h5
    refine ⟨e, ?_, ?_⟩
    · rw [e, setList_start, if_pos rfl]
    · rw [e, setList_end, if_pos rfl]

/-- C22: in `after_free` the block `65544` is free and the third list holds the one block
`65624`; `list_rem` of the block `65544` on the third list leaves that list empty. -/
theorem list_rem_empties_other_list :
    (get_alloc after_free 65544,
      free_list_nodes 5 after_free (after_free.all_free_list_start third_list),
      after_free.all_free_list_end third_list,
      (list_rem after_free 65544 (after_free.all_free_list_start third_list)
        (after_free.all_free_list_end third_list) third_list).all_free_list_start third_list,
      (list_rem after_free 65544 (after_free.all_free_list_start third_list)
        (after_free.all_free_list_end third_list) third_list).all_free_list_end third_list)
      = (false, [65624], 65624, NULL, NULL) := by
  decide

theorem list_rem_guard_witness :
    list_rem first_malloc.2 65544 65576 65576 third_list = first_malloc.2
      ∧ list_rem after_free 65544 65624 65624 third_list
          = ((after_free.wr (65544 + 8) NULL).wr (65544 + 16) NULL).setList third_list NULL NULL
      ∧ (list_rem after_free 65544 65624 65624 third_list).all_free_list_start third_list
          = NULL :=
  ⟨(list_rem_guard first_malloc.2 65544 65576 65576 third_list).1 (Or.inr (Or.inl (by decide))),
    ((list_rem_guard after_free 65544 65624 65624 third_list).2 (by decide) (by decide)
      (by decide) rfl (by decide)).1,
    ((list_rem_guard after_free 65544 65624 65624 third_list).2 (by decide) (by decide)
      (by decide) rfl (by decide)).2.1⟩

/-! ## The header codec -/

/-- C23: for a size `s` that is a multiple of 16 below `2^64` and a flag `a`,
`extract_size(pack(s, a)) = s` and `extract_alloc(pack(s, a)) = a`; for a 64-bit word `w`,
`extract_size(w)` is `w` with its low 4 bits cleared, and `extract_alloc(w)` is bit 0 of
`w`. -/
theorem codec_round_trip (s : Nat) (a : Bool) (w : Nat) :
    (s % 16 = 0 → s < 2^64 → extract_size (pack s a) = s ∧ extract_alloc (pack s a) = a)
      ∧ (w < 2^64 →
          extract_size w = w - w % 16
            ∧ (∀ i, (extract_size w).testBit i = (decide (4 ≤ i) && w.testBit i))
            ∧ extract_alloc w = w.testBit 0) := by
  constructor
  · intro h16 hs
    exact ⟨extract_size_pack a h16 hs, extract_alloc_pack a h16⟩
  · intro hw
    refine ⟨extract_size_eq hw, ?_, ?_⟩
    · intro i
      unfold extract_size
      rw [Nat.testBit_and, testBit_size_mask]
      by_cases h64 : i < 64
      · by_cases h4 : 4 ≤ i <;> simp [h4, h64]
      · have : w < 2 ^ i := lt_of_lt_of_le hw (Nat.pow_le_pow_right (by norm_num) (by omega))
        simp [h64, Nat.testBit_lt_two_pow this]
    · rw [extract_alloc_eq, Nat.testBit_zero]

theorem codec_round_trip_witness :
    (extract_size (pack 4096 true) = 4096 ∧ extract_alloc (pack 4096 true) = true)
      ∧ extract_size 4111 = 4111 - 4111 % 16
      ∧ (∀ i, (extract_size 4111).testBit i = (decide (4 ≤ i) && (4111 : Nat).testBit i))
      ∧ extract_alloc 4111 = (4111 : Nat).testBit 0 :=
  ⟨(codec_round_trip 4096 true 4111).1 (by decide) (by decide),
    (codec_round_trip 4096 true 4111).2 (by decide)⟩

/-! ## Re-initialisation and repeated coalescing -/

/-- C2: after `mm_init(); a = malloc(64); b = malloc(64); free(a); mm_init()`, where the
second `mm_init` returns true, `malloc(3920)` returns `65712`; the prologue of the heap is at
`69648` and the epilogue at `73752`, so the range `[65712, 69632)` does not lie between the
prologue and the epilogue. -/
theorem malloc_below_prologue_after_reinit :
    run_reinit_malloc.map (fun r =>
      (r.1, r.2.1, r.2.2.heap_prol, r.2.2.heap_epil, decide (r.2.2.heap_prol + 8 ≤ r.2.1)))
      = some (true, 65712, 69648, 73752, false) := by
  decide

/-- C19: in `mid_free` the heap is the three free blocks at `65544`, `65576` and `65624`,
each in the list of its tier.  `coalesce(65624)` joins the block with the one before it and
returns `65576`, with the free block `65544` still before it; `coalesce(65576)` then returns
`65544` and joins the two into one block of size 4096, so the state has changed. -/
theorem coalesce_twice_merges_again :
    block_walk 9 mid_free mid_free.heap_start
        = some [(65544, 32, false), (65576, 48, false), (65624, 4016, false)]
      ∧ free_list_nodes 5 mid_free (mid_free.all_free_list_start first_list) = [65544]
      ∧ free_list_nodes 5 mid_free (mid_free.all_free_list_start second_list) = [65576]
      ∧ free_list_nodes 5 mid_free (mid_free.all_free_list_start third_list) = [65624]
      ∧ (coalesce mid_free 65624).1 = 65576
      ∧ block_walk 9 (coalesce mid_free 65624).2 mid_free.heap_start
        = some [(65544, 32, false), (65576, 4064, false)]
      ∧ (coalesce (coalesce mid_free 65624).2 (coalesce mid_free 65624).1).1 = 65544
      ∧ block_walk 9 (coalesce (coalesce mid_free 65624).2 (coalesce mid_free 65624).1).2
          mid_free.heap_start
        = some [(65544, 4096, false)] := by
  decide

end MM
